import Mathlib

/-!
Verification of the hst CSP engine (hst-core): a shallow embedding of the
`Process`/`Cursor` substrate, the per-operator cursor state machines
(`Stop`, `Skip`, `Prefix`, `InternalChoice`, `ExternalChoice`,
`SequentialComposition`), the `Possibilities` bookkeeping structure, the
`MaximalTraces` set, and the trace engine (`maximal_finite_traces`,
`satisfies_trace`, and the `Initials`/`Afters` functional interface).

Conventions of the embedding:
* Rust events are the closed type `Event` below: the two built-in hidden
  events τ and ✔ plus numbered visible events (the `NumberedEvent` test
  alphabet of the repository).
* Rust `panic!`/failed `expect`/failed `assert!` is modelled by `Option`: a
  function that can abort returns `none` exactly when the Rust code would
  abort.
* The parallel vectors `subcursors`/`activated` of `InternalChoiceCursor`
  are modelled as a single list of pairs; `ExternalChoiceCursor`'s
  `Vec<Vec<Option<C>>>` is a list of lists of options, together with the
  `tau_count` field and the `Unresolved`/`Resolved` state.
* Iterator chains (`flat_map`, `any`, per-element loops) are written as
  mutually recursive list helpers, one per nesting level.
-/

/-- Events: τ (tau), ✔ (tick), and numbered visible events. -/
inductive Event where
  | tau : Event
  | tick : Event
  | num : Nat → Event
deriving DecidableEq

/-- The closed CSP process type (`CSPSig` in `csp.rs`): `Stop`, `Skip`,
`Prefix`, replicated `InternalChoice`, replicated `ExternalChoice`, and
`SequentialComposition`. -/
inductive Proc where
  | stop : Proc
  | skip : Proc
  | pfx : Event → Proc → Proc
  | intChoice : List Proc → Proc
  | extChoice : List Proc → Proc
  | seq : Proc → Proc → Proc

/-- `SequentialCompositionState` from `sequential_composition.rs`. -/
inductive SeqState where
  | beforeTick : SeqState
  | afterTick : SeqState
  | shrug : SeqState
deriving DecidableEq

/-- Cursor states of the composite process type (`CSPSigCursor`): one
variant per operator, with the fields of the per-operator cursor structs.
* `skip b`: `b` is true in the `AfterTick` state.
* `pfx b i c`: `b` is true in the `AfterInitial` state; `i` is the initial
  event, `c` the child cursor.
* `intChoice b subs`: `b` is true in the `AfterTau` state; each pair is an
  `activated` bit together with the subcursor.
* `extChoice r rows t`: `r` is true in the `Resolved` state; `rows` is the
  `subcursors: Vec<Vec<Option<C>>>` field; `t` is `tau_count`.
* `seq st p qs`: the state, P's cursor and the `qs: Vec<Option<C>>` field. -/
inductive Cursor where
  | stop : Cursor
  | skip : Bool → Cursor
  | pfx : Bool → Event → Cursor → Cursor
  | intChoice : Bool → List (Bool × Cursor) → Cursor
  | extChoice : Bool → List (List (Option Cursor)) → Nat → Cursor
  | seq : SeqState → Cursor → List (Option Cursor) → Cursor

/- Structural equality test on cursors (the derived `PartialEq` of the
Rust cursor types, used by `previous_cursors.contains` in
`maximal_finite_traces`). -/
mutual

def Cursor.beq : Cursor → Cursor → Bool
  | .stop, .stop => true
  | .skip b1, .skip b2 => b1 = b2
  | .pfx b1 i1 c1, .pfx b2 i2 c2 => b1 = b2 && i1 = i2 && Cursor.beq c1 c2
  | .intChoice b1 s1, .intChoice b2 s2 => b1 = b2 && Cursor.beqSubs s1 s2
  | .extChoice r1 rows1 t1, .extChoice r2 rows2 t2 =>
      r1 = r2 && t1 = t2 && Cursor.beqRows rows1 rows2
  | .seq st1 p1 qs1, .seq st2 p2 qs2 =>
      st1 = st2 && Cursor.beq p1 p2 && Cursor.beqRow qs1 qs2
  | _, _ => false

def Cursor.beqSubs : List (Bool × Cursor) → List (Bool × Cursor) → Bool
  | [], [] => true
  | (a1, c1) :: r1, (a2, c2) :: r2 =>
      a1 = a2 && Cursor.beq c1 c2 && Cursor.beqSubs r1 r2
  | _, _ => false

def Cursor.beqRows : List (List (Option Cursor)) → List (List (Option Cursor)) → Bool
  | [], [] => true
  | row1 :: r1, row2 :: r2 => Cursor.beqRow row1 row2 && Cursor.beqRows r1 r2
  | _, _ => false

def Cursor.beqRow : List (Option Cursor) → List (Option Cursor) → Bool
  | [], [] => true
  | none :: r1, none :: r2 => Cursor.beqRow r1 r2
  | some c1 :: r1, some c2 :: r2 => Cursor.beq c1 c2 && Cursor.beqRow r1 r2
  | _, _ => false

end

/- `Cursor::events` of each operator (for `InternalChoiceCursor`, the
iterator of its `initials()` alphabet).  For sequential composition this is
`p_events` (P's events with ✔ replaced by τ), `q_events`, or both,
depending on the state. -/
mutual

def Cursor.events : Cursor → List Event
  | .stop => []
  | .skip b => if b then [] else [.tick]
  | .pfx b i c => if b then Cursor.events c else [i]
  | .intChoice b subs => if b then Cursor.eventsSubs subs else [.tau]
  | .extChoice _ rows _ => Cursor.eventsRows rows
  | .seq st p qs =>
      match st with
      | .beforeTick => (Cursor.events p).map (fun e => if e = .tick then .tau else e)
      | .afterTick => Cursor.eventsRow qs
      | .shrug =>
          (Cursor.events p).map (fun e => if e = .tick then .tau else e)
            ++ Cursor.eventsRow qs

def Cursor.eventsSubs : List (Bool × Cursor) → List Event
  | [] => []
  | (act, c) :: rest =>
      (if act then Cursor.events c else []) ++ Cursor.eventsSubs rest

def Cursor.eventsRows : List (List (Option Cursor)) → List Event
  | [] => []
  | row :: rest => Cursor.eventsRow row ++ Cursor.eventsRows rest

def Cursor.eventsRow : List (Option Cursor) → List Event
  | [] => []
  | none :: rest => Cursor.eventsRow rest
  | some c :: rest => Cursor.events c ++ Cursor.eventsRow rest

end

/- `Cursor::can_perform` of each operator (for `InternalChoiceCursor`,
`Alphabet::contains` of its `initials()` alphabet).  For sequential
composition this follows `p_can_perform`/`q_can_perform`. -/
mutual

def Cursor.canPerform : Cursor → Event → Bool
  | .stop, _ => false
  | .skip b, e => if b then false else e = .tick
  | .pfx b i c, e => if b then Cursor.canPerform c e else e = i
  | .intChoice b subs, e => if b then Cursor.canPerformSubs subs e else e = .tau
  | .extChoice _ rows _, e => Cursor.canPerformRows rows e
  | .seq st p qs, e =>
      match st with
      | .beforeTick =>
          if e = .tick then false
          else if e = .tau then Cursor.canPerform p .tau || Cursor.canPerform p .tick
          else Cursor.canPerform p e
      | .afterTick => Cursor.canPerformRow qs e
      | .shrug =>
          (if e = .tick then false
           else if e = .tau then Cursor.canPerform p .tau || Cursor.canPerform p .tick
           else Cursor.canPerform p e) || Cursor.canPerformRow qs e

def Cursor.canPerformSubs : List (Bool × Cursor) → Event → Bool
  | [], _ => false
  | (act, c) :: rest, e =>
      (act && Cursor.canPerform c e) || Cursor.canPerformSubs rest e

def Cursor.canPerformRows : List (List (Option Cursor)) → Event → Bool
  | [], _ => false
  | row :: rest, e => Cursor.canPerformRow row e || Cursor.canPerformRows rest e

def Cursor.canPerformRow : List (Option Cursor) → Event → Bool
  | [], _ => false
  | none :: rest, e => Cursor.canPerformRow rest e
  | some c :: rest, e => Cursor.canPerform c e || Cursor.canPerformRow rest e

end

/-- `total_tau_depth` of `ExternalChoiceCursor::deactivate_tau_subprocesses`:
the sum over all rows of `taus.len() - 1`. -/
def totalTauDepth (rows : List (List (Option Cursor))) : Nat :=
  (rows.map (fun row => row.length - 1)).sum

/-- The `taus.iter_mut().take(minimum_tau_count)` loop of
`deactivate_tau_subprocesses`: deactivate (set to `none`) the first
`minimum` entries of a row. -/
def deactivateRow : Nat → List (Option Cursor) → List (Option Cursor)
  | 0, row => row
  | _, [] => []
  | m + 1, _ :: rest => none :: deactivateRow m rest

/-- `ExternalChoiceCursor::deactivate_tau_subprocesses`: a row that could
have performed too few τ's for any consistent distribution gets its first
`minimum_tau_count` entries deactivated (set to `none`). -/
def deactivateTauSubprocesses (tauCount : Nat) (rows : List (List (Option Cursor))) :
    List (List (Option Cursor)) :=
  let total := totalTauDepth rows
  rows.map (fun row =>
    if row.length = 1 then row
    else
      let thisTau := row.length - 1
      let remaining := total - thisTau
      if remaining < tauCount then
        let minimum := tauCount - remaining
        deactivateRow minimum row
      else row)

theorem getLast?_mem {α : Type} : ∀ {l : List α} {x : α}, l.getLast? = some x → x ∈ l
  | [a], x, h => by simp [List.getLast?] at h; simp [h]
  | a :: b :: l, x, h => by
      rw [List.getLast?_cons_cons] at h
      exact List.mem_cons_of_mem a (getLast?_mem h)

/- `Cursor::perform` of each operator.  `none` models a Rust abort (the
`panic!` calls of `Stop`, `Skip`, `Prefix` and `InternalChoice` in state
`BeforeTau`, the failed `assert!` of `SequentialCompositionCursor::p_perform`,
the `panic!` of `ExternalChoiceCursor::perform_when_resolved`, and the
`expect` calls of `perform_tau_when_unresolved`). -/
mutual

def Cursor.perform : Cursor → Event → Option Cursor
  | .stop, _ => none
  | .skip b, e =>
      if b then none
      else if e = .tick then some (.skip true) else none
  | .pfx b i c, e =>
      if b then (Cursor.perform c e).map (.pfx true i)
      else if e = i then some (.pfx true i c) else none
  | .intChoice b subs, e =>
      if b then (Cursor.performSubs subs e).map (.intChoice true)
      else if e = .tau then some (.intChoice true subs) else none
  | .extChoice r rows t, e =>
      if r then
        -- perform_when_resolved: panics if no subprocess could perform.
        if Cursor.canPerformRows rows e then
          (Cursor.performRows rows e).map (fun rows2 => .extChoice true rows2 t)
        else none
      else if e = .tau then
        -- perform_tau_when_unresolved, then deactivate_tau_subprocesses.
        (Cursor.performRowsTau (t + 1) rows).map (fun rows2 =>
          .extChoice false (deactivateTauSubprocesses (t + 1) rows2) (t + 1))
      else
        -- perform_visible_when_unresolved: the return value of
        -- perform_and_deactivate is ignored.
        (Cursor.performRows rows e).map (fun rows2 => .extChoice true rows2 t)
  | .seq st p qs, e =>
      match st with
      | .beforeTick =>
          (Cursor.performP .beforeTick p e).map (fun s => .seq s.1 s.2 qs)
      | .afterTick =>
          (Cursor.performRow qs e).map (fun qs2 => .seq .afterTick p qs2)
      | .shrug =>
          (Cursor.performP .shrug p e).bind (fun s =>
            (Cursor.performRow qs e).map (fun qs2 => .seq s.1 s.2 qs2))

/-- `SequentialCompositionCursor::p_perform`: returns the updated state and
P-cursor; `none` is the failed `assert!(self.state != BeforeTick)`. -/
def Cursor.performP : SeqState → Cursor → Event → Option (SeqState × Cursor)
  | st, p, e =>
      if e = .tick then some (st, p)
      else if e = .tau then
        let couldBeBefore := Cursor.canPerform p .tau
        let couldBeAfter := Cursor.canPerform p .tick
        if !couldBeBefore && !couldBeAfter then
          if st = .beforeTick then none
          else some (.afterTick, p)
        else
          (if couldBeBefore then Cursor.perform p .tau else some p).map (fun p2 =>
            (if couldBeAfter then (if couldBeBefore then .shrug else .afterTick)
             else st, p2))
      else
        if Cursor.canPerform p e then
          (Cursor.perform p e).map (fun p2 => (st, p2))
        else if st = .beforeTick then none
        else some (.afterTick, p)

/-- The per-subcursor loop of `InternalChoiceCursor::perform` in state
`AfterTau`: deactivate subcursors that cannot perform the event, advance
the ones that can. -/
def Cursor.performSubs : List (Bool × Cursor) → Event → Option (List (Bool × Cursor))
  | [], _ => some []
  | (act, c) :: rest, e =>
      (if !act then some (act, c)
       else if Cursor.canPerform c e then
         (Cursor.perform c e).map (fun c2 => (true, c2))
       else some (false, c)).bind (fun s =>
        (Cursor.performSubs rest e).map (fun rest2 => s :: rest2))

/-- `ExternalChoiceCursor::perform_and_deactivate`, iterating over all
rows. -/
def Cursor.performRows : List (List (Option Cursor)) → Event →
    Option (List (List (Option Cursor)))
  | [], _ => some []
  | row :: rest, e =>
      (Cursor.performRow row e).bind (fun row2 =>
        (Cursor.performRows rest e).map (fun rest2 => row2 :: rest2))

/-- The per-entry loop of `perform_and_deactivate` (also `q_perform` of
`SequentialCompositionCursor`): entries that can perform the event advance,
the others are deactivated. -/
def Cursor.performRow : List (Option Cursor) → Event → Option (List (Option Cursor))
  | [], _ => some []
  | none :: rest, e =>
      (Cursor.performRow rest e).map (fun rest2 => none :: rest2)
  | some c :: rest, e =>
      (if Cursor.canPerform c e then (Cursor.perform c e).map some
       else some none).bind (fun o =>
        (Cursor.performRow rest e).map (fun rest2 => o :: rest2))

/-- The per-row loop of `ExternalChoiceCursor::perform_tau_when_unresolved`
(after `tau_count` has been incremented to the first argument): a row that
has kept up with every τ so far tries to perform one more. -/
def Cursor.performRowsTau : Nat → List (List (Option Cursor)) →
    Option (List (List (Option Cursor)))
  | _, [] => some []
  | t2, row :: rest =>
      (if row.length ≠ t2 then some row
       else
         match h : row.getLast? with
         | none => none  -- expect "Vector should never be empty"
         | some none => none  -- expect "All subprocesses should be active..."
         | some (some c) =>
             have hc : sizeOf c < sizeOf row := by
               have h1 := List.sizeOf_lt_of_mem (getLast?_mem h)
               simp at h1; omega
             if Cursor.canPerform c .tau then
               (Cursor.perform c .tau).map (fun c2 => row ++ [some c2])
             else some row).bind (fun row2 =>
        (Cursor.performRowsTau t2 rest).map (fun rest2 => row2 :: rest2))

end

/- `Process::root` of each operator. -/
mutual

def Proc.root : Proc → Cursor
  | .stop => .stop
  | .skip => .skip false
  | .pfx i p => .pfx false i (Proc.root p)
  | .intChoice ps => .intChoice false (Proc.rootSubs ps)
  | .extChoice ps => .extChoice false (Proc.rootRows ps) 0
  | .seq p q => .seq .beforeTick (Proc.root p) [some (Proc.root q)]

def Proc.rootSubs : List Proc → List (Bool × Cursor)
  | [] => []
  | p :: rest => (true, Proc.root p) :: Proc.rootSubs rest

def Proc.rootRows : List Proc → List (List (Option Cursor))
  | [] => []
  | p :: rest => [some (Proc.root p)] :: Proc.rootRows rest

end

/-- `internal_choice(p, q)`. -/
def internalChoice (p q : Proc) : Proc := .intChoice [p, q]

/-- `replicated_internal_choice(ps)`: panics (`none`) if `ps` is empty. -/
def replicatedInternalChoice (ps : List Proc) : Option Proc :=
  if ps.isEmpty then none else some (.intChoice ps)

/-- `external_choice(p, q)`. -/
def externalChoice (p q : Proc) : Proc := .extChoice [p, q]

/-- `replicated_external_choice(ps)`: any collection is permitted. -/
def replicatedExternalChoice (ps : List Proc) : Proc := .extChoice ps

/-- `sequential_composition(p, q)`. -/
def sequentialComposition (p q : Proc) : Proc := .seq p q

example : Proc.root .stop = .stop := by simp [Proc.root]
example : Cursor.events (Proc.root (.pfx (.num 0) .stop)) = [.num 0] := by
  simp [Proc.root, Cursor.events]
example : Cursor.perform (Proc.root (.pfx (.num 0) .stop)) (.num 0)
    = some (.pfx true (.num 0) .stop) := by
  simp [Proc.root, Cursor.perform]
example : Cursor.events (Proc.root (internalChoice .stop .skip)) = [.tau] := by
  simp [internalChoice, Proc.root, Proc.rootSubs, Cursor.events]
example : Cursor.perform (Proc.root (internalChoice .stop .skip)) .tau
    = some (.intChoice true [(true, .stop), (true, .skip false)]) := by
  simp [internalChoice, Proc.root, Proc.rootSubs, Cursor.perform]

/-- The prefix-removal loop of `MaximalTraces::insert`: starting from the
inserted trace, repeatedly pop the last element and remove the resulting
proper prefix from the set. -/
def MaximalTraces.removePrefixes : Finset (List Event) → List Event → Finset (List Event)
  | S, [] => S
  | S, p@(_ :: _) =>
      MaximalTraces.removePrefixes (S.erase p.dropLast) p.dropLast
termination_by _ p => p.length
decreasing_by subst_vars; simp [List.length_dropLast]

/-- `MaximalTraces::new()`: the set containing exactly the empty trace. -/
def MaximalTraces.new : Finset (List Event) := {[]}

/-- `MaximalTraces::insert`: a no-op if the new trace is a prefix of an
existing trace; otherwise removes every existing trace that is a proper
prefix of the new one and then adds it. -/
def MaximalTraces.insert (S : Finset (List Event)) (t : List Event) : Finset (List Event) :=
  if ∃ u ∈ S, t <+: u then S
  else Insert.insert t (MaximalTraces.removePrefixes S t)

/- The recursion of `maximal_finite_traces`: `mftAux` is the inner
`subprocess` function (with an explicit recursion-depth fuel, which the
Rust recursion does not need because it terminates on the cursors the
engine can reach); `mftFold` is its loop over the deduplicated set of
initial events.  The `none` branch of `mftFold` is unreachable: the engine
only performs events listed by `initials()`. -/
mutual

def mftAux : Nat → Finset (List Event) → Cursor → List Cursor → List Event →
    Finset (List Event)
  | 0, res, _, _, _ => res
  | n + 1, res, c, prev, tr =>
      if prev.any (fun p => Cursor.beq c p) then MaximalTraces.insert res tr
      else
        let I := (Cursor.events c).dedup
        if I.isEmpty then MaximalTraces.insert res tr
        else mftFold n I res c prev tr
termination_by n _ _ _ _ => (n, 0)

def mftFold : Nat → List Event → Finset (List Event) → Cursor → List Cursor →
    List Event → Finset (List Event)
  | _, [], res, _, _, _ => res
  | n, e :: es, res, c, prev, tr =>
      let res2 :=
        match Cursor.perform c e with
        | none => res
        | some c2 =>
            if e = .tau then mftAux n res c2 (prev ++ [c]) tr
            else mftAux n res c2 (prev ++ [c]) (tr ++ [e])
      mftFold n es res2 c prev tr
termination_by n es _ _ _ _ => (n, es.length + 1)

end

/-- `maximal_finite_traces(cursor)` with explicit recursion fuel. -/
def maximalFiniteTraces (n : Nat) (c : Cursor) : Finset (List Event) :=
  mftAux n MaximalTraces.new c [] []

/-- `satisfies_trace(cursor, trace)`: linear replay, checking
`can_perform` before each `perform`; returns `false` at the first event
that is not performable.  (`none` would mean a panic inside `perform`.) -/
def satisfiesTrace : Cursor → List Event → Option Bool
  | _, [] => some true
  | c, e :: rest =>
      if Cursor.canPerform c e then
        (Cursor.perform c e).bind (fun c2 => satisfiesTrace c2 rest)
      else some false

/- The functional `Initials`/`Afters` interface.  In this snapshot of the
code it is implemented by `Stop`, `Skip`, `Prefix` and `ExternalChoice`
(`internal_choice.rs` and `sequential_composition.rs` implement only the
cursor interface), so the functions return `none` on the two operators
without an implementation. -/
mutual

def Proc.initialsF : Proc → Option (List Event)
  | .stop => some []
  | .skip => some [.tick]
  | .pfx i _ => some [i]
  | .extChoice ps => Proc.initialsList ps
  | .intChoice _ => none
  | .seq _ _ => none

def Proc.initialsList : List Proc → Option (List Event)
  | [] => some []
  | p :: rest =>
      (Proc.initialsF p).bind (fun i =>
        (Proc.initialsList rest).map (fun irest => i ++ irest))

end

mutual

def Proc.aftersF : Proc → Event → Option (List Proc)
  | .stop, _ => some []
  | .skip, e => some (if e = .tick then [.stop] else [])
  | .pfx i p, e => some (if e = i then [p] else [])
  | .extChoice ps, e =>
      if e = .tau then Proc.aftersTau ps 0 ps
      else Proc.aftersVis ps e
  | .intChoice _, _ => none
  | .seq _ _, _ => none

/-- Rule 1 of `ExternalChoice::afters`: for each `(idx, P')` with
`P' ∈ afters(P_idx, τ)`, emit `□ (Ps ∖ {P_idx} ∪ {P'})`. -/
def Proc.aftersTau (all : List Proc) : Nat → List Proc → Option (List Proc)
  | _, [] => some []
  | idx, p :: rest =>
      (Proc.aftersF p .tau).bind (fun as =>
        (Proc.aftersTau all (idx + 1) rest).map (fun rest2 =>
          as.map (fun p1 => Proc.extChoice (all.set idx p1)) ++ rest2))

/-- Rule 2 of `ExternalChoice::afters`: `⋃ { afters(P, a) | P ∈ Ps }`. -/
def Proc.aftersVis : List Proc → Event → Option (List Proc)
  | [], _ => some []
  | p :: rest, e =>
      (Proc.aftersF p e).bind (fun as =>
        (Proc.aftersVis rest e).map (fun rest2 => as ++ rest2))

end

/-- Modelled from the spec: `transitions(process)` (present in this
snapshot only through its callers in the tests) materializes the
`Initials`/`Afters` functional interface, mapping each event to the
collection of after-processes. -/
def transitionsFor (p : Proc) (e : Event) : Option (List Proc) :=
  Proc.aftersF p e

/-! ### The `MaximalTraces` prefix-maximality theory -/

/-- No member of the set is a proper prefix of another member. -/
def PrefixMaximal (S : Finset (List Event)) : Prop :=
  ∀ u ∈ S, ∀ v ∈ S, u <+: v → u = v

theorem prefix_dropLast_iff {u t : List Event} (ht : t ≠ []) :
    u <+: t.dropLast ↔ (u <+: t ∧ u ≠ t) := by
  constructor
  · intro hp
    have hpt : u <+: t := hp.trans ( List.dropLast_prefix t)
    refine ⟨hpt, ?_⟩
    intro he
    have h1 := hp.length_le
    rw [List.length_dropLast, he] at h1
    have : 0 < t.length := List.length_pos.mpr ht
    omega
  · rintro ⟨hp, hne⟩
    have hlt : u.length < t.length := by
      have h1 := hp.length_le
      rcases Nat.lt_or_ge u.length t.length with h | h
      · exact h
      · exact absurd (hp.eq_of_length (by omega)) hne
    rw [List.dropLast_eq_take, List.prefix_take_iff]
    exact ⟨hp, by omega⟩

theorem removePrefixes_eq (t : List Event) :
    ∀ S, MaximalTraces.removePrefixes S t
      = S.filter (fun u => ¬(u <+: t ∧ u ≠ t)) := by
  induction t using List.reverseRecOn with
  | nil =>
      intro S
      rw [MaximalTraces.removePrefixes]
      rw [Finset.filter_true_of_mem]
      intro u _
      simp only [not_and, Decidable.not_not]
      intro h
      exact List.prefix_nil.mp h
  | append_singleton xs x ih =>
      intro S
      obtain ⟨a, l, hal⟩ := List.exists_cons_of_ne_nil
        (List.append_ne_nil_of_right_ne_nil xs (by simp : [x] ≠ []))
      rw [hal, MaximalTraces.removePrefixes, ← hal, List.dropLast_concat, ih]
      ext u
      simp only [Finset.mem_filter, Finset.mem_erase]
      constructor
      · rintro ⟨⟨hne, hu⟩, hcond⟩
        refine ⟨hu, ?_⟩
        rw [← prefix_dropLast_iff (by simp), List.dropLast_concat]
        intro h
        exact hcond ⟨h, hne⟩
      · rintro ⟨hu, hcond⟩
        rw [← prefix_dropLast_iff (by simp), List.dropLast_concat] at hcond
        refine ⟨⟨?_, hu⟩, ?_⟩
        · intro he
          exact hcond (he ▸ List.prefix_rfl)
        · rintro ⟨h1, _⟩
          exact hcond h1

theorem insert_blocked {S : Finset (List Event)} {t u : List Event}
    (hu : u ∈ S) (hp : t <+: u) : MaximalTraces.insert S t = S := by
  rw [MaximalTraces.insert, if_pos ⟨u, hu, hp⟩]

theorem mem_insert_free {S : Finset (List Event)} {t : List Event}
    (h : ¬∃ u ∈ S, t <+: u) (v : List Event) :
    v ∈ MaximalTraces.insert S t ↔ v = t ∨ (v ∈ S ∧ ¬(v <+: t ∧ v ≠ t)) := by
  rw [MaximalTraces.insert, if_neg h, removePrefixes_eq]
  simp

theorem insert_prefixMaximal {S : Finset (List Event)} {t : List Event}
    (hS : PrefixMaximal S) : PrefixMaximal (MaximalTraces.insert S t) := by
  rcases Decidable.em (∃ u ∈ S, t <+: u) with hb | hb
  · obtain ⟨u, hu, hp⟩ := hb
    rw [insert_blocked hu hp]
    exact hS
  · intro a ha b hb2 hab
    rw [mem_insert_free hb] at ha hb2
    rcases ha with ha | ⟨ha, hca⟩
    · rcases hb2 with hb2 | ⟨hb2, _⟩
      · rw [ha, hb2]
      · exact absurd ⟨b, hb2, ha ▸ hab⟩ hb
    · rcases hb2 with hb2 | ⟨hb2, _⟩
      · subst hb2
        by_contra hne
        exact hca ⟨hab, hne⟩
      · exact hS a ha b hb2 hab

theorem new_prefixMaximal : PrefixMaximal MaximalTraces.new := by
  intro u hu v hv _
  rw [MaximalTraces.new] at hu hv
  simp at hu hv
  rw [hu, hv]

theorem insert_nonempty_of {S : Finset (List Event)} {t : List Event}
    (hS : S.Nonempty) : (MaximalTraces.insert S t).Nonempty := by
  rw [MaximalTraces.insert]
  split
  · exact hS
  · exact Finset.insert_nonempty _ _

/-- A property preserved by `MaximalTraces::insert` holds for every result
accumulator of the `maximal_finite_traces` recursion. -/
theorem mftAux_preserves (phi : Finset (List Event) → Prop)
    (hins : ∀ S t, phi S → phi (MaximalTraces.insert S t)) :
    ∀ n res c prev tr, phi res → phi (mftAux n res c prev tr) := by
  intro n
  induction n with
  | zero => intro res c prev tr h; rw [mftAux]; exact h
  | succ n ih =>
      have hfold : ∀ es res c prev tr, phi res → phi (mftFold n es res c prev tr) := by
        intro es
        induction es with
        | nil => intro res c prev tr h; rw [mftFold]; exact h
        | cons e es ihe =>
            intro res c prev tr h
            rw [mftFold]
            apply ihe
            dsimp only
            split
            · exact h
            · split
              · exact ih _ _ _ _ h
              · exact ih _ _ _ _ h
      intro res c prev tr h
      rw [mftAux]
      split
      · exact hins _ _ h
      · dsimp only
        split
        · exact hins _ _ h
        · exact hfold _ _ _ _ _ h

/-! ### The `Possibilities` substrate (`possibilities.rs`) -/

/-- `Possibilities<E, C>` (instantiated at the engine's cursors): a pool of
subcursors, parallel activation bits, and a list of possibilities, each a
list of subcursor indices. -/
structure Possibilities where
  subcursors : List Cursor
  activated : List Bool
  possibilities : List (List Nat)

/-- Effectful `map` over `Option` (the propagation of subcursor panics
through a per-element loop), written recursively. -/
def mapMOpt {a b : Type} (f : a → Option b) : List a → Option (List b)
  | [] => some []
  | x :: xs => (f x).bind (fun y => (mapMOpt f xs).map (fun ys => y :: ys))

/-- Effectful fold over `Option` (the propagation of subcursor panics
through an accumulating loop), written recursively. -/
def foldlMOpt {s a : Type} (f : s → a → Option s) : s → List a → Option s
  | st, [] => some st
  | st, x :: xs => (f st x).bind (fun st2 => foldlMOpt f st2 xs)

/-- `Possibilities::new`: one possibility naming every subcursor, all
activated. -/
def Possibilities.new (cs : List Cursor) : Possibilities :=
  { subcursors := cs
    activated := List.replicate cs.length true
    possibilities := [List.range cs.length] }

/-- `Possibilities::activated_subcursors`. -/
def Possibilities.activatedSubcursors (P : Possibilities) : List Cursor :=
  ((P.activated.zip P.subcursors).filter (fun x => x.1)).map (fun x => x.2)

/-- `Possibilities::events`. -/
def Possibilities.events (P : Possibilities) : List Event :=
  P.activatedSubcursors.flatMap Cursor.events

/-- `Possibilities::can_perform`. -/
def Possibilities.canPerform (P : Possibilities) (e : Event) : Bool :=
  P.activatedSubcursors.any (fun c => Cursor.canPerform c e)

/-- `Possibilities::perform_all`: every activated subcursor that can
perform the event does; the ones that cannot are deactivated.  The
possibility list is left untouched. -/
def Possibilities.performAll (P : Possibilities) (e : Event) : Option Possibilities :=
  (mapMOpt (fun (ac : Bool × Cursor) =>
    if ac.1 then
      if Cursor.canPerform ac.2 e then
        (Cursor.perform ac.2 e).map (fun c2 => ((true, c2) : Bool × Cursor))
      else some ((false, ac.2) : Bool × Cursor)
    else some ac) (P.activated.zip P.subcursors)).map (fun pairs =>
      { P with activated := pairs.map (fun x => x.1)
               subcursors := pairs.map (fun x => x.2) })

/-- `Possibilities::perform_piecewise`: the four phases of the Rust
function — compute the eligible subcursors, the per-possibility eligible
counts, the splittable subcursors, run the subcursor-update loop (cloning
splittable subcursors, updating the others in place, recording
`eligible_afters`), and rebuild the possibility list with one new possibility
per eligible member of each surviving possibility. -/
def Possibilities.performPiecewise (P : Possibilities) (e : Event) : Option Possibilities :=
  let count := P.subcursors.length
  let eligible : List Bool := (List.range count).map (fun i =>
    P.activated.getD i false
      && (P.subcursors.getD i .stop |>.canPerform e))
  let eligPer : List Nat := P.possibilities.map (fun poss =>
    (poss.filter (fun i => eligible.getD i false)).length)
  let splittable : List Bool := (List.range count).map (fun i =>
    eligible.getD i false
      && ((P.possibilities.zip eligPer).any (fun pe =>
            decide (pe.2 > 1) && pe.1.contains i)))
  (foldlMOpt
    (fun (st : List Cursor × List Bool × List Nat) idx =>
      if !(eligible.getD idx false) then some st
      else if splittable.getD idx false then
        (Cursor.perform (st.1.getD idx .stop) e).map (fun after =>
          (st.1 ++ [after], st.2.1 ++ [true], st.2.2.set idx st.1.length))
      else
        (Cursor.perform (st.1.getD idx .stop) e).map (fun c2 =>
          (st.1.set idx c2, st.2.1, st.2.2.set idx idx)))
    (P.subcursors, P.activated, List.replicate count 0)
    (List.range count)).map (fun st =>
      { subcursors := st.1
        activated := st.2.1
        possibilities := (P.possibilities.zip eligPer).flatMap (fun pe =>
          if pe.2 = 0 then []
          else (List.range pe.1.length).filterMap (fun j =>
            if eligible.getD (pe.1.getD j 0) false then
              some (pe.1.set j (st.2.2.getD (pe.1.getD j 0) 0))
            else none)) })

/-! ### Claims about the operators and the trace engine -/

/-- C1: the contract of `Cursor::perform` ("Panics if the process is not
willing to perform `event` in its current state") is broken by the
unresolved external choice: on the root cursor of
`external_choice(Stop, Stop)` the visible event `0` is not performable,
yet `perform` returns normally, resolving the choice with every branch
deactivated instead of panicking. -/
theorem c1_unresolved_external_choice_perform_returns_normally :
    Cursor.canPerform (Proc.root (externalChoice .stop .stop)) (.num 0) = false
  ∧ Cursor.perform (Proc.root (externalChoice .stop .stop)) (.num 0)
      = some (.extChoice true [[none], [none]] 0) := by
  refine ⟨?_, ?_⟩ <;>
    simp [externalChoice, Proc.root, Proc.rootRows, Cursor.canPerform,
      Cursor.canPerformRows, Cursor.canPerformRow, Cursor.perform,
      Cursor.performRows, Cursor.performRow]

/-- C2: `MaximalTraces` maintains prefix-maximality: inserting a prefix of
an existing member is a no-op; inserting a new trace removes exactly the
members that are proper prefixes of it; the set never holds two distinct
members one of which is a prefix of the other; and every result of
`maximal_finite_traces` (at any recursion fuel) has this property. -/
theorem c2_maximal_traces_prefix_maximal :
    (∀ (S : Finset (List Event)) (t u : List Event),
      u ∈ S → t <+: u → MaximalTraces.insert S t = S)
  ∧ (∀ (S : Finset (List Event)) (t : List Event), (¬∃ u ∈ S, t <+: u) →
      ∀ v, v ∈ MaximalTraces.insert S t ↔ v = t ∨ (v ∈ S ∧ ¬(v <+: t ∧ v ≠ t)))
  ∧ (∀ (S : Finset (List Event)) (t : List Event),
      PrefixMaximal S → PrefixMaximal (MaximalTraces.insert S t))
  ∧ PrefixMaximal MaximalTraces.new
  ∧ (∀ n c, PrefixMaximal (maximalFiniteTraces n c)) := by
  refine ⟨fun S t u hu hp => insert_blocked hu hp,
    fun S t h v => mem_insert_free h v,
    fun S t h => insert_prefixMaximal h,
    new_prefixMaximal,
    fun n c => ?_⟩
  exact mftAux_preserves PrefixMaximal (fun S t h => insert_prefixMaximal h)
    n MaximalTraces.new c [] [] new_prefixMaximal

theorem c2_witness :
    MaximalTraces.insert {[Event.tau]} [] = {[Event.tau]}
  ∧ PrefixMaximal (MaximalTraces.insert MaximalTraces.new [Event.tau])
  ∧ PrefixMaximal (maximalFiniteTraces 3 (Proc.root .skip)) :=
  ⟨c2_maximal_traces_prefix_maximal.1 {[Event.tau]} [] [Event.tau] (by simp)
      (by simp),
   c2_maximal_traces_prefix_maximal.2.2.1 MaximalTraces.new [Event.tau]
      new_prefixMaximal,
   c2_maximal_traces_prefix_maximal.2.2.2.2 3 (Proc.root .skip)⟩

/-- C4, counterexample: for `a = τ` the transition relation of
`external_choice(prefix(τ, Stop), prefix(τ, Stop))` does not map `τ` to
`{Stop, Stop}` — rule 1 keeps the choice unresolved, producing
`□ (Ps ∖ {P} ∪ {P'})` processes instead. -/
theorem c4_counterexample_tau :
    Proc.aftersF (externalChoice (.pfx .tau .stop) (.pfx .tau .stop)) .tau
      = some [externalChoice .stop (.pfx .tau .stop),
              externalChoice (.pfx .tau .stop) .stop]
  ∧ Proc.aftersF (externalChoice (.pfx .tau .stop) (.pfx .tau .stop)) .tau
      ≠ some [.stop, .stop] := by
  refine ⟨?_, ?_⟩ <;>
    simp [externalChoice, Proc.aftersF, Proc.aftersTau, Proc.aftersVis]

/-- C4, amended: for every visible event `a ≠ τ` and all processes P and Q,
the transition relation of `external_choice(prefix(a, P), prefix(a, Q))`
maps `a` to exactly `{P, Q}`: both branches survive the shared resolving
event. -/
theorem c4_external_choice_prefix_transitions (P Q : Proc) (a : Event)
    (ha : a ≠ .tau) :
    transitionsFor (externalChoice (.pfx a P) (.pfx a Q)) a = some [P, Q] := by
  simp [transitionsFor, externalChoice, Proc.aftersF, Proc.aftersVis, ha]

theorem c4_witness :
    (Event.num 0 ≠ Event.tau)
  ∧ transitionsFor (externalChoice (.pfx (.num 0) .stop) (.pfx (.num 0) .skip))
      (.num 0) = some [.stop, .skip] :=
  ⟨by simp, c4_external_choice_prefix_transitions .stop .skip (.num 0) (by simp)⟩

/-- The P of the C6 failing input:
`⊓ (Skip, ⊓ (0 → Skip, 0 → Skip))`, whose maximal finite traces are
`{[✔], [0, ✔]}` — it can tick immediately or after one visible event. -/
def procP6 : Proc :=
  internalChoice .skip (internalChoice (.pfx (.num 0) .skip) (.pfx (.num 0) .skip))

/-- The Q of the C6 failing input: `0 → 0 → Stop`. -/
def procQ6 : Proc := .pfx (.num 0) (.pfx (.num 0) .stop)

/-- C6: the claim requires the maximal trace `[0, ✔]` of P (ending in ✔)
to contribute `[0] ++ [0, 0] = [0, 0, 0]` to the maximal traces of
`P ; Q`, but the engine computes `{[0, 0]}`: after the started Q-cursor
has advanced, a later ✔-opportunity of P cannot branch off a fresh Q root
(`qs` is seeded only once), so the world "P stayed, performed `0`, then
ticked" is lost.  This contradicts the `check_sequential_composition`
property test of `sequential_composition.rs`. -/
theorem c6_sequential_composition_loses_late_q_start :
    maximalFiniteTraces 12 (Proc.root (sequentialComposition procP6 procQ6))
      = {[.num 0, .num 0]}
  ∧ maximalFiniteTraces 12 (Proc.root procP6) = {[.num 0, .tick], [.tick]}
  ∧ maximalFiniteTraces 12 (Proc.root procQ6) = {[.num 0, .num 0]}
  ∧ [.num 0, .num 0, .num 0]
      ∉ maximalFiniteTraces 12 (Proc.root (sequentialComposition procP6 procQ6)) := by
  refine ⟨?_, ?_, ?_, ?_⟩ <;>
    simp [maximalFiniteTraces, mftAux, mftFold, MaximalTraces.insert, MaximalTraces.new,
      MaximalTraces.removePrefixes, Cursor.events, Cursor.eventsRow, Cursor.eventsRows,
      Cursor.eventsSubs, Cursor.canPerform, Cursor.canPerformRow, Cursor.canPerformRows,
      Cursor.canPerformSubs, Cursor.perform, Cursor.performP, Cursor.performRow,
      Cursor.performRows, Cursor.performRowsTau, Cursor.performSubs, Cursor.beq,
      Cursor.beqRow, Cursor.beqRows, Cursor.beqSubs, Proc.root, Proc.rootSubs,
      Proc.rootRows, sequentialComposition, internalChoice, procP6, procQ6,
      deactivateTauSubprocesses, deactivateRow, totalTauDepth]

/-- C7, counterexample: on `sequential_composition(Skip, Skip)`, after the
hidden τ that stands for P's ✔, the composed cursor is in state
`AfterTick` and the ✔ offered by Q is both reported in the initials and
performable — ✔ is not hidden on the composed process once Q runs. -/
theorem c7_counterexample_tick_visible :
    Cursor.perform (Proc.root (sequentialComposition .skip .skip)) .tau
      = some (.seq .afterTick (.skip false) [some (.skip false)])
  ∧ Cursor.canPerform (.seq .afterTick (.skip false) [some (.skip false)]) .tick = true
  ∧ .tick ∈ Cursor.events (.seq .afterTick (.skip false) [some (.skip false)]) := by
  refine ⟨?_, ?_, ?_⟩ <;>
    simp [sequentialComposition, Proc.root, Cursor.perform, Cursor.performP,
      Cursor.canPerform, Cursor.canPerformRow, Cursor.events, Cursor.eventsRow]

/-- C7, amended: while the composition is still behaving like P (state
`BeforeTick`, in particular at the root), the reported initials are
exactly P's initials with ✔ replaced by τ, ✔ is not among them, and ✔ is
not performable.  (A ✔ offered by Q after P has terminated is visible.) -/
theorem c7_before_tick_initials :
    (∀ (p : Cursor) (qs : List (Option Cursor)),
      Cursor.events (.seq .beforeTick p qs)
          = (Cursor.events p).map (fun e => if e = .tick then .tau else e)
        ∧ Cursor.canPerform (.seq .beforeTick p qs) .tick = false
        ∧ .tick ∉ Cursor.events (.seq .beforeTick p qs))
  ∧ ∀ P Q : Proc,
      Cursor.events (Proc.root (sequentialComposition P Q))
        = (Cursor.events (Proc.root P)).map (fun e => if e = .tick then .tau else e) := by
  constructor
  · intro p qs
    refine ⟨by simp [Cursor.events], by simp [Cursor.canPerform], ?_⟩
    simp only [Cursor.events, List.mem_map]
    rintro ⟨a, _, ha⟩
    split at ha <;> simp_all
  · intro P Q
    simp [sequentialComposition, Proc.root, Cursor.events]

/-- C8: replicated external choice over an empty collection is permitted
and behaves like `Stop` (same initials, same `can_perform`, same maximal
finite traces at every fuel), while replicated internal choice over an
empty collection panics at construction time and succeeds on every
non-empty collection. -/
theorem c8_empty_replicated_choices :
    replicatedExternalChoice [] = Proc.extChoice []
  ∧ Cursor.events (Proc.root (replicatedExternalChoice []))
      = Cursor.events (Proc.root .stop)
  ∧ (∀ e, Cursor.canPerform (Proc.root (replicatedExternalChoice [])) e
      = Cursor.canPerform (Proc.root .stop) e)
  ∧ (∀ n, maximalFiniteTraces n (Proc.root (replicatedExternalChoice []))
      = maximalFiniteTraces n (Proc.root .stop))
  ∧ replicatedInternalChoice [] = none
  ∧ (∀ ps : List Proc, ps ≠ [] → replicatedInternalChoice ps = some (.intChoice ps)) := by
  refine ⟨rfl, ?_, ?_, ?_, ?_, ?_⟩
  · simp [replicatedExternalChoice, Proc.root, Proc.rootRows, Cursor.events,
      Cursor.eventsRows]
  · intro e
    simp [replicatedExternalChoice, Proc.root, Proc.rootRows, Cursor.canPerform,
      Cursor.canPerformRows]
  · intro n
    cases n with
    | zero => simp [maximalFiniteTraces, mftAux]
    | succ n =>
        simp [maximalFiniteTraces, mftAux, replicatedExternalChoice, Proc.root,
          Proc.rootRows, Cursor.events, Cursor.eventsRows, Cursor.beq]
  · simp [replicatedInternalChoice]
  · intro ps hps
    simp [replicatedInternalChoice, hps]

theorem c8_witness :
    ([Proc.stop] ≠ ([] : List Proc))
  ∧ replicatedInternalChoice [Proc.stop] = some (.intChoice [.stop]) :=
  ⟨by simp, c8_empty_replicated_choices.2.2.2.2.2 [Proc.stop] (by simp)⟩

/-- C9: a `MaximalTraces` set is never empty: a fresh one contains exactly
the empty trace, `insert` preserves non-emptiness, every result of
`maximal_finite_traces` is non-empty, and for `Stop` it is exactly
`{[]}`. -/
theorem c9_maximal_traces_nonempty :
    MaximalTraces.new = {([] : List Event)}
  ∧ (∀ (S : Finset (List Event)) t, S.Nonempty → (MaximalTraces.insert S t).Nonempty)
  ∧ (∀ n c, (maximalFiniteTraces n c).Nonempty)
  ∧ (∀ n, maximalFiniteTraces n (Proc.root .stop) = {([] : List Event)}) := by
  refine ⟨rfl, fun S t h => insert_nonempty_of h, fun n c => ?_, fun n => ?_⟩
  · exact mftAux_preserves Finset.Nonempty (fun S t h => insert_nonempty_of h)
      n MaximalTraces.new c [] [] ⟨[], by simp [MaximalTraces.new]⟩
  · cases n with
    | zero => simp [maximalFiniteTraces, mftAux, MaximalTraces.new]
    | succ n =>
        simp [maximalFiniteTraces, mftAux, Proc.root, Cursor.events,
          MaximalTraces.insert, MaximalTraces.new]

theorem c9_witness :
    (MaximalTraces.insert {[Event.tick]} [Event.tau]).Nonempty :=
  c9_maximal_traces_nonempty.2.1 {[Event.tick]} [Event.tau] ⟨[Event.tick], by simp⟩

/-! ### Claim C3: the `Possibilities` invariant -/

/-- The shape invariant the `Possibilities` structure actually maintains:
parallel vectors of equal length, and every possibility index referring to
a currently-allocated subcursor. -/
def Possibilities.wellFormed (P : Possibilities) : Prop :=
  P.activated.length = P.subcursors.length
  ∧ ∀ poss ∈ P.possibilities, ∀ i ∈ poss, i < P.subcursors.length

theorem mapMOpt_length {a b : Type} (f : a → Option b) :
    ∀ (l : List a) (l2 : List b), mapMOpt f l = some l2 → l2.length = l.length := by
  intro l
  induction l with
  | nil => intro l2 h; rw [mapMOpt] at h; cases h; rfl
  | cons x xs ih =>
      intro l2 h
      rw [mapMOpt] at h
      cases hx : f x with
      | none => rw [hx] at h; cases h
      | some y =>
          rw [hx] at h
          cases hxs : mapMOpt f xs with
          | none => rw [hxs] at h; cases h
          | some ys =>
              rw [hxs] at h
              cases h
              simp [ih ys hxs]

theorem foldlMOpt_inv {s a : Type} (f : s → a → Option s) (Inv : s → Prop) :
    ∀ (l : List a), (∀ st x st', x ∈ l → Inv st → f st x = some st' → Inv st') →
      ∀ st st', Inv st → foldlMOpt f st l = some st' → Inv st' := by
  intro l
  induction l with
  | nil =>
      intro _ st st' h hf
      rw [foldlMOpt] at hf
      cases hf
      exact h
  | cons x xs ih =>
      intro hstep st st' h hf
      rw [foldlMOpt] at hf
      cases hx : f st x with
      | none => rw [hx] at hf; cases hf
      | some st2 =>
          rw [hx] at hf
          exact ih (fun st x' st'' hm => hstep st x' st'' (List.mem_cons_of_mem _ hm))
            st2 st' (hstep st x st2 (List.mem_cons_self _ _) h hx) hf

theorem getD_mem_of_lt {a : Type} {l : List a} {j : Nat} (h : j < l.length) (d : a) :
    l.getD j d ∈ l := by
  rw [List.getD_eq_getElem l d h]
  exact List.getElem_mem h

/-- C3, counterexample.  First scenario (`perform_all`): starting from
`new([Stop, 0 → Stop])`, performing `0` deactivates subcursor 0 but leaves
the possibility `[0, 1]` untouched, so a possibility now refers to a
deactivated subcursor.  Second scenario (`perform_piecewise` twice): after
splitting on the shared event `0` and then performing `1`, the possibility
`[2, 1]` is dropped while its member subcursor 2 stays activated; subcursor
2 alone can perform `2`, so the aggregate `can_perform(2)` is true even
though no possibility contains an activated subcursor able to perform `2`. -/
theorem c3_counterexample :
    ((Possibilities.new [Cursor.stop, .pfx false (.num 0) .stop]).performAll (.num 0)
        = some { subcursors := [.stop, .pfx true (.num 0) .stop],
                 activated := [false, true], possibilities := [[0, 1]] })
  ∧ ((Possibilities.new
        [.pfx false (.num 0) (.pfx false (.num 2) .stop),
         .pfx false (.num 0) (.pfx false (.num 1) .stop)]).performPiecewise (.num 0)
      = some { subcursors :=
                 [.pfx false (.num 0) (.pfx false (.num 2) .stop),
                  .pfx false (.num 0) (.pfx false (.num 1) .stop),
                  .pfx true (.num 0) (.pfx false (.num 2) .stop),
                  .pfx true (.num 0) (.pfx false (.num 1) .stop)],
               activated := [true, true, true, true],
               possibilities := [[2, 1], [0, 3]] })
  ∧ (Possibilities.performPiecewise
        { subcursors :=
            [.pfx false (.num 0) (.pfx false (.num 2) .stop),
             .pfx false (.num 0) (.pfx false (.num 1) .stop),
             .pfx true (.num 0) (.pfx false (.num 2) .stop),
             .pfx true (.num 0) (.pfx false (.num 1) .stop)],
          activated := [true, true, true, true],
          possibilities := [[2, 1], [0, 3]] } (.num 1)
      = some { subcursors :=
                 [.pfx false (.num 0) (.pfx false (.num 2) .stop),
                  .pfx false (.num 0) (.pfx false (.num 1) .stop),
                  .pfx true (.num 0) (.pfx false (.num 2) .stop),
                  .pfx true (.num 0) (.pfx true (.num 1) .stop)],
               activated := [true, true, true, true],
               possibilities := [[0, 3]] })
  ∧ (Possibilities.canPerform
        { subcursors :=
            [.pfx false (.num 0) (.pfx false (.num 2) .stop),
             .pfx false (.num 0) (.pfx false (.num 1) .stop),
             .pfx true (.num 0) (.pfx false (.num 2) .stop),
             .pfx true (.num 0) (.pfx true (.num 1) .stop)],
          activated := [true, true, true, true],
          possibilities := [[0, 3]] } (.num 2) = true)
  ∧ (∀ poss ∈ [[(0 : Nat), 3]], ∀ i ∈ poss,
      ¬(Cursor.canPerform
          ([Cursor.pfx false (.num 0) (.pfx false (.num 2) .stop),
            .pfx false (.num 0) (.pfx false (.num 1) .stop),
            .pfx true (.num 0) (.pfx false (.num 2) .stop),
            .pfx true (.num 0) (.pfx true (.num 1) .stop)].getD i .stop) (.num 2)
        = true)) := by
  refine ⟨?_, ?_, ?_, ?_, ?_⟩ <;>
    simp [Possibilities.new, Possibilities.performAll, Possibilities.performPiecewise,
      Possibilities.canPerform, Possibilities.activatedSubcursors, mapMOpt, foldlMOpt,
      Cursor.canPerform, Cursor.perform, List.range_succ]

/-- C3, amended: `new`, `perform_all` and `perform_piecewise` keep every
possibility index referring to a currently-allocated subcursor (but not
necessarily an activated one — `perform_all` deactivates without touching
the possibility list), and the aggregate `can_perform(e)` is true iff at
least one activated subcursor — whether or not it still belongs to a
possibility — can perform `e`. -/
theorem c3_possibilities_invariant :
    (∀ cs, (Possibilities.new cs).wellFormed)
  ∧ (∀ (P : Possibilities) (e : Event) P', P.wellFormed →
      P.performAll e = some P' → P'.wellFormed)
  ∧ (∀ (P : Possibilities) (e : Event) P', P.wellFormed →
      P.performPiecewise e = some P' → P'.wellFormed)
  ∧ (∀ (P : Possibilities) (e : Event), P.canPerform e = true ↔
      ∃ x ∈ P.activated.zip P.subcursors, x.1 = true ∧ Cursor.canPerform x.2 e = true) := by
  refine ⟨?_, ?_, ?_, ?_⟩
  · intro cs
    constructor
    · simp [Possibilities.new]
    · intro poss hposs i hi
      simp [Possibilities.new] at hposs
      subst hposs
      simpa [Possibilities.new] using List.mem_range.mp hi
  · rintro ⟨subs, act, poss⟩ e P' ⟨hlen, hbound⟩ hperf
    simp only [Possibilities.performAll, Option.map_eq_some'] at hperf
    obtain ⟨pairs, hpairs, hP'⟩ := hperf
    have hplen := mapMOpt_length _ _ _ hpairs
    rw [List.length_zip] at hplen
    subst hP'
    constructor
    · simp
    · intro q hq i hi
      simp only [List.length_map]
      have : i < subs.length := hbound q hq i hi
      simp at hlen ⊢
      omega
  · rintro ⟨subs, act, poss⟩ e P' ⟨hlen, hbound⟩ hperf
    simp only [Possibilities.performPiecewise, Option.map_eq_some'] at hperf
    obtain ⟨st, hst, hP'⟩ := hperf
    have hInv := foldlMOpt_inv _
      (fun st : List Cursor × List Bool × List Nat =>
        subs.length ≤ st.1.length ∧ st.2.1.length = st.1.length
          ∧ st.2.2.length = subs.length ∧ ∀ v ∈ st.2.2, v < st.1.length)
      (List.range subs.length) ?_ _ st ?_ hst
    · obtain ⟨hc, hl2, hl3, hv⟩ := hInv
      subst hP'
      constructor
      · exact hl2
      · intro q hq i hi
        simp only [List.mem_flatMap] at hq
        obtain ⟨pe, hpe, hq2⟩ := hq
        split at hq2
        · simp at hq2
        · simp only [List.mem_filterMap] at hq2
          obtain ⟨j, hj, hq3⟩ := hq2
          split at hq3
          · cases hq3
            have hpe1 : pe.1 ∈ poss := (List.of_mem_zip hpe).1
            rcases List.mem_or_eq_of_mem_set hi with hold | hnew
            · exact lt_of_lt_of_le (hbound pe.1 hpe1 i hold) hc
            · subst hnew
              apply hv
              apply getD_mem_of_lt
              rw [hl3]
              apply hbound pe.1 hpe1
              apply getD_mem_of_lt
              simpa using List.mem_range.mp hj
          · cases hq3
    · rintro ⟨s1, s2, s3⟩ x st' hx ⟨h1, h2, h3, h4⟩ hf
      simp only at hf
      split at hf
      · cases hf; exact ⟨h1, h2, h3, h4⟩
      · split at hf
        · simp only [Option.map_eq_some'] at hf
          obtain ⟨c2, _, hst'⟩ := hf
          cases hst'
          refine ⟨by simpa using Nat.le_succ_of_le h1, by simpa using h2,
            by simpa using h3, ?_⟩
          intro v hv
          rcases List.mem_or_eq_of_mem_set hv with hold | hnew
          · have hvl := h4 v hold
            simp at hvl ⊢
            omega
          · subst hnew
            simp
        · simp only [Option.map_eq_some'] at hf
          obtain ⟨c2, _, hst'⟩ := hf
          cases hst'
          refine ⟨by simpa using h1, by simpa using h2, by simpa using h3, ?_⟩
          intro v hv
          rcases List.mem_or_eq_of_mem_set hv with hold | hnew
          · have hvl := h4 v hold
            simp at hvl ⊢
            exact hvl
          · subst hnew
            have hxr := List.mem_range.mp hx
            have hs := h1
            simp at hs ⊢
            omega
    · refine ⟨le_refl _, ?_, by simp, ?_⟩
      · simpa using hlen
      · intro v hv
        rw [List.mem_replicate] at hv
        obtain ⟨h0, rfl⟩ := hv
        simp only []
        omega
  · intro P e
    simp only [Possibilities.canPerform, Possibilities.activatedSubcursors,
      List.any_eq_true, List.mem_map, List.mem_filter]
    constructor
    · rintro ⟨c, ⟨x, hxin, hx2⟩, hc⟩
      exact ⟨x, hxin.1, hxin.2, hx2 ▸ hc⟩
    · rintro ⟨x, hx, hx1, hx2⟩
      exact ⟨x.2, ⟨x, ⟨hx, hx1⟩, rfl⟩, hx2⟩

theorem c3_witness :
    (Possibilities.new [Cursor.stop]).wellFormed
  ∧ ((Possibilities.new [Cursor.stop]).performAll .tau
        = some { subcursors := [.stop], activated := [false],
                 possibilities := [[0]] }
      → Possibilities.wellFormed
          { subcursors := [.stop], activated := [false], possibilities := [[0]] })
  ∧ ((Possibilities.new [Cursor.stop]).canPerform .tau = false) := by
  refine ⟨c3_possibilities_invariant.1 [Cursor.stop],
    fun h => c3_possibilities_invariant.2.1 _ .tau _
      (c3_possibilities_invariant.1 [Cursor.stop]) h, ?_⟩
  simp [Possibilities.new, Possibilities.canPerform, Possibilities.activatedSubcursors,
    Cursor.canPerform]

/-! ### Claim C10: panic-freedom of guarded `perform` on reachable cursors -/

/-- Shape conditions on the unresolved external choice rows that every
engine-built cursor satisfies: rows are non-empty, no row is longer than
`tau_count + 1`, and a row that has kept up with every τ (length exactly
`tau_count + 1`) has an active (`Some`) last entry — exactly what the two
`expect` calls of `perform_tau_when_unresolved` rely on. -/
def rowShapes (t : Nat) (rows : List (List (Option Cursor))) : Prop :=
  ∀ row ∈ rows, row ≠ [] ∧ row.length ≤ t + 1
    ∧ (row.length = t + 1 → ∃ c, row.getLast? = some (some c))

/- The reachability invariant of engine cursors: all subcursors satisfy it
recursively, and unresolved external choices satisfy `rowShapes`. -/
mutual

def Cursor.inv : Cursor → Prop
  | .stop => True
  | .skip _ => True
  | .pfx _ _ c => Cursor.inv c
  | .intChoice _ subs => Cursor.invSubs subs
  | .extChoice r rows t => Cursor.invRows rows ∧ (r = false → rowShapes t rows)
  | .seq _ p qs => Cursor.inv p ∧ Cursor.invRow qs

def Cursor.invSubs : List (Bool × Cursor) → Prop
  | [] => True
  | (_, c) :: rest => Cursor.inv c ∧ Cursor.invSubs rest

def Cursor.invRows : List (List (Option Cursor)) → Prop
  | [] => True
  | row :: rest => Cursor.invRow row ∧ Cursor.invRows rest

def Cursor.invRow : List (Option Cursor) → Prop
  | [] => True
  | none :: rest => Cursor.invRow rest
  | some c :: rest => Cursor.inv c ∧ Cursor.invRow rest

end

theorem invSubs_iff : ∀ subs : List (Bool × Cursor),
    Cursor.invSubs subs ↔ ∀ pr ∈ subs, Cursor.inv pr.2 := by
  intro subs
  induction subs with
  | nil => simp [Cursor.invSubs]
  | cons pr rest ih =>
      obtain ⟨a, c⟩ := pr
      rw [Cursor.invSubs, ih]
      constructor
      · rintro ⟨h1, h2⟩ x hx
        rcases List.mem_cons.mp hx with rfl | hx
        · exact h1
        · exact h2 x hx
      · intro h
        exact ⟨h (a, c) (List.mem_cons_self _ _),
          fun x hx => h x (List.mem_cons_of_mem _ hx)⟩

theorem invRow_iff : ∀ row : List (Option Cursor),
    Cursor.invRow row ↔ ∀ c : Cursor, some c ∈ row → Cursor.inv c := by
  intro row
  induction row with
  | nil => simp [Cursor.invRow]
  | cons o rest ih =>
      cases o with
      | none =>
          rw [Cursor.invRow, ih]
          constructor
          · intro h c hc
            rcases List.mem_cons.mp hc with h2 | h2
            · cases h2
            · exact h c h2
          · intro h c hc
            exact h c (List.mem_cons_of_mem _ hc)
      | some c0 =>
          rw [Cursor.invRow, ih]
          constructor
          · rintro ⟨h1, h2⟩ c hc
            rcases List.mem_cons.mp hc with h3 | h3
            · cases h3; exact h1
            · exact h2 c h3
          · intro h
            exact ⟨h c0 (List.mem_cons_self _ _),
              fun c hc => h c (List.mem_cons_of_mem _ hc)⟩

theorem invRows_iff : ∀ rows : List (List (Option Cursor)),
    Cursor.invRows rows ↔ ∀ row ∈ rows, Cursor.invRow row := by
  intro rows
  induction rows with
  | nil => simp [Cursor.invRows]
  | cons row rest ih =>
      rw [Cursor.invRows, ih]
      constructor
      · rintro ⟨h1, h2⟩ r hr
        rcases List.mem_cons.mp hr with rfl | hr
        · exact h1
        · exact h2 r hr
      · intro h
        exact ⟨h row (List.mem_cons_self _ _),
          fun r hr => h r (List.mem_cons_of_mem _ hr)⟩

theorem sizeOf_pair_snd {pr : Bool × Cursor} {subs : List (Bool × Cursor)}
    (h : pr ∈ subs) : sizeOf pr.2 < sizeOf subs := by
  have h1 := List.sizeOf_lt_of_mem h
  obtain ⟨a, c⟩ := pr
  simp at h1 ⊢
  omega

theorem sizeOf_row_entry {c : Cursor} {row : List (Option Cursor)}
    (h : some c ∈ row) : sizeOf c < sizeOf row := by
  have h1 := List.sizeOf_lt_of_mem h
  simp at h1
  omega

theorem sizeOf_rows_entry {c : Cursor} {row : List (Option Cursor)}
    {rows : List (List (Option Cursor))} (hrow : row ∈ rows) (h : some c ∈ row) :
    sizeOf c < sizeOf rows := by
  have h1 := List.sizeOf_lt_of_mem hrow
  have h2 := sizeOf_row_entry h
  omega

theorem deactivateRow_length : ∀ (m : Nat) (row : List (Option Cursor)),
    (deactivateRow m row).length = row.length
  | 0, _ => by simp [deactivateRow]
  | _ + 1, [] => by simp [deactivateRow]
  | m + 1, _ :: rest => by
      simp only [deactivateRow]
      simp [deactivateRow_length m rest]

theorem deactivateRow_mem : ∀ (m : Nat) (row : List (Option Cursor)) (x : Option Cursor),
    x ∈ deactivateRow m row → x = none ∨ x ∈ row
  | 0, row, x => by simp [deactivateRow]; exact Or.inr
  | _ + 1, [], x => by simp [deactivateRow]
  | m + 1, o :: rest, x => by
      simp only [deactivateRow]
      intro h
      rcases List.mem_cons.mp h with rfl | h2
      · exact Or.inl rfl
      · rcases deactivateRow_mem m rest x h2 with h3 | h3
        · exact Or.inl h3
        · exact Or.inr (List.mem_cons_of_mem _ h3)

theorem getLast?_cons_ne_nil {a : Option Cursor} {l : List (Option Cursor)}
    (h : l ≠ []) : (a :: l).getLast? = l.getLast? := by
  cases l with
  | nil => exact absurd rfl h
  | cons b l2 => rw [List.getLast?_cons_cons]

theorem deactivateRow_getLast? : ∀ (m : Nat) (row : List (Option Cursor)),
    m ≤ row.length - 1 → (deactivateRow m row).getLast? = row.getLast?
  | 0, row, _ => by simp [deactivateRow]
  | _ + 1, [], _ => by simp [deactivateRow]
  | m + 1, o :: rest, h => by
      simp only [deactivateRow]
      have hrest : rest ≠ [] := by
        intro he
        rw [he] at h
        simp at h
      have hlen : (deactivateRow m rest).length = rest.length :=
        deactivateRow_length m rest
      have hne : deactivateRow m rest ≠ [] := by
        intro he
        rw [he] at hlen
        exact hrest (List.length_eq_zero.mp hlen.symm)
      rw [getLast?_cons_ne_nil hne, getLast?_cons_ne_nil hrest]
      apply deactivateRow_getLast?
      have := List.length_pos.mpr hrest
      simp at h
      omega

/-- Every row of `deactivate_tau_subprocesses` is the source row with some
prefix of its entries (at most `tauCount` many) deactivated. -/
theorem deactivate_result (t : Nat) (rows : List (List (Option Cursor))) :
    ∀ row2 ∈ deactivateTauSubprocesses t rows,
      ∃ row ∈ rows, row2 = row ∨ ∃ m, m ≤ t ∧ row2 = deactivateRow m row := by
  intro row2 h
  rw [deactivateTauSubprocesses] at h
  simp only [List.mem_map] at h
  obtain ⟨row, hrow, hr2⟩ := h
  refine ⟨row, hrow, ?_⟩
  split at hr2
  · exact Or.inl hr2.symm
  · split at hr2
    · exact Or.inr ⟨_, Nat.sub_le _ _, hr2.symm⟩
    · exact Or.inl hr2.symm

theorem performSubs_some :
    ∀ subs : List (Bool × Cursor),
      (∀ pr ∈ subs, ∀ e : Event, Cursor.inv pr.2 → Cursor.canPerform pr.2 e = true →
        ∃ c', Cursor.perform pr.2 e = some c' ∧ Cursor.inv c') →
      ∀ e, Cursor.invSubs subs →
        ∃ subs2, Cursor.performSubs subs e = some subs2 ∧ Cursor.invSubs subs2 := by
  intro subs
  induction subs with
  | nil =>
      intro _ e _
      exact ⟨[], by rw [Cursor.performSubs], by rw [Cursor.invSubs]; trivial⟩
  | cons pr rest ih =>
      obtain ⟨a, c⟩ := pr
      intro H e hinv
      rw [Cursor.invSubs] at hinv
      obtain ⟨hc, hrest⟩ := hinv
      obtain ⟨rest2, hr2, hir2⟩ :=
        ih (fun x hx => H x (List.mem_cons_of_mem _ hx)) e hrest
      have Hc := H (a, c) (List.mem_cons_self _ _) e hc
      rw [Cursor.performSubs]
      cases a with
      | false =>
          refine ⟨(false, c) :: rest2, ?_, ?_⟩
          · simp [hr2]
          · rw [Cursor.invSubs]; exact ⟨hc, hir2⟩
      | true =>
          by_cases hcp : Cursor.canPerform c e = true
          · obtain ⟨c', hp, hic⟩ := Hc hcp
            refine ⟨(true, c') :: rest2, ?_, ?_⟩
            · simp [hcp, hp, hr2]
            · rw [Cursor.invSubs]; exact ⟨hic, hir2⟩
          · refine ⟨(false, c) :: rest2, ?_, ?_⟩
            · simp [hcp, hr2]
            · rw [Cursor.invSubs]; exact ⟨hc, hir2⟩

theorem performRow_some :
    ∀ row : List (Option Cursor),
      (∀ c : Cursor, some c ∈ row → ∀ e : Event, Cursor.inv c →
        Cursor.canPerform c e = true →
        ∃ c', Cursor.perform c e = some c' ∧ Cursor.inv c') →
      ∀ e, Cursor.invRow row →
        ∃ row2, Cursor.performRow row e = some row2 ∧ Cursor.invRow row2 := by
  intro row
  induction row with
  | nil =>
      intro _ e _
      exact ⟨[], by rw [Cursor.performRow], by rw [Cursor.invRow]; trivial⟩
  | cons o rest ih =>
      intro H e hinv
      cases o with
      | none =>
          rw [Cursor.invRow] at hinv
          obtain ⟨rest2, hr2, hir2⟩ :=
            ih (fun c hc => H c (List.mem_cons_of_mem _ hc)) e hinv
          refine ⟨none :: rest2, ?_, ?_⟩
          · rw [Cursor.performRow, hr2]; rfl
          · rw [Cursor.invRow]; exact hir2
      | some c =>
          rw [Cursor.invRow] at hinv
          obtain ⟨hc, hrest⟩ := hinv
          obtain ⟨rest2, hr2, hir2⟩ :=
            ih (fun c2 hc2 => H c2 (List.mem_cons_of_mem _ hc2)) e hrest
          rw [Cursor.performRow]
          by_cases hcp : Cursor.canPerform c e = true
          · obtain ⟨c', hp, hic⟩ := H c (List.mem_cons_self _ _) e hc hcp
            refine ⟨some c' :: rest2, ?_, ?_⟩
            · simp [hcp, hp, hr2]
            · rw [Cursor.invRow]; exact ⟨hic, hir2⟩
          · refine ⟨none :: rest2, ?_, ?_⟩
            · simp [hcp, hr2]
            · rw [Cursor.invRow]; exact hir2

theorem performRows_some :
    ∀ rows : List (List (Option Cursor)),
      (∀ c : Cursor, (∃ row ∈ rows, some c ∈ row) → ∀ e : Event, Cursor.inv c →
        Cursor.canPerform c e = true →
        ∃ c', Cursor.perform c e = some c' ∧ Cursor.inv c') →
      ∀ e, Cursor.invRows rows →
        ∃ rows2, Cursor.performRows rows e = some rows2 ∧ Cursor.invRows rows2 := by
  intro rows
  induction rows with
  | nil =>
      intro _ e _
      exact ⟨[], by rw [Cursor.performRows], by rw [Cursor.invRows]; trivial⟩
  | cons row rest ih =>
      intro H e hinv
      rw [Cursor.invRows] at hinv
      obtain ⟨hrow, hrest⟩ := hinv
      obtain ⟨row2, hr2, hir2⟩ :=
        performRow_some row
          (fun c hc => H c ⟨row, List.mem_cons_self _ _, hc⟩) e hrow
      obtain ⟨rest2, hs2, his2⟩ :=
        ih (fun c ⟨r, hr, hcr⟩ => H c ⟨r, List.mem_cons_of_mem _ hr, hcr⟩) e hrest
      refine ⟨row2 :: rest2, ?_, ?_⟩
      · rw [Cursor.performRows, hr2]
        simp [hs2]
      · rw [Cursor.invRows]; exact ⟨hir2, his2⟩

theorem performRowsTau_some :
    ∀ rows : List (List (Option Cursor)),
      (∀ c : Cursor, (∃ row ∈ rows, some c ∈ row) → ∀ e : Event, Cursor.inv c →
        Cursor.canPerform c e = true →
        ∃ c', Cursor.perform c e = some c' ∧ Cursor.inv c') →
      ∀ t2, Cursor.invRows rows →
      (∀ row ∈ rows, row.length = t2 → ∃ c, row.getLast? = some (some c)) →
      ∃ rows2, Cursor.performRowsTau t2 rows = some rows2 ∧ Cursor.invRows rows2
        ∧ ∀ row2 ∈ rows2, ∃ row ∈ rows,
            row2 = row ∨ (row.length = t2 ∧ ∃ c2, row2 = row ++ [some c2]) := by
  intro rows
  induction rows with
  | nil =>
      intro _ t2 _ _
      refine ⟨[], by rw [Cursor.performRowsTau], by rw [Cursor.invRows]; trivial, ?_⟩
      intro row2 h
      cases h
  | cons row rest ih =>
      intro H t2 hinv hlast
      rw [Cursor.invRows] at hinv
      obtain ⟨hrow, hrest⟩ := hinv
      obtain ⟨rest2, hs2, his2, hsh2⟩ :=
        ih (fun c ⟨r, hr, hcr⟩ => H c ⟨r, List.mem_cons_of_mem _ hr, hcr⟩) t2 hrest
          (fun r hr => hlast r (List.mem_cons_of_mem _ hr))
      rw [Cursor.performRowsTau]
      by_cases hl : row.length = t2
      · obtain ⟨c, hc⟩ := hlast row (List.mem_cons_self _ _) hl
        have hcmem : some c ∈ row := getLast?_mem hc
        have hcinv : Cursor.inv c := (invRow_iff row).mp hrow c hcmem
        by_cases hcp : Cursor.canPerform c .tau = true
        · obtain ⟨c2, hp, hic2⟩ :=
            H c ⟨row, List.mem_cons_self _ _, hcmem⟩ .tau hcinv hcp
          refine ⟨(row ++ [some c2]) :: rest2, ?_, ?_, ?_⟩
          · rw [if_neg (by omega : ¬row.length ≠ t2)]
            split
            · simp_all
            · simp_all
            · rename_i c3 heq
              rw [heq] at hc
              have hc3 : c3 = c := by
                injection hc with h1
                injection h1
              subst hc3
              simp [hcp, hp, hs2]
          · rw [Cursor.invRows]
            refine ⟨?_, his2⟩
            rw [invRow_iff]
            intro c3 hc3
            rcases List.mem_append.mp hc3 with h3 | h3
            · exact (invRow_iff row).mp hrow c3 h3
            · simp at h3
              rw [h3]
              exact hic2
          · intro row2 h2
            rcases List.mem_cons.mp h2 with rfl | h2
            · exact ⟨row, List.mem_cons_self _ _, Or.inr ⟨hl, c2, rfl⟩⟩
            · obtain ⟨r, hr, hcase⟩ := hsh2 row2 h2
              exact ⟨r, List.mem_cons_of_mem _ hr, hcase⟩
        · refine ⟨row :: rest2, ?_, ?_, ?_⟩
          · rw [if_neg (by omega : ¬row.length ≠ t2)]
            split
            · simp_all
            · simp_all
            · rename_i c3 heq
              rw [heq] at hc
              have hc3 : c3 = c := by
                injection hc with h1
                injection h1
              subst hc3
              simp [hcp, hs2]
          · rw [Cursor.invRows]; exact ⟨hrow, his2⟩
          · intro row2 h2
            rcases List.mem_cons.mp h2 with rfl | h2
            · exact ⟨row2, List.mem_cons_self _ _, Or.inl rfl⟩
            · obtain ⟨r, hr, hcase⟩ := hsh2 row2 h2
              exact ⟨r, List.mem_cons_of_mem _ hr, hcase⟩
      · refine ⟨row :: rest2, ?_, ?_, ?_⟩
        · rw [if_pos (hl : row.length ≠ t2)]
          simp [hs2]
        · rw [Cursor.invRows]; exact ⟨hrow, his2⟩
        · intro row2 h2
          rcases List.mem_cons.mp h2 with rfl | h2
          · exact ⟨row2, List.mem_cons_self _ _, Or.inl rfl⟩
          · obtain ⟨r, hr, hcase⟩ := hsh2 row2 h2
            exact ⟨r, List.mem_cons_of_mem _ hr, hcase⟩

/-- Guarded `perform` never panics on invariant cursors, and the invariant
is preserved: if `can_perform(e)` holds, `perform(e)` returns normally with
an invariant cursor. -/
theorem perform_some_of_inv :
    ∀ (N : Nat) (c : Cursor), sizeOf c ≤ N → ∀ e : Event, Cursor.inv c →
      Cursor.canPerform c e = true →
      ∃ c', Cursor.perform c e = some c' ∧ Cursor.inv c' := by
  intro N
  induction N with
  | zero =>
      intro c hsize
      exfalso
      cases c <;> simp at hsize
  | succ N ih =>
      intro c hsize e hinv hcan
      cases c with
      | stop => simp [Cursor.canPerform] at hcan
      | skip b =>
          rw [Cursor.canPerform] at hcan
          cases b with
          | true => simp at hcan
          | false =>
              simp at hcan
              refine ⟨.skip true, ?_, ?_⟩
              · simp [Cursor.perform, hcan]
              · rw [Cursor.inv]; trivial
      | pfx b i c =>
          rw [Cursor.inv] at hinv
          rw [Cursor.canPerform] at hcan
          cases b with
          | false =>
              simp at hcan
              refine ⟨.pfx true i c, ?_, ?_⟩
              · simp [Cursor.perform, hcan]
              · rw [Cursor.inv]; exact hinv
          | true =>
              simp at hcan
              have hs : sizeOf c ≤ N := by simp at hsize; omega
              obtain ⟨c', hpc, hic⟩ := ih c hs e hinv hcan
              refine ⟨.pfx true i c', ?_, ?_⟩
              · simp [Cursor.perform, hpc]
              · rw [Cursor.inv]; exact hic
      | intChoice b subs =>
          rw [Cursor.inv] at hinv
          cases b with
          | false =>
              rw [Cursor.canPerform] at hcan
              simp at hcan
              refine ⟨.intChoice true subs, ?_, ?_⟩
              · simp [Cursor.perform, hcan]
              · rw [Cursor.inv]; exact hinv
          | true =>
              have H : ∀ pr ∈ subs, ∀ e2 : Event, Cursor.inv pr.2 →
                  Cursor.canPerform pr.2 e2 = true →
                  ∃ c', Cursor.perform pr.2 e2 = some c' ∧ Cursor.inv c' := by
                intro pr hpr e2 hi hc2
                have h1 := sizeOf_pair_snd hpr
                refine ih pr.2 ?_ e2 hi hc2
                simp at hsize
                omega
              obtain ⟨subs2, hs2, hi2⟩ := performSubs_some subs H e hinv
              refine ⟨.intChoice true subs2, ?_, ?_⟩
              · simp [Cursor.perform, hs2]
              · rw [Cursor.inv]; exact hi2
      | extChoice r rows t =>
          rw [Cursor.inv] at hinv
          obtain ⟨hrows, hshapes⟩ := hinv
          have H : ∀ c0 : Cursor, (∃ row ∈ rows, some c0 ∈ row) → ∀ e2 : Event,
              Cursor.inv c0 → Cursor.canPerform c0 e2 = true →
              ∃ c', Cursor.perform c0 e2 = some c' ∧ Cursor.inv c' := by
            rintro c0 ⟨row, hrow, hc0⟩ e2 hi hc2
            have h1 := sizeOf_rows_entry hrow hc0
            refine ih c0 ?_ e2 hi hc2
            simp at hsize
            omega
          cases r with
          | true =>
              rw [Cursor.canPerform] at hcan
              obtain ⟨rows2, hr2, hir2⟩ := performRows_some rows H e hrows
              refine ⟨.extChoice true rows2 t, ?_, ?_⟩
              · simp [Cursor.perform, hcan, hr2]
              · rw [Cursor.inv]; exact ⟨hir2, by simp⟩
          | false =>
              have hsh := hshapes rfl
              by_cases he : e = .tau
              · subst he
                obtain ⟨rows2, hr2, hir2, hshape2⟩ :=
                  performRowsTau_some rows H (t + 1) hrows
                    (fun row hrow hl => (hsh row hrow).2.2 hl)
                refine ⟨.extChoice false (deactivateTauSubprocesses (t + 1) rows2) (t + 1),
                  ?_, ?_⟩
                · simp [Cursor.perform, hr2]
                · rw [Cursor.inv]
                  constructor
                  · rw [invRows_iff]
                    intro drow hdrow
                    obtain ⟨row2, hrow2, hcase⟩ := deactivate_result _ _ drow hdrow
                    rw [invRow_iff]
                    intro c0 hc0
                    have hrow2inv := (invRows_iff rows2).mp hir2 row2 hrow2
                    rcases hcase with rfl | ⟨m, _, rfl⟩
                    · exact (invRow_iff _).mp hrow2inv c0 hc0
                    · rcases deactivateRow_mem m row2 _ hc0 with h | h
                      · simp at h
                      · exact (invRow_iff _).mp hrow2inv c0 h
                  · intro _
                    intro drow hdrow
                    obtain ⟨row2, hrow2, hcase⟩ := deactivate_result _ _ drow hdrow
                    obtain ⟨row, hrowmem, hsrc⟩ := hshape2 row2 hrow2
                    obtain ⟨hne, hle, _⟩ := hsh row hrowmem
                    have hlen2 : (row2.length = row.length)
                        ∨ (row.length = t + 1 ∧ row2.length = t + 2
                            ∧ ∃ c2, row2.getLast? = some (some c2)) := by
                      rcases hsrc with rfl | ⟨hl, c2, rfl⟩
                      · exact Or.inl rfl
                      · refine Or.inr ⟨hl, by simp [hl], c2, ?_⟩
                        rw [List.getLast?_concat]
                    have hdlen : drow.length = row2.length := by
                      rcases hcase with rfl | ⟨m, _, rfl⟩
                      · rfl
                      · exact deactivateRow_length m row2
                    have hr2pos : 0 < row2.length := by
                      rcases hlen2 with h | ⟨_, h, _⟩
                      · rw [h]; exact List.length_pos.mpr hne
                      · omega
                    refine ⟨?_, ?_, ?_⟩
                    · intro hd
                      rw [hd] at hdlen
                      simp at hdlen
                      omega
                    · rcases hlen2 with h | ⟨_, h, _⟩
                      · omega
                      · omega
                    · intro hdl
                      have hl2 : row2.length = t + 2 := by omega
                      rcases hlen2 with h | ⟨_, _, c2, hlast⟩
                      · omega
                      · refine ⟨c2, ?_⟩
                        rcases hcase with rfl | ⟨m, hm, rfl⟩
                        · exact hlast
                        · rw [deactivateRow_getLast? m row2 (by omega)]
                          exact hlast
              · obtain ⟨rows2, hr2, hir2⟩ := performRows_some rows H e hrows
                refine ⟨.extChoice true rows2 t, ?_, ?_⟩
                · simp [Cursor.perform, he, hr2]
                · rw [Cursor.inv]; exact ⟨hir2, by simp⟩
      | seq st p qs =>
          rw [Cursor.inv] at hinv
          obtain ⟨hp, hqs⟩ := hinv
          have hps : sizeOf p ≤ N := by simp at hsize; omega
          have Hq : ∀ c0 : Cursor, some c0 ∈ qs → ∀ e2 : Event, Cursor.inv c0 →
              Cursor.canPerform c0 e2 = true →
              ∃ c', Cursor.perform c0 e2 = some c' ∧ Cursor.inv c' := by
            intro c0 hc0 e2 hi hc2
            have h1 := sizeOf_row_entry hc0
            refine ih c0 ?_ e2 hi hc2
            simp at hsize
            omega
          obtain ⟨qs2, hq2, hiq2⟩ := performRow_some qs Hq e hqs
          cases st with
          | beforeTick =>
              rw [Cursor.canPerform] at hcan
              by_cases ht : e = .tick
              · rw [if_pos ht] at hcan; cases hcan
              · rw [if_neg ht] at hcan
                by_cases hta : e = .tau
                · subst hta
                  rw [if_pos rfl] at hcan
                  cases hcb : Cursor.canPerform p .tau with
                  | true =>
                      obtain ⟨p2, hpp, hip2⟩ := ih p hps .tau hp hcb
                      cases hca : Cursor.canPerform p .tick with
                      | false =>
                          refine ⟨.seq .beforeTick p2 qs, ?_, ?_⟩
                          · simp [Cursor.perform, Cursor.performP, hcb, hca, hpp]
                          · rw [Cursor.inv]; exact ⟨hip2, hqs⟩
                      | true =>
                          refine ⟨.seq .shrug p2 qs, ?_, ?_⟩
                          · simp [Cursor.perform, Cursor.performP, hcb, hca, hpp]
                          · rw [Cursor.inv]; exact ⟨hip2, hqs⟩
                  | false =>
                      rw [hcb] at hcan
                      simp at hcan
                      refine ⟨.seq .afterTick p qs, ?_, ?_⟩
                      · simp [Cursor.perform, Cursor.performP, hcb, hcan]
                      · rw [Cursor.inv]; exact ⟨hp, hqs⟩
                · rw [if_neg hta] at hcan
                  obtain ⟨p2, hpp, hip2⟩ := ih p hps e hp hcan
                  refine ⟨.seq .beforeTick p2 qs, ?_, ?_⟩
                  · simp [Cursor.perform, Cursor.performP, ht, hta, hcan, hpp]
                  · rw [Cursor.inv]; exact ⟨hip2, hqs⟩
          | afterTick =>
              refine ⟨.seq .afterTick p qs2, ?_, ?_⟩
              · simp [Cursor.perform, hq2]
              · rw [Cursor.inv]; exact ⟨hp, hiq2⟩
          | shrug =>
              have hPP : ∃ s : SeqState × Cursor,
                  Cursor.performP .shrug p e = some s ∧ Cursor.inv s.2 := by
                rw [Cursor.performP]
                by_cases ht : e = .tick
                · rw [if_pos ht]
                  exact ⟨(.shrug, p), rfl, hp⟩
                · rw [if_neg ht]
                  by_cases hta : e = .tau
                  · rw [if_pos hta]
                    cases hcb : Cursor.canPerform p .tau with
                    | false =>
                        cases hca : Cursor.canPerform p .tick with
                        | false => exact ⟨(.afterTick, p), by simp [hcb, hca], hp⟩
                        | true => exact ⟨(.afterTick, p), by simp [hcb, hca], hp⟩
                    | true =>
                        obtain ⟨p2, hpp, hip2⟩ := ih p hps .tau hp hcb
                        cases hca : Cursor.canPerform p .tick with
                        | false => exact ⟨(.shrug, p2), by simp [hcb, hca, hpp], hip2⟩
                        | true => exact ⟨(.shrug, p2), by simp [hcb, hca, hpp], hip2⟩
                  · rw [if_neg hta]
                    cases hcp : Cursor.canPerform p e with
                    | true =>
                        obtain ⟨p2, hpp, hip2⟩ := ih p hps e hp hcp
                        exact ⟨(.shrug, p2), by simp [hcp, hpp], hip2⟩
                    | false => exact ⟨(.afterTick, p), by simp [hcp], hp⟩
              obtain ⟨s, hPPeq, his⟩ := hPP
              refine ⟨.seq s.1 s.2 qs2, ?_, ?_⟩
              · simp [Cursor.perform, hPPeq, hq2]
              · rw [Cursor.inv]; exact ⟨his, hiq2⟩

theorem rootSubs_mem : ∀ (ps : List Proc) (pr : Bool × Cursor),
    pr ∈ Proc.rootSubs ps → ∃ q ∈ ps, pr = (true, Proc.root q) := by
  intro ps
  induction ps with
  | nil => intro pr h; rw [Proc.rootSubs] at h; cases h
  | cons q rest ih =>
      intro pr h
      rw [Proc.rootSubs] at h
      rcases List.mem_cons.mp h with rfl | h2
      · exact ⟨q, List.mem_cons_self _ _, rfl⟩
      · obtain ⟨q2, hq2, hpr⟩ := ih pr h2
        exact ⟨q2, List.mem_cons_of_mem _ hq2, hpr⟩

theorem rootRows_mem : ∀ (ps : List Proc) (row : List (Option Cursor)),
    row ∈ Proc.rootRows ps → ∃ q ∈ ps, row = [some (Proc.root q)] := by
  intro ps
  induction ps with
  | nil => intro row h; rw [Proc.rootRows] at h; cases h
  | cons q rest ih =>
      intro row h
      rw [Proc.rootRows] at h
      rcases List.mem_cons.mp h with rfl | h2
      · exact ⟨q, List.mem_cons_self _ _, rfl⟩
      · obtain ⟨q2, hq2, hrow⟩ := ih row h2
        exact ⟨q2, List.mem_cons_of_mem _ hq2, hrow⟩

theorem root_inv_aux : ∀ (N : Nat) (p : Proc), sizeOf p ≤ N → Cursor.inv (Proc.root p) := by
  intro N
  induction N with
  | zero =>
      intro p hsize
      exfalso
      cases p <;> simp at hsize
  | succ N ih =>
      intro p hsize
      cases p with
      | stop => rw [Proc.root, Cursor.inv]; trivial
      | skip => rw [Proc.root, Cursor.inv]; trivial
      | pfx i q =>
          rw [Proc.root, Cursor.inv]
          exact ih q (by simp at hsize; omega)
      | intChoice ps =>
          rw [Proc.root, Cursor.inv, invSubs_iff]
          intro pr hpr
          obtain ⟨q, hq, rfl⟩ := rootSubs_mem ps pr hpr
          have h1 := List.sizeOf_lt_of_mem hq
          exact ih q (by simp at hsize; omega)
      | extChoice ps =>
          rw [Proc.root, Cursor.inv]
          constructor
          · rw [invRows_iff]
            intro row hrow
            obtain ⟨q, hq, rfl⟩ := rootRows_mem ps row hrow
            rw [invRow_iff]
            intro c hc
            simp at hc
            rw [hc]
            have h1 := List.sizeOf_lt_of_mem hq
            exact ih q (by simp at hsize; omega)
          · intro _ row hrow
            obtain ⟨q, hq, rfl⟩ := rootRows_mem ps row hrow
            refine ⟨by simp, by simp, fun _ => ⟨Proc.root q, rfl⟩⟩
      | seq p1 q1 =>
          rw [Proc.root, Cursor.inv]
          constructor
          · exact ih p1 (by simp at hsize; omega)
          · rw [invRow_iff]
            intro c hc
            simp at hc
            rw [hc]
            exact ih q1 (by simp at hsize; omega)

theorem root_inv (p : Proc) : Cursor.inv (Proc.root p) :=
  root_inv_aux (sizeOf p) p le_rfl

/-- The cursors obtainable through the public API: a `root()` cursor, or
the result of a guarded `perform` on a reachable cursor. -/
inductive Reachable : Cursor → Prop where
  | root (p : Proc) : Reachable (Proc.root p)
  | step {c c' : Cursor} {e : Event} : Reachable c →
      Cursor.canPerform c e = true → Cursor.perform c e = some c' → Reachable c'

theorem reachable_inv {c : Cursor} (h : Reachable c) : Cursor.inv c := by
  induction h with
  | root p => exact root_inv p
  | step hr hcan hperf ih =>
      rename_i c0 c1 e
      obtain ⟨c2, hp2, hi2⟩ := perform_some_of_inv (sizeOf c0) c0 le_rfl e ih hcan
      rw [hperf] at hp2
      cases hp2
      exact hi2

/-- C10: `satisfies_trace` is total and never trips the fatal `perform`
contract on API-obtained cursors: it returns `true` on the empty trace for
every cursor, returns `false` at the first event that is not performable
(whatever the rest of the trace is), and on every reachable cursor it
returns normally on every trace. -/
theorem c10_satisfies_trace_safe :
    (∀ c : Cursor, satisfiesTrace c [] = some true)
  ∧ (∀ (c : Cursor) (e : Event) (rest : List Event),
      Cursor.canPerform c e = false → satisfiesTrace c (e :: rest) = some false)
  ∧ (∀ c : Cursor, Reachable c → ∀ tr : List Event,
      ∃ b, satisfiesTrace c tr = some b) := by
  refine ⟨fun c => by rw [satisfiesTrace], ?_, ?_⟩
  · intro c e rest h
    simp [satisfiesTrace, h]
  · intro c hr tr
    induction tr generalizing c with
    | nil => exact ⟨true, by rw [satisfiesTrace]⟩
    | cons e rest ih =>
        by_cases hcp : Cursor.canPerform c e = true
        · obtain ⟨c', hperf, _⟩ :=
            perform_some_of_inv (sizeOf c) c le_rfl e (reachable_inv hr) hcp
          obtain ⟨b, hb⟩ := ih c' (Reachable.step hr hcp hperf)
          exact ⟨b, by simp [satisfiesTrace, hcp, hperf, hb]⟩
        · exact ⟨false, by simp [satisfiesTrace, hcp]⟩

theorem c10_witness :
    ∃ b, satisfiesTrace (Proc.root .skip) [Event.tick, Event.tau] = some b :=
  c10_satisfies_trace_safe.2.2 (Proc.root .skip) (Reachable.root .skip)
    [Event.tick, Event.tau]

/-! ### Claim C5: the maximal-trace algebra -/

/-- The maximal elements of a set of traces: those that are not a proper
prefix of another member. -/
def maximalSet (S : Set (List Event)) : Set (List Event) :=
  {t | t ∈ S ∧ ∀ u ∈ S, t <+: u → t = u}

theorem maximalSet_subset (S : Set (List Event)) : maximalSet S ⊆ S :=
  fun _ h => h.1

theorem prefix_antisymm {t u : List Event} (h1 : t <+: u) (h2 : u <+: t) : t = u :=
  h1.eq_of_length (Nat.le_antisymm h1.length_le h2.length_le)

/-- In a finite set every trace is a prefix of some maximal trace. -/
theorem exists_maximal_of_finite {S : Set (List Event)} (hS : S.Finite)
    {t : List Event} (ht : t ∈ S) : ∃ m ∈ maximalSet S, t <+: m := by
  have hsub : {u ∈ S | t <+: u}.Finite := hS.subset (fun u hu => hu.1)
  obtain ⟨m, hm, hmax⟩ := Set.Finite.exists_maximal_wrt List.length _ hsub
    ⟨t, ht, List.prefix_rfl⟩
  refine ⟨m, ⟨hm.1, ?_⟩, hm.2⟩
  intro u hu hpre
  have hu2 : u ∈ {u ∈ S | t <+: u} := ⟨hu, hm.2.trans hpre⟩
  exact hpre.eq_of_length (hmax u hu2 hpre.length_le)

theorem maximalSet_union_congr {S Y : Set (List Event)} (hS : S.Finite) :
    maximalSet (S ∪ Y) = maximalSet (maximalSet S ∪ Y) := by
  ext t
  constructor
  · rintro ⟨htm, hmax⟩
    have htm2 : t ∈ maximalSet S ∪ Y := by
      rcases htm with h | h
      · left
        refine ⟨h, fun u hu hp => hmax u (Or.inl hu) hp⟩
      · right; exact h
    exact ⟨htm2, fun u hu hp =>
      hmax u (Set.union_subset_union_left Y (maximalSet_subset S) hu) hp⟩
  · rintro ⟨htm, hmax⟩
    have htm2 : t ∈ S ∪ Y := by
      rcases htm with h | h
      · exact Or.inl (maximalSet_subset S h)
      · exact Or.inr h
    refine ⟨htm2, ?_⟩
    intro u hu hp
    rcases hu with hu | hu
    · obtain ⟨m, hm, hum⟩ := exists_maximal_of_finite hS hu
      have htm3 := hmax m (Or.inl hm) (hp.trans hum)
      rw [← htm3] at hum
      exact prefix_antisymm hp hum
    · exact hmax u (Or.inr hu) hp

theorem maximalSet_union_congr_right {S Y : Set (List Event)} (hY : Y.Finite) :
    maximalSet (S ∪ Y) = maximalSet (S ∪ maximalSet Y) := by
  rw [Set.union_comm S Y, maximalSet_union_congr hY, Set.union_comm]

theorem maximalSet_union_nil {S : Set (List Event)} (hne : S.Nonempty) :
    maximalSet (S ∪ {[]}) = maximalSet S := by
  ext t
  constructor
  · rintro ⟨htm, hmax⟩
    rcases htm with h | h
    · exact ⟨h, fun u hu hp => hmax u (Or.inl hu) hp⟩
    · simp at h
      subst h
      obtain ⟨u, hu⟩ := hne
      have := hmax u (Or.inl hu) ( List.nil_prefix)
      subst this
      exact ⟨hu, fun u2 hu2 hp => hmax u2 (Or.inl hu2) hp⟩
  · rintro ⟨htm, hmax⟩
    refine ⟨Or.inl htm, ?_⟩
    intro u hu hp
    rcases hu with hu | hu
    · exact hmax u hu hp
    · simp at hu
      subst hu
      exact List.prefix_nil.mp hp

theorem prefixMaximal_iff_maximalSet {res : Finset (List Event)} :
    PrefixMaximal res ↔ maximalSet ↑res = ↑res := by
  constructor
  · intro h
    ext t
    constructor
    · exact fun ht => ht.1
    · intro ht
      exact ⟨ht, fun u hu hp => h t ht u hu hp⟩
  · intro h u hu v hv hp
    have : u ∈ maximalSet ↑res := by rw [h]; exact_mod_cast hu
    exact this.2 v (by exact_mod_cast hv) hp

/-- `MaximalTraces::insert` computes the maximal elements of the enlarged
set, provided the receiver is prefix-maximal. -/
theorem insert_eq_maximalSet {res : Finset (List Event)} (hres : PrefixMaximal res)
    (x : List Event) :
    ↑(MaximalTraces.insert res x) = maximalSet (↑res ∪ {x}) := by
  rw [MaximalTraces.insert]
  split
  · rename_i hblock
    obtain ⟨u, hu, hxu⟩ := hblock
    ext t
    constructor
    · intro ht
      refine ⟨Or.inl ht, ?_⟩
      rintro v (hv | hv) hp
      · exact hres t ht v hv hp
      · simp at hv
        subst hv
        have htu : t = u := hres t ht u hu (hp.trans hxu)
        exact prefix_antisymm hp (by rw [htu]; exact hxu)
    · rintro ⟨(ht | ht), hmax⟩
      · exact ht
      · simp at ht
        subst ht
        have := hmax u (Or.inl hu) hxu
        rw [this]
        exact hu
  · rename_i hblock
    push_neg at hblock
    rw [removePrefixes_eq]
    ext t
    simp only [Finset.coe_insert, Set.mem_insert_iff, Finset.coe_filter,
      Set.mem_setOf_eq, Finset.mem_coe]
    constructor
    · rintro (rfl | ⟨ht, hnp⟩)
      · refine ⟨Or.inr rfl, ?_⟩
        rintro u (hu | hu) hp
        · exact absurd hp (hblock u hu)
        · simp at hu; rw [hu]
      · refine ⟨Or.inl ht, ?_⟩
        rintro u (hu | hu) hp
        · exact hres t ht u hu hp
        · simp at hu
          subst hu
          by_contra hne
          exact hnp ⟨hp, hne⟩
    · rintro ⟨(ht | ht), hmax⟩
      · refine Or.inr ⟨ht, ?_⟩
        rintro ⟨hp, hne⟩
        exact hne (hmax x (Or.inr rfl) hp)
      · exact Or.inl ht

/- `MaximalTraces::insert` is insensitive to insertion order.  This makes the
`Add` implementation (which iterates the right-hand `HashSet` in an
unspecified order) well defined, so it can be modelled as a multiset fold. -/

theorem insert_comm_blocked_free {S : Finset (List Event)} {t u : List Event}
    (hBt : ∃ w ∈ S, t <+: w) (hBu : ¬∃ w ∈ S, u <+: w) :
    MaximalTraces.insert (MaximalTraces.insert S t) u
      = MaximalTraces.insert (MaximalTraces.insert S u) t := by
  obtain ⟨w, hw, hpt⟩ := hBt
  rw [insert_blocked hw hpt]
  rcases Decidable.em (t <+: u) with htu | htu
  · have hu : u ∈ MaximalTraces.insert S u := (mem_insert_free hBu u).mpr (Or.inl rfl)
    rw [insert_blocked hu htu]
  · have hkeep : ¬(w <+: u ∧ w ≠ u) := by
      rintro ⟨hwu, _⟩
      exact htu (hpt.trans hwu)
    have hw2 : w ∈ MaximalTraces.insert S u :=
      (mem_insert_free hBu w).mpr (Or.inr ⟨hw, hkeep⟩)
    rw [insert_blocked hw2 hpt]

theorem insert_comm_free_pfx {S : Finset (List Event)} {t u : List Event}
    (hBt : ¬∃ w ∈ S, t <+: w) (hBu : ¬∃ w ∈ S, u <+: w)
    (hut : u <+: t) (hne : u ≠ t) :
    MaximalTraces.insert (MaximalTraces.insert S t) u
      = MaximalTraces.insert (MaximalTraces.insert S u) t := by
  have ht1 : t ∈ MaximalTraces.insert S t := (mem_insert_free hBt t).mpr (Or.inl rfl)
  rw [insert_blocked ht1 hut]
  have hfree : ¬∃ w ∈ MaximalTraces.insert S u, t <+: w := by
    rintro ⟨w, hwmem, hptw⟩
    rcases (mem_insert_free hBu w).mp hwmem with rfl | ⟨hwS, _⟩
    · exact hne (prefix_antisymm hut hptw)
    · exact hBt ⟨w, hwS, hptw⟩
  ext v
  rw [mem_insert_free hBt, mem_insert_free hfree]
  constructor
  · rintro (rfl | ⟨hvS, hkt⟩)
    · exact Or.inl rfl
    · refine Or.inr ⟨(mem_insert_free hBu v).mpr (Or.inr ⟨hvS, ?_⟩), hkt⟩
      rintro ⟨hvu, _⟩
      refine hkt ⟨hvu.trans hut, ?_⟩
      rintro rfl
      exact hne (prefix_antisymm hut hvu)
  · rintro (rfl | ⟨hvmem, hkt⟩)
    · exact Or.inl rfl
    · rcases (mem_insert_free hBu v).mp hvmem with rfl | ⟨hvS, _⟩
      · exact absurd ⟨hut, hne⟩ hkt
      · exact Or.inr ⟨hvS, hkt⟩

theorem insert_comm_free_incomp {S : Finset (List Event)} {t u : List Event}
    (hBt : ¬∃ w ∈ S, t <+: w) (hBu : ¬∃ w ∈ S, u <+: w)
    (hut : ¬u <+: t) (htu : ¬t <+: u) :
    MaximalTraces.insert (MaximalTraces.insert S t) u
      = MaximalTraces.insert (MaximalTraces.insert S u) t := by
  have hfree1 : ¬∃ w ∈ MaximalTraces.insert S t, u <+: w := by
    rintro ⟨w, hwmem, hp⟩
    rcases (mem_insert_free hBt w).mp hwmem with rfl | ⟨hwS, _⟩
    · exact hut hp
    · exact hBu ⟨w, hwS, hp⟩
  have hfree2 : ¬∃ w ∈ MaximalTraces.insert S u, t <+: w := by
    rintro ⟨w, hwmem, hp⟩
    rcases (mem_insert_free hBu w).mp hwmem with rfl | ⟨hwS, _⟩
    · exact htu hp
    · exact hBt ⟨w, hwS, hp⟩
  ext v
  rw [mem_insert_free hfree1, mem_insert_free hBt,
    mem_insert_free hfree2, mem_insert_free hBu]
  constructor
  · rintro (rfl | ⟨(rfl | ⟨hvS, hkt⟩), hku⟩)
    · exact Or.inr ⟨Or.inl rfl, fun h => hut h.1⟩
    · exact Or.inl rfl
    · exact Or.inr ⟨Or.inr ⟨hvS, hku⟩, hkt⟩
  · rintro (rfl | ⟨(rfl | ⟨hvS, hku⟩), hkt⟩)
    · exact Or.inr ⟨Or.inl rfl, fun h => htu h.1⟩
    · exact Or.inl rfl
    · exact Or.inr ⟨Or.inr ⟨hvS, hkt⟩, hku⟩

theorem insert_insert_comm (t u : List Event) (S : Finset (List Event)) :
    MaximalTraces.insert (MaximalTraces.insert S t) u
      = MaximalTraces.insert (MaximalTraces.insert S u) t := by
  rcases Decidable.em (t = u) with rfl | hne
  · rfl
  rcases Decidable.em (∃ w ∈ S, t <+: w) with hBt | hBt <;>
    rcases Decidable.em (∃ w ∈ S, u <+: w) with hBu | hBu
  · obtain ⟨w, hw, hp⟩ := hBt
    obtain ⟨w2, hw2, hp2⟩ := hBu
    rw [insert_blocked hw hp, insert_blocked hw2 hp2, insert_blocked hw hp]
  · exact insert_comm_blocked_free hBt hBu
  · exact (insert_comm_blocked_free hBu hBt).symm
  · rcases Decidable.em (u <+: t) with hut | hut
    · exact insert_comm_free_pfx hBt hBu hut (Ne.symm hne)
    · rcases Decidable.em (t <+: u) with htu | htu
      · exact (insert_comm_free_pfx hBu hBt htu hne).symm
      · exact insert_comm_free_incomp hBt hBu hut htu

/-- `MaximalTraces::insert`, with the trace as the first argument, as the
folded operation of the `Add` impl. -/
def MaximalTraces.insOp (t : List Event) (S : Finset (List Event)) :
    Finset (List Event) :=
  MaximalTraces.insert S t

instance : LeftCommutative MaximalTraces.insOp :=
  ⟨fun a b S => insert_insert_comm b a S⟩

/-- The `Add for MaximalTraces` impl: inserts every trace of the right-hand
set into the left-hand set (in an unspecified iteration order, which is
irrelevant by `insert_insert_comm`). -/
def MaximalTraces.add (A B : Finset (List Event)) : Finset (List Event) :=
  Multiset.foldr MaximalTraces.insOp A B.val

theorem foldr_insert_prefixMaximal {A : Finset (List Event)}
    (hA : PrefixMaximal A) (m : Multiset (List Event)) :
    PrefixMaximal (Multiset.foldr MaximalTraces.insOp A m) := by
  induction m using Multiset.induction_on with
  | empty => simpa using hA
  | cons a s ih =>
      rw [Multiset.foldr_cons]
      exact insert_prefixMaximal ih

theorem foldr_insert_eq_maximalSet {A : Finset (List Event)}
    (hA : PrefixMaximal A) (m : Multiset (List Event)) :
    ↑(Multiset.foldr MaximalTraces.insOp A m)
      = maximalSet (↑A ∪ {x | x ∈ m}) := by
  induction m using Multiset.induction_on with
  | empty =>
      simp only [Multiset.foldr_zero]
      have h0 : {x : List Event | x ∈ (0 : Multiset (List Event))} = ∅ := by simp
      rw [h0, Set.union_empty]
      exact (prefixMaximal_iff_maximalSet.mp hA).symm
  | cons a s ih =>
      rw [Multiset.foldr_cons]
      rw [show MaximalTraces.insOp a (Multiset.foldr MaximalTraces.insOp A s)
            = MaximalTraces.insert (Multiset.foldr MaximalTraces.insOp A s) a from rfl]
      rw [insert_eq_maximalSet (foldr_insert_prefixMaximal hA s) a, ih]
      have hfin : (↑A ∪ {x : List Event | x ∈ s}).Finite :=
        (A.finite_toSet).union (s.finite_toSet)
      rw [← maximalSet_union_congr hfin]
      have hset : ((↑A ∪ {x : List Event | x ∈ s}) ∪ {a} : Set (List Event))
          = ↑A ∪ {x : List Event | x ∈ a ::ₘ s} := by
        ext x
        simp [Multiset.mem_cons]
        tauto
      rw [hset]

theorem add_prefixMaximal {A : Finset (List Event)} (hA : PrefixMaximal A)
    (B : Finset (List Event)) : PrefixMaximal (MaximalTraces.add A B) :=
  foldr_insert_prefixMaximal hA B.val

theorem add_eq_maximalSet {A B : Finset (List Event)} (hA : PrefixMaximal A) :
    ↑(MaximalTraces.add A B) = maximalSet (↑A ∪ ↑B) := by
  rw [MaximalTraces.add, foldr_insert_eq_maximalSet hA B.val]
  congr 1

/- The event alphabet reported by `Cursor::events` agrees with
`Cursor::can_perform` on every cursor value: `maximal_finite_traces` only
performs events drawn from `initials()`, and this agreement makes each such
event performable. -/

theorem eventsSubs_iff (subs : List (Bool × Cursor))
    (H : ∀ pr ∈ subs, ∀ e : Event,
      e ∈ Cursor.events pr.2 ↔ Cursor.canPerform pr.2 e = true) :
    ∀ e, e ∈ Cursor.eventsSubs subs ↔ Cursor.canPerformSubs subs e = true := by
  induction subs with
  | nil =>
      intro e
      rw [Cursor.eventsSubs, Cursor.canPerformSubs]
      simp
  | cons pr rest ih =>
      obtain ⟨a, c⟩ := pr
      intro e
      rw [Cursor.eventsSubs, Cursor.canPerformSubs, List.mem_append,
        ih (fun x hx => H x (List.mem_cons_of_mem _ hx))]
      have Hc := H (a, c) (List.mem_cons_self _ _) e
      cases a with
      | false => simp
      | true => simp [Hc]

theorem eventsRow_iff (row : List (Option Cursor))
    (H : ∀ c, some c ∈ row → ∀ e : Event,
      e ∈ Cursor.events c ↔ Cursor.canPerform c e = true) :
    ∀ e, e ∈ Cursor.eventsRow row ↔ Cursor.canPerformRow row e = true := by
  induction row with
  | nil =>
      intro e
      rw [Cursor.eventsRow, Cursor.canPerformRow]
      simp
  | cons o rest ih =>
      cases o with
      | none =>
          intro e
          rw [Cursor.eventsRow, Cursor.canPerformRow]
          exact ih (fun c hc => H c (List.mem_cons_of_mem _ hc)) e
      | some c =>
          intro e
          rw [Cursor.eventsRow, Cursor.canPerformRow, List.mem_append,
            ih (fun c2 hc => H c2 (List.mem_cons_of_mem _ hc)),
            H c (List.mem_cons_self _ _) e]
          simp

theorem eventsRows_iff (rows : List (List (Option Cursor)))
    (H : ∀ row ∈ rows, ∀ c, some c ∈ row → ∀ e : Event,
      e ∈ Cursor.events c ↔ Cursor.canPerform c e = true) :
    ∀ e, e ∈ Cursor.eventsRows rows ↔ Cursor.canPerformRows rows e = true := by
  induction rows with
  | nil =>
      intro e
      rw [Cursor.eventsRows, Cursor.canPerformRows]
      simp
  | cons row rest ih =>
      intro e
      rw [Cursor.eventsRows, Cursor.canPerformRows, List.mem_append,
        ih (fun r hr => H r (List.mem_cons_of_mem _ hr)),
        eventsRow_iff row (H row (List.mem_cons_self _ _)) e]
      simp

theorem pEvents_iff (p : Cursor)
    (Hp : ∀ e : Event, e ∈ Cursor.events p ↔ Cursor.canPerform p e = true)
    (e : Event) :
    e ∈ (Cursor.events p).map (fun x => if x = Event.tick then Event.tau else x)
      ↔ (if e = Event.tick then false
         else if e = Event.tau then
           Cursor.canPerform p .tau || Cursor.canPerform p .tick
         else Cursor.canPerform p e) = true := by
  rw [List.mem_map]
  constructor
  · rintro ⟨x, hx, hfx⟩
    by_cases hxt : x = Event.tick
    · subst hxt
      simp only [if_pos rfl] at hfx
      subst hfx
      simp
      exact Or.inr ((Hp Event.tick).mp hx)
    · rw [if_neg hxt] at hfx
      subst hfx
      rw [if_neg hxt]
      by_cases hxa : x = Event.tau
      · subst hxa
        simp
        exact Or.inl ((Hp Event.tau).mp hx)
      · rw [if_neg hxa]
        exact (Hp x).mp hx
  · intro h
    by_cases het : e = Event.tick
    · subst het
      simp at h
    · rw [if_neg het] at h
      by_cases hea : e = Event.tau
      · subst hea
        simp at h
        rcases h with h | h
        · exact ⟨Event.tau, (Hp Event.tau).mpr h, by simp⟩
        · exact ⟨Event.tick, (Hp Event.tick).mpr h, by simp⟩
      · rw [if_neg hea] at h
        exact ⟨e, (Hp e).mpr h, by rw [if_neg het]⟩

theorem events_iff_canPerform :
    ∀ (N : Nat) (c : Cursor), sizeOf c ≤ N → ∀ e : Event,
      e ∈ Cursor.events c ↔ Cursor.canPerform c e = true := by
  intro N
  induction N with
  | zero =>
      intro c hsize
      exfalso
      cases c <;> simp at hsize
  | succ N ih =>
      intro c hsize e
      cases c with
      | stop =>
          rw [Cursor.events, Cursor.canPerform]
          simp
      | skip b =>
          rw [Cursor.events, Cursor.canPerform]
          cases b <;> simp
      | pfx b i c =>
          rw [Cursor.events, Cursor.canPerform]
          cases b with
          | true =>
              simp only [if_pos rfl]
              exact ih c (by simp at hsize; omega) e
          | false => simp
      | intChoice b subs =>
          rw [Cursor.events, Cursor.canPerform]
          cases b with
          | true =>
              simp only [if_pos rfl]
              exact eventsSubs_iff subs
                (fun pr hpr e2 =>
                  ih pr.2 (by have := sizeOf_pair_snd hpr; simp at hsize; omega) e2) e
          | false => simp
      | extChoice r rows t =>
          rw [Cursor.events, Cursor.canPerform]
          exact eventsRows_iff rows
            (fun row hrow c2 hc2 e2 =>
              ih c2 (by have := sizeOf_rows_entry hrow hc2; simp at hsize; omega) e2) e
      | seq st p qs =>
          have hp : sizeOf p ≤ N := by simp at hsize; omega
          have Hq := eventsRow_iff qs
            (fun c2 hc2 e2 =>
              ih c2 (by have := sizeOf_row_entry hc2; simp at hsize; omega) e2)
          have Hp := pEvents_iff p (fun e2 => ih p hp e2)
          cases st with
          | beforeTick =>
              rw [Cursor.events, Cursor.canPerform]
              exact Hp e
          | afterTick =>
              rw [Cursor.events, Cursor.canPerform]
              exact Hq e
          | shrug =>
              rw [Cursor.events, Cursor.canPerform, List.mem_append, Hp e, Hq e]
              simp

/- Soundness of the structural equality test: `beq` only identifies equal
cursors (the derived `PartialEq` of the cursor types).  Together with the
strict measure decrease this shows the cycle-detection branch of
`maximal_finite_traces` never fires on these operators. -/

theorem beqSubs_sound :
    ∀ (s1 s2 : List (Bool × Cursor)),
      (∀ pr ∈ s1, ∀ c2 : Cursor, Cursor.beq pr.2 c2 = true → pr.2 = c2) →
      Cursor.beqSubs s1 s2 = true → s1 = s2 := by
  intro s1
  induction s1 with
  | nil =>
      intro s2 _ h
      cases s2 with
      | nil => rfl
      | cons _ _ => simp [Cursor.beqSubs] at h
  | cons pr r1 ih =>
      intro s2 H h
      obtain ⟨a1, c1⟩ := pr
      cases s2 with
      | nil => simp [Cursor.beqSubs] at h
      | cons pr2 r2 =>
          obtain ⟨a2, c2⟩ := pr2
          simp [Cursor.beqSubs] at h
          obtain ⟨⟨ha, hc⟩, hr⟩ := h
          have h1 : c1 = c2 := H (a1, c1) (List.mem_cons_self _ _) c2 hc
          rw [ha, h1, ih r2 (fun x hx => H x (List.mem_cons_of_mem _ hx)) hr]

theorem beqRow_sound :
    ∀ (r1 r2 : List (Option Cursor)),
      (∀ c, some c ∈ r1 → ∀ c2 : Cursor, Cursor.beq c c2 = true → c = c2) →
      Cursor.beqRow r1 r2 = true → r1 = r2 := by
  intro r1
  induction r1 with
  | nil =>
      intro r2 _ h
      cases r2 with
      | nil => rfl
      | cons _ _ => simp [Cursor.beqRow] at h
  | cons o r1 ih =>
      intro r2 H h
      cases r2 with
      | nil => cases o <;> simp [Cursor.beqRow] at h
      | cons o2 r2 =>
          cases o with
          | none =>
              cases o2 with
              | none =>
                  rw [Cursor.beqRow] at h
                  rw [ih r2 (fun c hc => H c (List.mem_cons_of_mem _ hc)) h]
              | some c2 => simp [Cursor.beqRow] at h
          | some c1 =>
              cases o2 with
              | none => simp [Cursor.beqRow] at h
              | some c2 =>
                  simp [Cursor.beqRow] at h
                  obtain ⟨hc, hr⟩ := h
                  rw [H c1 (List.mem_cons_self _ _) c2 hc,
                    ih r2 (fun c hc2 => H c (List.mem_cons_of_mem _ hc2)) hr]

theorem beqRows_sound :
    ∀ (rs1 rs2 : List (List (Option Cursor))),
      (∀ row ∈ rs1, ∀ c, some c ∈ row → ∀ c2 : Cursor,
        Cursor.beq c c2 = true → c = c2) →
      Cursor.beqRows rs1 rs2 = true → rs1 = rs2 := by
  intro rs1
  induction rs1 with
  | nil =>
      intro rs2 _ h
      cases rs2 with
      | nil => rfl
      | cons _ _ => simp [Cursor.beqRows] at h
  | cons row r1 ih =>
      intro rs2 H h
      cases rs2 with
      | nil => simp [Cursor.beqRows] at h
      | cons row2 r2 =>
          simp [Cursor.beqRows] at h
          obtain ⟨hrow, hr⟩ := h
          rw [beqRow_sound row row2 (H row (List.mem_cons_self _ _)) hrow,
            ih r2 (fun x hx => H x (List.mem_cons_of_mem _ hx)) hr]

theorem beq_sound :
    ∀ (N : Nat) (c p : Cursor), sizeOf c ≤ N → Cursor.beq c p = true → c = p := by
  intro N
  induction N with
  | zero =>
      intro c p hsize
      exfalso
      cases c <;> simp at hsize
  | succ N ih =>
      intro c p hsize h
      cases c with
      | stop =>
          cases p <;> first | rfl | simp [Cursor.beq] at h
      | skip b =>
          cases p <;> simp [Cursor.beq] at h
          rw [h]
      | pfx b i c =>
          cases p <;> simp [Cursor.beq] at h
          rename_i b2 i2 c2
          obtain ⟨⟨hb, hi⟩, hc⟩ := h
          rw [hb, hi, ih c c2 (by simp at hsize; omega) hc]
      | intChoice b subs =>
          cases p <;> simp [Cursor.beq] at h
          rename_i b2 s2
          obtain ⟨hb, hs⟩ := h
          rw [hb, beqSubs_sound subs s2
            (fun pr hpr c2 => ih pr.2 c2 (by have := sizeOf_pair_snd hpr; simp at hsize; omega)) hs]
      | extChoice r rows t =>
          cases p <;> simp [Cursor.beq] at h
          rename_i r2 rows2 t2
          obtain ⟨⟨hr, ht⟩, hrows⟩ := h
          rw [hr, ht, beqRows_sound rows rows2
            (fun row hrow c2 hc2 c3 =>
              ih c2 c3 (by have := sizeOf_rows_entry hrow hc2; simp at hsize; omega)) hrows]
      | seq st p1 qs =>
          cases p <;> simp [Cursor.beq] at h
          rename_i st2 p2 qs2
          obtain ⟨⟨hst, hp⟩, hqs⟩ := h
          rw [hst, ih p1 p2 (by simp at hsize; omega) hp,
            beqRow_sound qs qs2
              (fun c2 hc2 c3 =>
                ih c2 c3 (by have := sizeOf_row_entry hc2; simp at hsize; omega)) hqs]

/- A natural-number measure on cursors that strictly decreases on every
guarded engine step (`can_perform` true, `perform` succeeding).  Entries of
an unresolved external choice carry exponential weight so that the copy
pushed by `perform_tau_when_unresolved` pays for itself; the last slack
summand pays for stalled τ steps that push no copy. -/

def wexp (n : Nat) : Nat := 3 ^ (n + 1)

theorem wexp_ge_three (n : Nat) : 3 ≤ wexp n := by
  rw [wexp]
  calc 3 = 3 ^ 1 := by norm_num
  _ ≤ 3 ^ (n + 1) := Nat.pow_le_pow_right (by norm_num) (by omega)

theorem wexp_mono {m n : Nat} (h : m ≤ n) : wexp m ≤ wexp n :=
  Nat.pow_le_pow_right (by norm_num) (by omega)

theorem lt_wexp (n : Nat) : n + 1 < wexp n := by
  rw [wexp]
  exact Nat.lt_pow_self (by norm_num) (n + 1)

mutual

def Cursor.mu : Cursor → Nat
  | .stop => 0
  | .skip b => if b then 0 else 1
  | .pfx b _ c => (if b then 0 else 1) + Cursor.mu c
  | .intChoice b subs => (if b then 0 else 1) + Cursor.muSubs subs
  | .extChoice r rows t =>
      if r then Cursor.muRowsRes rows
      else Cursor.muRowsUnres rows + (totalTauDepth rows + 1 - t)
  | .seq st p qs =>
      (match st with
       | .beforeTick => 2
       | .shrug => 1
       | .afterTick => 0) + Cursor.mu p + Cursor.muRow qs

def Cursor.muSubs : List (Bool × Cursor) → Nat
  | [] => 0
  | (act, c) :: rest => (if act then 1 + Cursor.mu c else 0) + Cursor.muSubs rest

def Cursor.muRow : List (Option Cursor) → Nat
  | [] => 0
  | none :: rest => Cursor.muRow rest
  | some c :: rest => 1 + Cursor.mu c + Cursor.muRow rest

def Cursor.muRowsRes : List (List (Option Cursor)) → Nat
  | [] => 0
  | row :: rest => Cursor.muRow row + Cursor.muRowsRes rest

def Cursor.muRowUnres : List (Option Cursor) → Nat
  | [] => 0
  | none :: rest => Cursor.muRowUnres rest
  | some c :: rest => wexp (Cursor.mu c) + Cursor.muRowUnres rest

def Cursor.muBonus : List (Option Cursor) → Nat
  | row =>
      match h : row.getLast? with
      | some (some c) =>
          have : sizeOf c < sizeOf row := by
            have h1 := List.sizeOf_lt_of_mem (getLast?_mem h)
            simp at h1
            omega
          2 * wexp (Cursor.mu c)
      | some none => 0
      | none => 0

def Cursor.muRowsUnres : List (List (Option Cursor)) → Nat
  | [] => 0
  | row :: rest =>
      (Cursor.muRowUnres row + Cursor.muBonus row) + Cursor.muRowsUnres rest

end

/- The reachability invariant used for the measure: in addition to the row
shapes relied on by the `expect` calls, an unresolved external choice
satisfies two facts established by `perform_tau_when_unresolved` and
`deactivate_tau_subprocesses`: an out-of-sync row's surviving last
subprocess cannot perform another τ, and a row that has fallen behind every
consistent τ distribution has its leading entries deactivated. -/
def extShape (t : Nat) (rows : List (List (Option Cursor))) : Prop :=
  ∀ row ∈ rows, row ≠ [] ∧ row.length ≤ t + 1
    ∧ (row.length = t + 1 → ∃ c, row.getLast? = some (some c))
    ∧ (row.length ≤ t → ∀ c, row.getLast? = some (some c) →
        Cursor.canPerform c .tau = false)
    ∧ (1 < row.length → ∀ k < row.length,
        k + (totalTauDepth rows - (row.length - 1)) < t → row.get? k = some none)

mutual

def Cursor.minv : Cursor → Prop
  | .stop => True
  | .skip _ => True
  | .pfx _ _ c => Cursor.minv c
  | .intChoice _ subs => Cursor.minvSubs subs
  | .extChoice r rows t => Cursor.minvRows rows ∧ (r = false → extShape t rows)
  | .seq _ p qs => Cursor.minv p ∧ Cursor.minvRow qs

def Cursor.minvSubs : List (Bool × Cursor) → Prop
  | [] => True
  | (_, c) :: rest => Cursor.minv c ∧ Cursor.minvSubs rest

def Cursor.minvRows : List (List (Option Cursor)) → Prop
  | [] => True
  | row :: rest => Cursor.minvRow row ∧ Cursor.minvRows rest

def Cursor.minvRow : List (Option Cursor) → Prop
  | [] => True
  | none :: rest => Cursor.minvRow rest
  | some c :: rest => Cursor.minv c ∧ Cursor.minvRow rest

end

theorem minvSubs_iff : ∀ subs : List (Bool × Cursor),
    Cursor.minvSubs subs ↔ ∀ pr ∈ subs, Cursor.minv pr.2 := by
  intro subs
  induction subs with
  | nil => simp [Cursor.minvSubs]
  | cons pr rest ih =>
      obtain ⟨a, c⟩ := pr
      rw [Cursor.minvSubs, ih]
      constructor
      · rintro ⟨h1, h2⟩ x hx
        rcases List.mem_cons.mp hx with rfl | hx
        · exact h1
        · exact h2 x hx
      · intro h
        exact ⟨h (a, c) (List.mem_cons_self _ _),
          fun x hx => h x (List.mem_cons_of_mem _ hx)⟩

theorem minvRow_iff : ∀ row : List (Option Cursor),
    Cursor.minvRow row ↔ ∀ c : Cursor, some c ∈ row → Cursor.minv c := by
  intro row
  induction row with
  | nil => simp [Cursor.minvRow]
  | cons o rest ih =>
      cases o with
      | none =>
          rw [Cursor.minvRow, ih]
          constructor
          · intro h c hc
            rcases List.mem_cons.mp hc with hc | hc
            · cases hc
            · exact h c hc
          · intro h c hc
            exact h c (List.mem_cons_of_mem _ hc)
      | some c =>
          rw [Cursor.minvRow, ih]
          constructor
          · rintro ⟨h1, h2⟩ c2 hc2
            rcases List.mem_cons.mp hc2 with hc2 | hc2
            · cases hc2; exact h1
            · exact h2 c2 hc2
          · intro h
            exact ⟨h c (List.mem_cons_self _ _),
              fun c2 hc2 => h c2 (List.mem_cons_of_mem _ hc2)⟩

theorem minvRows_iff : ∀ rows : List (List (Option Cursor)),
    Cursor.minvRows rows ↔ ∀ row ∈ rows, Cursor.minvRow row := by
  intro rows
  induction rows with
  | nil => simp [Cursor.minvRows]
  | cons row rest ih =>
      rw [Cursor.minvRows, ih]
      constructor
      · rintro ⟨h1, h2⟩ r hr
        rcases List.mem_cons.mp hr with rfl | hr
        · exact h1
        · exact h2 r hr
      · intro h
        exact ⟨h row (List.mem_cons_self _ _),
          fun r hr => h r (List.mem_cons_of_mem _ hr)⟩

theorem muBonus_some {row : List (Option Cursor)} {c : Cursor}
    (h : row.getLast? = some (some c)) :
    Cursor.muBonus row = 2 * wexp (Cursor.mu c) := by
  rw [Cursor.muBonus]
  split
  · rename_i c2 heq
    rw [h] at heq
    simp at heq
    rw [heq]
  · rename_i heq
    rw [h] at heq
    simp at heq
  · rename_i heq
    rw [h] at heq
    simp at heq

theorem muBonus_none {row : List (Option Cursor)}
    (h : row.getLast? = some none) : Cursor.muBonus row = 0 := by
  rw [Cursor.muBonus]
  split
  · rename_i c2 heq
    rw [h] at heq
    simp at heq
  · rfl
  · rfl

theorem muBonus_nil : Cursor.muBonus ([] : List (Option Cursor)) = 0 := by
  rw [Cursor.muBonus]
  split
  · rename_i c2 heq
    simp at heq
  · rfl
  · rfl

theorem muRowUnres_append (row : List (Option Cursor)) (c : Cursor) :
    Cursor.muRowUnres (row ++ [some c])
      = Cursor.muRowUnres row + wexp (Cursor.mu c) := by
  induction row with
  | nil =>
      rw [List.nil_append, Cursor.muRowUnres, Cursor.muRowUnres, Cursor.muRowUnres]
      omega
  | cons o rest ih =>
      cases o with
      | none =>
          rw [List.cons_append, Cursor.muRowUnres, Cursor.muRowUnres, ih]
      | some c2 =>
          rw [List.cons_append, Cursor.muRowUnres, Cursor.muRowUnres, ih]
          omega

theorem canPerformRow_iff : ∀ (row : List (Option Cursor)) (e : Event),
    Cursor.canPerformRow row e = true
      ↔ ∃ c, some c ∈ row ∧ Cursor.canPerform c e = true := by
  intro row e
  induction row with
  | nil =>
      rw [Cursor.canPerformRow]
      simp
  | cons o rest ih =>
      cases o with
      | none =>
          rw [Cursor.canPerformRow, ih]
          constructor
          · rintro ⟨c, hc, h2⟩
            exact ⟨c, List.mem_cons_of_mem _ hc, h2⟩
          · rintro ⟨c, hc, h2⟩
            rcases List.mem_cons.mp hc with hc | hc
            · cases hc
            · exact ⟨c, hc, h2⟩
      | some c =>
          rw [Cursor.canPerformRow]
          simp only [Bool.or_eq_true, ih]
          constructor
          · rintro (h | ⟨c2, hc2, h2⟩)
            · exact ⟨c, List.mem_cons_self _ _, h⟩
            · exact ⟨c2, List.mem_cons_of_mem _ hc2, h2⟩
          · rintro ⟨c2, hc2, h2⟩
            rcases List.mem_cons.mp hc2 with hc2 | hc2
            · injection hc2 with hc3
              subst hc3
              exact Or.inl h2
            · exact Or.inr ⟨c2, hc2, h2⟩

theorem canPerformRows_iff : ∀ (rows : List (List (Option Cursor))) (e : Event),
    Cursor.canPerformRows rows e = true
      ↔ ∃ row ∈ rows, Cursor.canPerformRow row e = true := by
  intro rows e
  induction rows with
  | nil =>
      rw [Cursor.canPerformRows]
      simp
  | cons row rest ih =>
      rw [Cursor.canPerformRows]
      simp only [Bool.or_eq_true, ih]
      constructor
      · rintro (h | ⟨r, hr, h2⟩)
        · exact ⟨row, List.mem_cons_self _ _, h⟩
        · exact ⟨r, List.mem_cons_of_mem _ hr, h2⟩
      · rintro ⟨r, hr, h2⟩
        rcases List.mem_cons.mp hr with rfl | hr
        · exact Or.inl h2
        · exact Or.inr ⟨r, hr, h2⟩

theorem deactivateRow_get?_lt : ∀ (m k : Nat) (row : List (Option Cursor)),
    k < m → k < row.length → (deactivateRow m row).get? k = some none
  | 0, _, _, hk, _ => by omega
  | _ + 1, _, [], _, hk => by simp at hk
  | m + 1, 0, o :: rest, _, _ => by
      simp [deactivateRow]
  | m + 1, k + 1, o :: rest, hk, hlen => by
      simp only [deactivateRow]
      rw [List.get?_cons_succ]
      exact deactivateRow_get?_lt m k rest (by omega) (by simp at hlen; omega)

theorem deactivateRow_replicate : ∀ (m : Nat) (row : List (Option Cursor)),
    row.length ≤ m → deactivateRow m row = List.replicate row.length none
  | 0, row, h => by
      have : row = [] := List.length_eq_zero.mp (by omega)
      rw [this]
      rfl
  | _ + 1, [], _ => by rfl
  | m + 1, o :: rest, h => by
      simp only [deactivateRow, List.length_cons, List.replicate_succ]
      rw [deactivateRow_replicate m rest (by simp at h; omega)]

theorem getLast?_replicate_none (n : Nat) (hn : n ≠ 0) :
    (List.replicate n (none : Option Cursor)).getLast? = some none := by
  induction n with
  | zero => omega
  | succ n ih =>
      rw [List.replicate_succ]
      cases n with
      | zero => rfl
      | succ n2 =>
          rw [getLast?_cons_ne_nil (by simp)]
          exact ih (by omega)

theorem deactivateRow_getLast?_cases (m : Nat) (row : List (Option Cursor))
    (h : row ≠ []) :
    (deactivateRow m row).getLast? = row.getLast?
      ∨ (deactivateRow m row).getLast? = some none := by
  rcases Decidable.em (m ≤ row.length - 1) with hm | hm
  · exact Or.inl (deactivateRow_getLast? m row hm)
  · right
    have hlen : row.length ≤ m := by
      have := List.length_pos.mpr h
      omega
    rw [deactivateRow_replicate m row hlen]
    exact getLast?_replicate_none _ (by have := List.length_pos.mpr h; omega)

theorem muRowUnres_deactivate_le : ∀ (m : Nat) (row : List (Option Cursor)),
    Cursor.muRowUnres (deactivateRow m row) ≤ Cursor.muRowUnres row
  | 0, row => by rw [deactivateRow]
  | _ + 1, [] => by
      rw [deactivateRow_replicate _ [] (by simp), List.length_nil, List.replicate_zero]
  | m + 1, o :: rest => by
      simp only [deactivateRow]
      rw [Cursor.muRowUnres]
      cases o with
      | none =>
          rw [Cursor.muRowUnres]
          exact muRowUnres_deactivate_le m rest
      | some c =>
          rw [Cursor.muRowUnres]
          have := muRowUnres_deactivate_le m rest
          omega

theorem muBonus_deactivate_le (m : Nat) (row : List (Option Cursor)) :
    Cursor.muBonus (deactivateRow m row) ≤ Cursor.muBonus row := by
  rcases eq_or_ne row [] with rfl | hne
  · rw [deactivateRow_replicate m [] (by simp), List.length_nil, List.replicate_zero]
  · rcases deactivateRow_getLast?_cases m row hne with hc | hc
    · rcases h2 : row.getLast? with _ | o2
      · have hs := List.getLast?_isSome.mpr hne
        rw [h2] at hs
        simp at hs
      · cases o2 with
        | none =>
            rw [muBonus_none (hc.trans h2)]
            exact Nat.zero_le _
        | some c =>
            rw [muBonus_some (hc.trans h2), muBonus_some h2]
    · rw [muBonus_none hc]
      exact Nat.zero_le _

theorem forall₂_mem_right {α β : Type} {R : α → β → Prop} :
    ∀ {l1 : List α} {l2 : List β}, List.Forall₂ R l1 l2 →
      ∀ b ∈ l2, ∃ a ∈ l1, R a b := by
  intro l1 l2 h
  induction h with
  | nil => intro b hb; cases hb
  | cons hr _ ih =>
      intro b hb
      rcases List.mem_cons.mp hb with rfl | hb
      · exact ⟨_, List.mem_cons_self _ _, hr⟩
      · obtain ⟨a, ha, har⟩ := ih b hb
        exact ⟨a, List.mem_cons_of_mem _ ha, har⟩

theorem performRow_dec :
    ∀ (row : List (Option Cursor)) (e : Event),
      (∀ c, some c ∈ row → Cursor.minv c → Cursor.canPerform c e = true →
        ∃ c', Cursor.perform c e = some c' ∧ Cursor.minv c' ∧
          Cursor.mu c' < Cursor.mu c) →
      Cursor.minvRow row →
      ∃ row2, Cursor.performRow row e = some row2 ∧ Cursor.minvRow row2
        ∧ Cursor.muRow row2 ≤ Cursor.muRow row
        ∧ (Cursor.canPerformRow row e = true →
            Cursor.muRow row2 < Cursor.muRow row) := by
  intro row e
  induction row with
  | nil =>
      intro _ _
      refine ⟨[], by rw [Cursor.performRow], by rw [Cursor.minvRow]; trivial,
        le_refl _, ?_⟩
      intro h
      rw [Cursor.canPerformRow] at h
      cases h
  | cons o rest ih =>
      intro H hinv
      cases o with
      | none =>
          rw [Cursor.minvRow] at hinv
          obtain ⟨rest2, hr2, hi2, hle, hlt⟩ :=
            ih (fun c hc => H c (List.mem_cons_of_mem _ hc)) hinv
          refine ⟨none :: rest2, ?_, ?_, ?_, ?_⟩
          · rw [Cursor.performRow, hr2]; rfl
          · rw [Cursor.minvRow]; exact hi2
          · rw [Cursor.muRow, Cursor.muRow]; exact hle
          · intro hc
            rw [Cursor.canPerformRow] at hc
            rw [Cursor.muRow, Cursor.muRow]
            exact hlt hc
      | some c =>
          rw [Cursor.minvRow] at hinv
          obtain ⟨hc, hrest⟩ := hinv
          obtain ⟨rest2, hr2, hi2, hle, _⟩ :=
            ih (fun c2 hc2 => H c2 (List.mem_cons_of_mem _ hc2)) hrest
          by_cases hcp : Cursor.canPerform c e = true
          · obtain ⟨c', hp, hm', hmu⟩ := H c (List.mem_cons_self _ _) hc hcp
            refine ⟨some c' :: rest2, ?_, ?_, ?_, ?_⟩
            · rw [Cursor.performRow]
              simp [hcp, hp, hr2]
            · rw [Cursor.minvRow]; exact ⟨hm', hi2⟩
            · rw [Cursor.muRow, Cursor.muRow]; omega
            · intro _
              rw [Cursor.muRow, Cursor.muRow]; omega
          · refine ⟨none :: rest2, ?_, ?_, ?_, ?_⟩
            · rw [Cursor.performRow]
              simp [hcp, hr2]
            · rw [Cursor.minvRow]; exact hi2
            · rw [Cursor.muRow, Cursor.muRow]; omega
            · intro _
              rw [Cursor.muRow, Cursor.muRow]; omega

theorem performSubs_dec :
    ∀ (subs : List (Bool × Cursor)) (e : Event),
      (∀ pr ∈ subs, Cursor.minv pr.2 → Cursor.canPerform pr.2 e = true →
        ∃ c', Cursor.perform pr.2 e = some c' ∧ Cursor.minv c' ∧
          Cursor.mu c' < Cursor.mu pr.2) →
      Cursor.minvSubs subs →
      ∃ subs2, Cursor.performSubs subs e = some subs2 ∧ Cursor.minvSubs subs2
        ∧ Cursor.muSubs subs2 ≤ Cursor.muSubs subs
        ∧ (Cursor.canPerformSubs subs e = true →
            Cursor.muSubs subs2 < Cursor.muSubs subs) := by
  intro subs e
  induction subs with
  | nil =>
      intro _ _
      refine ⟨[], by rw [Cursor.performSubs], by rw [Cursor.minvSubs]; trivial,
        le_refl _, ?_⟩
      intro h
      rw [Cursor.canPerformSubs] at h
      cases h
  | cons pr rest ih =>
      obtain ⟨a, c⟩ := pr
      intro H hinv
      rw [Cursor.minvSubs] at hinv
      obtain ⟨hc, hrest⟩ := hinv
      obtain ⟨rest2, hr2, hi2, hle, hlt⟩ :=
        ih (fun x hx => H x (List.mem_cons_of_mem _ hx)) hrest
      have Hc := H (a, c) (List.mem_cons_self _ _) hc
      cases a with
      | false =>
          refine ⟨(false, c) :: rest2, ?_, ?_, ?_, ?_⟩
          · rw [Cursor.performSubs]
            simp [hr2]
          · rw [Cursor.minvSubs]; exact ⟨hc, hi2⟩
          · rw [Cursor.muSubs, Cursor.muSubs]
            simp
            omega
          · intro hcp
            rw [Cursor.canPerformSubs] at hcp
            simp at hcp
            rw [Cursor.muSubs, Cursor.muSubs]
            simp
            have := hlt hcp
            omega
      | true =>
          by_cases hcp : Cursor.canPerform c e = true
          · obtain ⟨c', hp, hm', hmu⟩ := Hc hcp
            have hmu2 : Cursor.mu c' < Cursor.mu c := hmu
            refine ⟨(true, c') :: rest2, ?_, ?_, ?_, ?_⟩
            · rw [Cursor.performSubs]
              simp [hcp, hp, hr2]
            · rw [Cursor.minvSubs]; exact ⟨hm', hi2⟩
            · rw [Cursor.muSubs, Cursor.muSubs]
              simp
              omega
            · intro _
              rw [Cursor.muSubs, Cursor.muSubs]
              simp
              omega
          · refine ⟨(false, c) :: rest2, ?_, ?_, ?_, ?_⟩
            · rw [Cursor.performSubs]
              simp [hcp, hr2]
            · rw [Cursor.minvSubs]; exact ⟨hc, hi2⟩
            · rw [Cursor.muSubs, Cursor.muSubs]
              simp
              omega
            · intro _
              rw [Cursor.muSubs, Cursor.muSubs]
              simp
              omega

theorem performRows_dec :
    ∀ (rows : List (List (Option Cursor))) (e : Event),
      (∀ c, (∃ row ∈ rows, some c ∈ row) → Cursor.minv c →
        Cursor.canPerform c e = true →
        ∃ c', Cursor.perform c e = some c' ∧ Cursor.minv c' ∧
          Cursor.mu c' < Cursor.mu c) →
      Cursor.minvRows rows →
      ∃ rows2, Cursor.performRows rows e = some rows2 ∧ Cursor.minvRows rows2
        ∧ Cursor.muRowsRes rows2 ≤ Cursor.muRowsRes rows
        ∧ (Cursor.canPerformRows rows e = true →
            Cursor.muRowsRes rows2 < Cursor.muRowsRes rows) := by
  intro rows e
  induction rows with
  | nil =>
      intro _ _
      refine ⟨[], by rw [Cursor.performRows], by rw [Cursor.minvRows]; trivial,
        le_refl _, ?_⟩
      intro h
      rw [Cursor.canPerformRows] at h
      cases h
  | cons row rest ih =>
      intro H hinv
      rw [Cursor.minvRows] at hinv
      obtain ⟨hrow, hrest⟩ := hinv
      obtain ⟨row2, hr2, hi2, hle2, hlt2⟩ :=
        performRow_dec row e
          (fun c hc => H c ⟨row, List.mem_cons_self _ _, hc⟩) hrow
      obtain ⟨rest2, hs2, hi3, hle3, hlt3⟩ :=
        ih (fun c ⟨r, hr, hcr⟩ => H c ⟨r, List.mem_cons_of_mem _ hr, hcr⟩) hrest
      refine ⟨row2 :: rest2, ?_, ?_, ?_, ?_⟩
      · rw [Cursor.performRows, hr2]
        simp [hs2]
      · rw [Cursor.minvRows]; exact ⟨hi2, hi3⟩
      · rw [Cursor.muRowsRes, Cursor.muRowsRes]; omega
      · intro hcp
        rw [Cursor.canPerformRows] at hcp
        simp at hcp
        rw [Cursor.muRowsRes, Cursor.muRowsRes]
        rcases hcp with hcp | hcp
        · have := hlt2 hcp
          omega
        · have := hlt3 hcp
          omega

theorem performRow_res_dec :
    ∀ (row : List (Option Cursor)) (e : Event),
      (∀ c, some c ∈ row → Cursor.minv c → Cursor.canPerform c e = true →
        ∃ c', Cursor.perform c e = some c' ∧ Cursor.minv c' ∧
          Cursor.mu c' < Cursor.mu c) →
      Cursor.minvRow row →
      ∃ row2, Cursor.performRow row e = some row2 ∧ Cursor.minvRow row2
        ∧ Cursor.muRow row2 ≤ Cursor.muRowUnres row
        ∧ (Cursor.canPerformRow row e = true →
            Cursor.muRow row2 < Cursor.muRowUnres row) := by
  intro row e
  induction row with
  | nil =>
      intro _ _
      refine ⟨[], by rw [Cursor.performRow], by rw [Cursor.minvRow]; trivial,
        by rw [Cursor.muRow, Cursor.muRowUnres], ?_⟩
      intro h
      rw [Cursor.canPerformRow] at h
      cases h
  | cons o rest ih =>
      intro H hinv
      cases o with
      | none =>
          rw [Cursor.minvRow] at hinv
          obtain ⟨rest2, hr2, hi2, hle, hlt⟩ :=
            ih (fun c hc => H c (List.mem_cons_of_mem _ hc)) hinv
          refine ⟨none :: rest2, ?_, ?_, ?_, ?_⟩
          · rw [Cursor.performRow, hr2]; rfl
          · rw [Cursor.minvRow]; exact hi2
          · rw [Cursor.muRow, Cursor.muRowUnres]; exact hle
          · intro hc
            rw [Cursor.canPerformRow] at hc
            rw [Cursor.muRow, Cursor.muRowUnres]
            exact hlt hc
      | some c =>
          rw [Cursor.minvRow] at hinv
          obtain ⟨hc, hrest⟩ := hinv
          obtain ⟨rest2, hr2, hi2, hle, _⟩ :=
            ih (fun c2 hc2 => H c2 (List.mem_cons_of_mem _ hc2)) hrest
          have hw := lt_wexp (Cursor.mu c)
          by_cases hcp : Cursor.canPerform c e = true
          · obtain ⟨c', hp, hm', hmu⟩ := H c (List.mem_cons_self _ _) hc hcp
            refine ⟨some c' :: rest2, ?_, ?_, ?_, ?_⟩
            · rw [Cursor.performRow]
              simp [hcp, hp, hr2]
            · rw [Cursor.minvRow]; exact ⟨hm', hi2⟩
            · rw [Cursor.muRow, Cursor.muRowUnres]; omega
            · intro _
              rw [Cursor.muRow, Cursor.muRowUnres]; omega
          · refine ⟨none :: rest2, ?_, ?_, ?_, ?_⟩
            · rw [Cursor.performRow]
              simp [hcp, hr2]
            · rw [Cursor.minvRow]; exact hi2
            · rw [Cursor.muRow, Cursor.muRowUnres]
              have := wexp_ge_three (Cursor.mu c)
              omega
            · intro _
              rw [Cursor.muRow, Cursor.muRowUnres]
              have := wexp_ge_three (Cursor.mu c)
              omega

theorem performRows_res_dec :
    ∀ (rows : List (List (Option Cursor))) (e : Event),
      (∀ c, (∃ row ∈ rows, some c ∈ row) → Cursor.minv c →
        Cursor.canPerform c e = true →
        ∃ c', Cursor.perform c e = some c' ∧ Cursor.minv c' ∧
          Cursor.mu c' < Cursor.mu c) →
      Cursor.minvRows rows →
      ∃ rows2, Cursor.performRows rows e = some rows2 ∧ Cursor.minvRows rows2
        ∧ Cursor.muRowsRes rows2 ≤ Cursor.muRowsUnres rows
        ∧ (Cursor.canPerformRows rows e = true →
            Cursor.muRowsRes rows2 < Cursor.muRowsUnres rows) := by
  intro rows e
  induction rows with
  | nil =>
      intro _ _
      refine ⟨[], by rw [Cursor.performRows], by rw [Cursor.minvRows]; trivial,
        by rw [Cursor.muRowsRes, Cursor.muRowsUnres], ?_⟩
      intro h
      rw [Cursor.canPerformRows] at h
      cases h
  | cons row rest ih =>
      intro H hinv
      rw [Cursor.minvRows] at hinv
      obtain ⟨hrow, hrest⟩ := hinv
      obtain ⟨row2, hr2, hi2, hle2, hlt2⟩ :=
        performRow_res_dec row e
          (fun c hc => H c ⟨row, List.mem_cons_self _ _, hc⟩) hrow
      obtain ⟨rest2, hs2, hi3, hle3, hlt3⟩ :=
        ih (fun c ⟨r, hr, hcr⟩ => H c ⟨r, List.mem_cons_of_mem _ hr, hcr⟩) hrest
      refine ⟨row2 :: rest2, ?_, ?_, ?_, ?_⟩
      · rw [Cursor.performRows, hr2]
        simp [hs2]
      · rw [Cursor.minvRows]; exact ⟨hi2, hi3⟩
      · rw [Cursor.muRowsRes, Cursor.muRowsUnres]; omega
      · intro hcp
        rw [Cursor.canPerformRows] at hcp
        simp at hcp
        rw [Cursor.muRowsRes, Cursor.muRowsUnres]
        rcases hcp with hcp | hcp
        · have := hlt2 hcp
          omega
        · have := hlt3 hcp
          omega

/-- Per-row outcome of `perform_tau_when_unresolved` (with `tau_count`
already incremented to `t2`): a row that has not kept up, or whose last
subprocess cannot perform τ, is unchanged; an in-sync row with a τ-capable
last subprocess gets the advanced copy pushed. -/
def RelTau (t2 : Nat) (row row2 : List (Option Cursor)) : Prop :=
  (row2 = row ∧ (row.length = t2 → ∀ c, row.getLast? = some (some c) →
      Cursor.canPerform c .tau = false))
  ∨ (∃ c c2, row.length = t2 ∧ row.getLast? = some (some c)
      ∧ Cursor.perform c .tau = some c2 ∧ Cursor.minv c2
      ∧ Cursor.mu c2 < Cursor.mu c ∧ row2 = row ++ [some c2])

theorem performRowsTau_rel :
    ∀ (rows : List (List (Option Cursor))) (t2 : Nat),
      (∀ c, (∃ row ∈ rows, some c ∈ row) → Cursor.minv c →
        Cursor.canPerform c .tau = true →
        ∃ c', Cursor.perform c .tau = some c' ∧ Cursor.minv c' ∧
          Cursor.mu c' < Cursor.mu c) →
      Cursor.minvRows rows →
      (∀ row ∈ rows, row.length = t2 → ∃ c, row.getLast? = some (some c)) →
      ∃ rows2, Cursor.performRowsTau t2 rows = some rows2
        ∧ Cursor.minvRows rows2 ∧ List.Forall₂ (RelTau t2) rows rows2 := by
  intro rows
  induction rows with
  | nil =>
      intro t2 _ _ _
      exact ⟨[], by rw [Cursor.performRowsTau],
        by rw [Cursor.minvRows]; trivial, List.Forall₂.nil⟩
  | cons row rest ih =>
      intro t2 H hinv hlast
      rw [Cursor.minvRows] at hinv
      obtain ⟨hrow, hrest⟩ := hinv
      obtain ⟨rest2, hs2, his2, hrel2⟩ :=
        ih t2 (fun c ⟨r, hr, hcr⟩ => H c ⟨r, List.mem_cons_of_mem _ hr, hcr⟩) hrest
          (fun r hr => hlast r (List.mem_cons_of_mem _ hr))
      rw [Cursor.performRowsTau]
      by_cases hl : row.length = t2
      · obtain ⟨c, hc⟩ := hlast row (List.mem_cons_self _ _) hl
        have hcmem : some c ∈ row := getLast?_mem hc
        have hcinv : Cursor.minv c := (minvRow_iff row).mp hrow c hcmem
        by_cases hcp : Cursor.canPerform c .tau = true
        · obtain ⟨c2, hp, hic2, hmu2⟩ :=
            H c ⟨row, List.mem_cons_self _ _, hcmem⟩ hcinv hcp
          refine ⟨(row ++ [some c2]) :: rest2, ?_, ?_, ?_⟩
          · rw [if_neg (by omega : ¬row.length ≠ t2)]
            split
            · simp_all
            · simp_all
            · rename_i c3 heq
              rw [heq] at hc
              have hc3 : c3 = c := by
                injection hc with h1
                injection h1
              subst hc3
              simp [hcp, hp, hs2]
          · rw [Cursor.minvRows]
            refine ⟨?_, his2⟩
            rw [minvRow_iff]
            intro c3 hc3
            rcases List.mem_append.mp hc3 with h3 | h3
            · exact (minvRow_iff row).mp hrow c3 h3
            · simp at h3
              rw [h3]
              exact hic2
          · exact List.Forall₂.cons
              (Or.inr ⟨c, c2, hl, hc, hp, hic2, hmu2, rfl⟩) hrel2
        · refine ⟨row :: rest2, ?_, ?_, ?_⟩
          · rw [if_neg (by omega : ¬row.length ≠ t2)]
            split
            · simp_all
            · simp_all
            · rename_i c3 heq
              rw [heq] at hc
              have hc3 : c3 = c := by
                injection hc with h1
                injection h1
              subst hc3
              simp [hcp, hs2]
          · rw [Cursor.minvRows]; exact ⟨hrow, his2⟩
          · refine List.Forall₂.cons (Or.inl ⟨rfl, ?_⟩) hrel2
            intro _ c3 hc3
            rw [hc3] at hc
            injection hc with h1
            injection h1 with h2
            rw [h2]
            exact Bool.eq_false_iff.mpr hcp
      · refine ⟨row :: rest2, ?_, ?_, ?_⟩
        · rw [if_pos (hl : row.length ≠ t2)]
          simp [hs2]
        · rw [Cursor.minvRows]; exact ⟨hrow, his2⟩
        · exact List.Forall₂.cons (Or.inl ⟨rfl, fun h => absurd h hl⟩) hrel2

theorem totalTauDepth_cons (row : List (Option Cursor))
    (rest : List (List (Option Cursor))) :
    totalTauDepth (row :: rest) = (row.length - 1) + totalTauDepth rest := by
  rw [totalTauDepth, totalTauDepth, List.map_cons, List.sum_cons]

theorem this_le_totalTauDepth {row : List (Option Cursor)}
    {rows : List (List (Option Cursor))} (h : row ∈ rows) :
    row.length - 1 ≤ totalTauDepth rows := by
  rw [totalTauDepth]
  exact List.single_le_sum (fun _ _ => Nat.zero_le _) _
    (List.mem_map_of_mem _ h)

theorem relTau_aggregate {t2 : Nat} :
    ∀ {rows rows2 : List (List (Option Cursor))},
      List.Forall₂ (RelTau t2) rows rows2 →
      ∃ k, totalTauDepth rows2 = totalTauDepth rows + k
        ∧ Cursor.muRowsUnres rows2 + 3 * k ≤ Cursor.muRowsUnres rows
        ∧ (k = 0 → rows2 = rows)
        ∧ (1 ≤ k → ∃ row ∈ rows, row.length = t2) := by
  intro rows rows2 h
  induction h with
  | nil =>
      exact ⟨0, by simp, by simp, fun _ => rfl, by omega⟩
  | cons hr htail ih =>
      rename_i row row2 rest rest2
      obtain ⟨k, hk1, hk2, hk3, hk4⟩ := ih
      rcases hr with ⟨rfl, _⟩ | ⟨c, c2, hlen, hlast, hp, hic2, hmu, rfl⟩
      · refine ⟨k, ?_, ?_, ?_, ?_⟩
        · rw [totalTauDepth_cons, totalTauDepth_cons]
          omega
        · rw [Cursor.muRowsUnres, Cursor.muRowsUnres]
          omega
        · intro h0
          rw [hk3 h0]
        · intro h1
          obtain ⟨r, hr2, hrl⟩ := hk4 h1
          exact ⟨r, List.mem_cons_of_mem _ hr2, hrl⟩
      · have hne : row ≠ [] := by
          intro he
          rw [he] at hlast
          simp at hlast
        have hpos : 0 < row.length := List.length_pos.mpr hne
        have hb2 : Cursor.muBonus (row ++ [some c2]) = 2 * wexp (Cursor.mu c2) :=
          muBonus_some (List.getLast?_concat row)
        have hb1 : Cursor.muBonus row = 2 * wexp (Cursor.mu c) := muBonus_some hlast
        have hw1 : 3 * wexp (Cursor.mu c2) = wexp (Cursor.mu c2 + 1) := by
          rw [wexp, wexp]
          ring
        have hw2 := wexp_mono (show Cursor.mu c2 + 1 ≤ Cursor.mu c by omega)
        have hw3 := wexp_ge_three (Cursor.mu c)
        refine ⟨k + 1, ?_, ?_, ?_, ?_⟩
        · rw [totalTauDepth_cons, totalTauDepth_cons]
          simp only [List.length_append, List.length_singleton]
          omega
        · rw [Cursor.muRowsUnres, Cursor.muRowsUnres, muRowUnres_append, hb1, hb2]
          omega
        · intro h0
          omega
        · intro _
          exact ⟨row, List.mem_cons_self _ _, hlen⟩

theorem tau_step_bound {t : Nat} {rows : List (List (Option Cursor))}
    (hshape : extShape t rows) (hcan : Cursor.canPerformRows rows .tau = true) :
    t ≤ totalTauDepth rows := by
  obtain ⟨row, hrow, hcrow⟩ := (canPerformRows_iff rows .tau).mp hcan
  obtain ⟨c, hcmem, hcp⟩ := (canPerformRow_iff row .tau).mp hcrow
  obtain ⟨hne, hlen, hsync, hi2, hi5⟩ := hshape row hrow
  have hT := this_le_totalTauDepth hrow
  rcases Nat.lt_or_ge 1 row.length with hmulti | hsingle
  · obtain ⟨k, hk⟩ := List.mem_iff_get?.mp hcmem
    obtain ⟨hklen, _⟩ := List.get?_eq_some.mp hk
    by_contra hlt
    push_neg at hlt
    have hcond : k + (totalTauDepth rows - (row.length - 1)) < t := by
      omega
    have := hi5 hmulti k hklen hcond
    rw [hk] at this
    simp at this
  · rcases Nat.eq_zero_or_pos t with rfl | ht
    · exact Nat.zero_le _
    · exfalso
      have hl1 : row.length = 1 := by
        have := List.length_pos.mpr hne
        omega
      have hlast : row.getLast? = some (some c) := by
        cases row with
        | nil => simp at hl1
        | cons x rest =>
            have hrest : rest = [] := by
              simpa using hl1
            subst hrest
            have hx := List.mem_singleton.mp hcmem
            rw [← hx]
            rfl
      have := hi2 (by omega) c hlast
      rw [hcp] at this
      cases this

theorem totalTauDepth_deactivate (tc : Nat) (rows : List (List (Option Cursor))) :
    totalTauDepth (deactivateTauSubprocesses tc rows) = totalTauDepth rows := by
  simp only [deactivateTauSubprocesses]
  rw [totalTauDepth, totalTauDepth, List.map_map]
  congr 1
  apply List.map_congr_left
  intro row _
  simp only [Function.comp_apply]
  split
  · rfl
  · split
    · rw [deactivateRow_length]
    · rfl

theorem muRowsUnres_map_le (f : List (Option Cursor) → List (Option Cursor))
    (hf : ∀ row, f row = row ∨ ∃ m, f row = deactivateRow m row) :
    ∀ rows, Cursor.muRowsUnres (rows.map f) ≤ Cursor.muRowsUnres rows := by
  intro rows
  induction rows with
  | nil => simp [List.map_nil]
  | cons row rest ih =>
      rw [List.map_cons, Cursor.muRowsUnres, Cursor.muRowsUnres]
      have hhead : Cursor.muRowUnres (f row) + Cursor.muBonus (f row)
          ≤ Cursor.muRowUnres row + Cursor.muBonus row := by
        rcases hf row with h | ⟨m, h⟩
        · rw [h]
        · rw [h]
          exact Nat.add_le_add (muRowUnres_deactivate_le m row)
            (muBonus_deactivate_le m row)
      omega

theorem muRowsUnres_deactivate_le (tc : Nat) (rows : List (List (Option Cursor))) :
    Cursor.muRowsUnres (deactivateTauSubprocesses tc rows)
      ≤ Cursor.muRowsUnres rows := by
  simp only [deactivateTauSubprocesses]
  apply muRowsUnres_map_le
  intro row
  split
  · exact Or.inl rfl
  · split
    · exact Or.inr ⟨_, rfl⟩
    · exact Or.inl rfl

theorem minvRows_deactivate (tc : Nat) (rows : List (List (Option Cursor)))
    (h : Cursor.minvRows rows) :
    Cursor.minvRows (deactivateTauSubprocesses tc rows) := by
  rw [minvRows_iff] at h ⊢
  intro row2 hrow2
  obtain ⟨row, hrow, hcase⟩ := deactivate_result tc rows row2 hrow2
  rcases hcase with heq | ⟨m, _, heq⟩
  · rw [heq]
    exact h row hrow
  · rw [heq]
    rw [minvRow_iff]
    intro c hc
    rcases deactivateRow_mem m row _ hc with h2 | h2
    · simp at h2
    · exact (minvRow_iff row).mp (h row hrow) c h2

theorem tau_step_shape {t : Nat} {rows rows2 : List (List (Option Cursor))}
    (hshape : extShape t rows)
    (hrel : List.Forall₂ (RelTau (t + 1)) rows rows2) :
    extShape (t + 1) (deactivateTauSubprocesses (t + 1) rows2) := by
  intro row3 hrow3
  rw [totalTauDepth_deactivate]
  simp only [deactivateTauSubprocesses, List.mem_map] at hrow3
  obtain ⟨row2, hrow2, heq3⟩ := hrow3
  obtain ⟨row, hrow, hR⟩ := forall₂_mem_right hrel row2 hrow2
  obtain ⟨hne, hlen, hsync, hi2, _⟩ := hshape row hrow
  have hne2 : row2 ≠ [] := by
    rcases hR with ⟨rfl, _⟩ | ⟨c, c2, _, _, _, _, _, rfl⟩
    · exact hne
    · simp
  have hlen2 : row2.length ≤ t + 2 := by
    rcases hR with ⟨rfl, _⟩ | ⟨c, c2, hl, _, _, _, _, rfl⟩
    · omega
    · rw [List.length_append, List.length_singleton, hl]
  have hsync2 : row2.length = t + 2 → ∃ c, row2.getLast? = some (some c) := by
    rcases hR with ⟨rfl, _⟩ | ⟨c, c2, hl, _, _, _, _, rfl⟩
    · intro h
      exfalso
      omega
    · intro _
      exact ⟨c2, List.getLast?_concat _⟩
  have hi2' : row2.length ≤ t + 1 → ∀ c, row2.getLast? = some (some c) →
      Cursor.canPerform c .tau = false := by
    rcases hR with ⟨rfl, hU⟩ | ⟨c, c2, hl, _, _, _, _, rfl⟩
    · intro hl2 c hc
      rcases Nat.lt_or_ge row2.length (t + 1) with h | h
      · exact hi2 (by omega) c hc
      · exact hU (by omega) c hc
    · intro hl2
      exfalso
      rw [List.length_append, List.length_singleton, hl] at hl2
      omega
  have hpos2 : 0 < row2.length := List.length_pos.mpr hne2
  subst heq3
  by_cases h1 : row2.length = 1
  · rw [if_pos h1]
    refine ⟨hne2, by omega, ?_, hi2', ?_⟩
    · intro h
      exfalso
      omega
    · intro hm
      exact absurd hm (by omega)
  · rw [if_neg h1]
    by_cases h2 : totalTauDepth rows2 - (row2.length - 1) < t + 1
    · rw [if_pos h2]
      have hdlen : (deactivateRow
          (t + 1 - (totalTauDepth rows2 - (row2.length - 1))) row2).length
          = row2.length := deactivateRow_length _ _
      have hminle : t + 1 - (totalTauDepth rows2 - (row2.length - 1)) ≤ t + 1 :=
        Nat.sub_le _ _
      refine ⟨?_, ?_, ?_, ?_, ?_⟩
      · intro he
        rw [he] at hdlen
        simp at hdlen
        omega
      · rw [hdlen]
        exact hlen2
      · intro hl3
        rw [hdlen] at hl3
        obtain ⟨c, hc⟩ := hsync2 hl3
        refine ⟨c, ?_⟩
        rw [deactivateRow_getLast? _ _ (by omega)]
        exact hc
      · intro hl3 c hc
        rw [hdlen] at hl3
        rcases deactivateRow_getLast?_cases
            (t + 1 - (totalTauDepth rows2 - (row2.length - 1))) row2 hne2
          with hcase | hcase
        · rw [hcase] at hc
          exact hi2' hl3 c hc
        · rw [hcase] at hc
          simp at hc
      · intro hm k hk hcond
        rw [hdlen] at hk hcond
        apply deactivateRow_get?_lt
        · omega
        · exact hk
    · rw [if_neg h2]
      refine ⟨hne2, hlen2, hsync2, hi2', ?_⟩
      intro hm k hk hcond
      exfalso
      omega

/- Every guarded engine step strictly decreases the measure, preserves the
invariant, and returns normally. -/
theorem perform_dec :
    ∀ (N : Nat) (c : Cursor), sizeOf c ≤ N → ∀ e : Event, Cursor.minv c →
      Cursor.canPerform c e = true →
      ∃ c', Cursor.perform c e = some c' ∧ Cursor.minv c'
        ∧ Cursor.mu c' < Cursor.mu c := by
  intro N
  induction N with
  | zero =>
      intro c hsize
      exfalso
      cases c <;> simp at hsize
  | succ N ih =>
      intro c hsize e hinv hcan
      cases c with
      | stop => simp [Cursor.canPerform] at hcan
      | skip b =>
          rw [Cursor.canPerform] at hcan
          cases b with
          | true => simp at hcan
          | false =>
              simp at hcan
              refine ⟨.skip true, ?_, ?_, ?_⟩
              · simp [Cursor.perform, hcan]
              · rw [Cursor.minv]; trivial
              · rw [Cursor.mu, Cursor.mu]; simp
      | pfx b i c =>
          rw [Cursor.minv] at hinv
          rw [Cursor.canPerform] at hcan
          cases b with
          | false =>
              simp at hcan
              refine ⟨.pfx true i c, ?_, ?_, ?_⟩
              · simp [Cursor.perform, hcan]
              · rw [Cursor.minv]; exact hinv
              · rw [Cursor.mu, Cursor.mu]; simp
          | true =>
              simp at hcan
              have hs : sizeOf c ≤ N := by simp at hsize; omega
              obtain ⟨c', hpc, hic, hmc⟩ := ih c hs e hinv hcan
              refine ⟨.pfx true i c', ?_, ?_, ?_⟩
              · simp [Cursor.perform, hpc]
              · rw [Cursor.minv]; exact hic
              · rw [Cursor.mu, Cursor.mu]; simp; omega
      | intChoice b subs =>
          rw [Cursor.minv] at hinv
          cases b with
          | false =>
              rw [Cursor.canPerform] at hcan
              simp at hcan
              refine ⟨.intChoice true subs, ?_, ?_, ?_⟩
              · simp [Cursor.perform, hcan]
              · rw [Cursor.minv]; exact hinv
              · rw [Cursor.mu, Cursor.mu]; simp
          | true =>
              have H : ∀ pr ∈ subs, Cursor.minv pr.2 →
                  Cursor.canPerform pr.2 e = true →
                  ∃ c', Cursor.perform pr.2 e = some c' ∧ Cursor.minv c'
                    ∧ Cursor.mu c' < Cursor.mu pr.2 := by
                intro pr hpr hi hc2
                have h1 := sizeOf_pair_snd hpr
                refine ih pr.2 ?_ e hi hc2
                simp at hsize
                omega
              rw [Cursor.canPerform] at hcan
              simp at hcan
              obtain ⟨subs2, hs2, hi2, _, hlt⟩ := performSubs_dec subs e H hinv
              refine ⟨.intChoice true subs2, ?_, ?_, ?_⟩
              · simp [Cursor.perform, hs2]
              · rw [Cursor.minv]; exact hi2
              · rw [Cursor.mu, Cursor.mu]
                simp
                exact hlt hcan
      | extChoice r rows t =>
          rw [Cursor.minv] at hinv
          obtain ⟨hrows, hshapes⟩ := hinv
          have H : ∀ (e2 : Event) (c0 : Cursor), (∃ row ∈ rows, some c0 ∈ row) →
              Cursor.minv c0 → Cursor.canPerform c0 e2 = true →
              ∃ c', Cursor.perform c0 e2 = some c' ∧ Cursor.minv c'
                ∧ Cursor.mu c' < Cursor.mu c0 := by
            rintro e2 c0 ⟨row, hrow, hc0⟩ hi hc2
            have h1 := sizeOf_rows_entry hrow hc0
            refine ih c0 ?_ e2 hi hc2
            simp at hsize
            omega
          rw [Cursor.canPerform] at hcan
          cases r with
          | true =>
              obtain ⟨rows2, hr2, hir2, _, hlt⟩ :=
                performRows_dec rows e (fun c0 hc0 => H e c0 hc0) hrows
              refine ⟨.extChoice true rows2 t, ?_, ?_, ?_⟩
              · simp [Cursor.perform, hcan, hr2]
              · rw [Cursor.minv]; exact ⟨hir2, by simp⟩
              · rw [Cursor.mu, Cursor.mu]
                simp
                exact hlt hcan
          | false =>
              have hsh := hshapes rfl
              by_cases he : e = .tau
              · subst he
                obtain ⟨rows2, hr2, hir2, hrel⟩ :=
                  performRowsTau_rel rows (t + 1)
                    (fun c0 hc0 => H .tau c0 hc0) hrows
                    (fun row hrow hl => (hsh row hrow).2.2.1 hl)
                refine ⟨.extChoice false
                  (deactivateTauSubprocesses (t + 1) rows2) (t + 1), ?_, ?_, ?_⟩
                · simp [Cursor.perform, hr2]
                · rw [Cursor.minv]
                  exact ⟨minvRows_deactivate _ _ hir2,
                    fun _ => tau_step_shape hsh hrel⟩
                · rw [Cursor.mu, Cursor.mu]
                  simp
                  obtain ⟨k, hk1, hk2, _, _⟩ := relTau_aggregate hrel
                  have hd1 := muRowsUnres_deactivate_le (t + 1) rows2
                  have hd2 := totalTauDepth_deactivate (t + 1) rows2
                  have hB := tau_step_bound hsh hcan
                  omega
              · obtain ⟨rows2, hr2, hir2, _, hlt⟩ :=
                  performRows_res_dec rows e (fun c0 hc0 => H e c0 hc0) hrows
                refine ⟨.extChoice true rows2 t, ?_, ?_, ?_⟩
                · simp [Cursor.perform, he, hr2]
                · rw [Cursor.minv]; exact ⟨hir2, by simp⟩
                · rw [Cursor.mu, Cursor.mu]
                  simp
                  have := hlt hcan
                  omega
      | seq st p qs =>
          rw [Cursor.minv] at hinv
          obtain ⟨hp, hqs⟩ := hinv
          have hps : sizeOf p ≤ N := by simp at hsize; omega
          have Hq : ∀ c0 : Cursor, some c0 ∈ qs → Cursor.minv c0 →
              Cursor.canPerform c0 e = true →
              ∃ c', Cursor.perform c0 e = some c' ∧ Cursor.minv c'
                ∧ Cursor.mu c' < Cursor.mu c0 := by
            intro c0 hc0 hi hc2
            have h1 := sizeOf_row_entry hc0
            refine ih c0 ?_ e hi hc2
            simp at hsize
            omega
          obtain ⟨qs2, hq2, hiq2, hqle, hqlt⟩ := performRow_dec qs e Hq hqs
          cases st with
          | beforeTick =>
              rw [Cursor.canPerform] at hcan
              by_cases ht : e = .tick
              · rw [if_pos ht] at hcan; cases hcan
              · rw [if_neg ht] at hcan
                by_cases hta : e = .tau
                · subst hta
                  rw [if_pos rfl] at hcan
                  cases hcb : Cursor.canPerform p .tau with
                  | true =>
                      obtain ⟨p2, hpp, hip2, hmp2⟩ := ih p hps .tau hp hcb
                      cases hca : Cursor.canPerform p .tick with
                      | false =>
                          refine ⟨.seq .beforeTick p2 qs, ?_, ?_, ?_⟩
                          · simp [Cursor.perform, Cursor.performP, hcb, hca, hpp]
                          · rw [Cursor.minv]; exact ⟨hip2, hqs⟩
                          · rw [Cursor.mu, Cursor.mu]; simp; omega
                      | true =>
                          refine ⟨.seq .shrug p2 qs, ?_, ?_, ?_⟩
                          · simp [Cursor.perform, Cursor.performP, hcb, hca, hpp]
                          · rw [Cursor.minv]; exact ⟨hip2, hqs⟩
                          · rw [Cursor.mu, Cursor.mu]; simp; omega
                  | false =>
                      rw [hcb] at hcan
                      simp at hcan
                      refine ⟨.seq .afterTick p qs, ?_, ?_, ?_⟩
                      · simp [Cursor.perform, Cursor.performP, hcb, hcan]
                      · rw [Cursor.minv]; exact ⟨hp, hqs⟩
                      · rw [Cursor.mu, Cursor.mu]; simp
                · rw [if_neg hta] at hcan
                  obtain ⟨p2, hpp, hip2, hmp2⟩ := ih p hps e hp hcan
                  refine ⟨.seq .beforeTick p2 qs, ?_, ?_, ?_⟩
                  · simp [Cursor.perform, Cursor.performP, ht, hta, hcan, hpp]
                  · rw [Cursor.minv]; exact ⟨hip2, hqs⟩
                  · rw [Cursor.mu, Cursor.mu]; simp; omega
          | afterTick =>
              rw [Cursor.canPerform] at hcan
              refine ⟨.seq .afterTick p qs2, ?_, ?_, ?_⟩
              · simp [Cursor.perform, hq2]
              · rw [Cursor.minv]; exact ⟨hp, hiq2⟩
              · rw [Cursor.mu, Cursor.mu]
                simp
                have := hqlt hcan
                omega
          | shrug =>
              by_cases ht : e = .tick
              · subst ht
                rw [Cursor.canPerform] at hcan
                simp at hcan
                refine ⟨.seq .shrug p qs2, ?_, ?_, ?_⟩
                · simp [Cursor.perform, Cursor.performP, hq2]
                · rw [Cursor.minv]; exact ⟨hp, hiq2⟩
                · rw [Cursor.mu, Cursor.mu]
                  simp
                  have := hqlt hcan
                  omega
              · by_cases hta : e = .tau
                · subst hta
                  cases hcb : Cursor.canPerform p .tau with
                  | true =>
                      obtain ⟨p2, hpp, hip2, hmp2⟩ := ih p hps .tau hp hcb
                      cases hca : Cursor.canPerform p .tick with
                      | false =>
                          refine ⟨.seq .shrug p2 qs2, ?_, ?_, ?_⟩
                          · simp [Cursor.perform, Cursor.performP, hcb, hca, hpp, hq2]
                          · rw [Cursor.minv]; exact ⟨hip2, hiq2⟩
                          · rw [Cursor.mu, Cursor.mu]; omega
                      | true =>
                          refine ⟨.seq .shrug p2 qs2, ?_, ?_, ?_⟩
                          · simp [Cursor.perform, Cursor.performP, hcb, hca, hpp, hq2]
                          · rw [Cursor.minv]; exact ⟨hip2, hiq2⟩
                          · rw [Cursor.mu, Cursor.mu]; omega
                  | false =>
                      cases hca : Cursor.canPerform p .tick with
                      | false =>
                          refine ⟨.seq .afterTick p qs2, ?_, ?_, ?_⟩
                          · simp [Cursor.perform, Cursor.performP, hcb, hca, hq2]
                          · rw [Cursor.minv]; exact ⟨hp, hiq2⟩
                          · rw [Cursor.mu, Cursor.mu]; simp; omega
                      | true =>
                          refine ⟨.seq .afterTick p qs2, ?_, ?_, ?_⟩
                          · simp [Cursor.perform, Cursor.performP, hcb, hca, hq2]
                          · rw [Cursor.minv]; exact ⟨hp, hiq2⟩
                          · rw [Cursor.mu, Cursor.mu]; simp; omega
                · cases hcp : Cursor.canPerform p e with
                  | true =>
                      obtain ⟨p2, hpp, hip2, hmp2⟩ := ih p hps e hp hcp
                      refine ⟨.seq .shrug p2 qs2, ?_, ?_, ?_⟩
                      · simp [Cursor.perform, Cursor.performP, ht, hta, hcp, hpp, hq2]
                      · rw [Cursor.minv]; exact ⟨hip2, hiq2⟩
                      · rw [Cursor.mu, Cursor.mu]; omega
                  | false =>
                      refine ⟨.seq .afterTick p qs2, ?_, ?_, ?_⟩
                      · simp [Cursor.perform, Cursor.performP, ht, hta, hcp, hq2]
                      · rw [Cursor.minv]; exact ⟨hp, hiq2⟩
                      · rw [Cursor.mu, Cursor.mu]; simp; omega

theorem root_minv_aux :
    ∀ (N : Nat) (p : Proc), sizeOf p ≤ N → Cursor.minv (Proc.root p) := by
  intro N
  induction N with
  | zero =>
      intro p hsize
      exfalso
      cases p <;> simp at hsize
  | succ N ih =>
      intro p hsize
      cases p with
      | stop => rw [Proc.root, Cursor.minv]; trivial
      | skip => rw [Proc.root, Cursor.minv]; trivial
      | pfx i q =>
          rw [Proc.root, Cursor.minv]
          exact ih q (by simp at hsize; omega)
      | intChoice ps =>
          rw [Proc.root, Cursor.minv, minvSubs_iff]
          intro pr hpr
          obtain ⟨q, hq, rfl⟩ := rootSubs_mem ps pr hpr
          have h1 := List.sizeOf_lt_of_mem hq
          exact ih q (by simp at hsize; omega)
      | extChoice ps =>
          rw [Proc.root, Cursor.minv]
          constructor
          · rw [minvRows_iff]
            intro row hrow
            obtain ⟨q, hq, rfl⟩ := rootRows_mem ps row hrow
            rw [minvRow_iff]
            intro c hc
            simp at hc
            rw [hc]
            have h1 := List.sizeOf_lt_of_mem hq
            exact ih q (by simp at hsize; omega)
          · intro _ row hrow
            obtain ⟨q, hq, rfl⟩ := rootRows_mem ps row hrow
            refine ⟨by simp, by simp, fun _ => ⟨Proc.root q, rfl⟩, ?_, ?_⟩
            · intro h
              simp at h
            · intro h
              simp at h
      | seq p1 q1 =>
          rw [Proc.root, Cursor.minv]
          constructor
          · exact ih p1 (by simp at hsize; omega)
          · rw [minvRow_iff]
            intro c hc
            simp at hc
            rw [hc]
            exact ih q1 (by simp at hsize; omega)

theorem root_minv (p : Proc) : Cursor.minv (Proc.root p) :=
  root_minv_aux (sizeOf p) p le_rfl

/-- The traces that the depth-first search of `maximal_finite_traces`
completes from a cursor: follow performable events drawn from the
deduplicated initials, hiding τ, until a state with no initials.  (On
measure-decreasing cursors the cycle branch never fires, so this is the
whole behaviour of `subprocess`.) -/
inductive CT : Cursor → List Event → Prop where
  | done {c : Cursor} : (Cursor.events c).dedup = [] → CT c []
  | tau {c c' : Cursor} {tr : List Event} :
      Event.tau ∈ (Cursor.events c).dedup → Cursor.perform c .tau = some c' →
      CT c' tr → CT c tr
  | vis {c c' : Cursor} {e : Event} {tr : List Event} :
      e ∈ (Cursor.events c).dedup → e ≠ .tau → Cursor.perform c e = some c' →
      CT c' tr → CT c (e :: tr)

theorem ct_nonempty : ∀ (M : Nat) (c : Cursor), Cursor.minv c →
    Cursor.mu c ≤ M → ∃ t, CT c t := by
  intro M
  induction M using Nat.strong_induction_on with
  | _ M ihM =>
      intro c hminv hmu
      by_cases hI : (Cursor.events c).dedup = []
      · exact ⟨[], CT.done hI⟩
      · obtain ⟨e, hemem⟩ := List.exists_mem_of_ne_nil _ hI
        have hcan : Cursor.canPerform c e = true :=
          (events_iff_canPerform (sizeOf c) c le_rfl e).mp
            (List.mem_dedup.mp hemem)
        obtain ⟨c2, hp2, hm2, hmu2⟩ := perform_dec (sizeOf c) c le_rfl e hminv hcan
        obtain ⟨t, ht⟩ := ihM (Cursor.mu c2) (by omega) c2 hm2 le_rfl
        by_cases he : e = Event.tau
        · subst he
          exact ⟨t, CT.tau hemem hp2 ht⟩
        · exact ⟨e :: t, CT.vis hemem he hp2 ht⟩

theorem ct_finite : ∀ (M : Nat) (c : Cursor), Cursor.minv c →
    Cursor.mu c ≤ M → Set.Finite {t | CT c t} := by
  intro M
  induction M using Nat.strong_induction_on with
  | _ M ihM =>
      intro c hminv hmu
      have hcov : {t | CT c t} ⊆
          Insert.insert ([] : List Event)
            (⋃ e ∈ {e : Event | e ∈ (Cursor.events c).dedup},
              ⋃ c2 ∈ {c2 : Cursor | Cursor.perform c e = some c2},
                (fun t => if e = Event.tau then t else e :: t) '' {t | CT c2 t}) := by
        intro t ht
        cases ht with
        | done h => exact Set.mem_insert _ _
        | tau hmem hp ht2 =>
            refine Set.mem_insert_of_mem _ ?_
            refine Set.mem_biUnion hmem ?_
            refine Set.mem_biUnion hp ?_
            exact ⟨_, ht2, by simp⟩
        | vis hmem hne hp ht2 =>
            refine Set.mem_insert_of_mem _ ?_
            refine Set.mem_biUnion hmem ?_
            refine Set.mem_biUnion hp ?_
            exact ⟨_, ht2, by simp [hne]⟩
      apply Set.Finite.subset ?_ hcov
      apply Set.Finite.insert
      apply Set.Finite.biUnion (List.finite_toSet _)
      intro e hemem
      apply Set.Finite.biUnion
      · rcases hperf : Cursor.perform c e with _ | c0
        · apply Set.Finite.subset Set.finite_empty
          intro x hx
          have hx2 : (none : Option Cursor) = some x := hx
          cases hx2
        · apply Set.Finite.subset (Set.finite_singleton c0)
          intro x hx
          have hx2 : some c0 = some x := hx
          injection hx2 with h3
          show x = c0
          exact h3.symm
      · intro c2 hc2
        rw [Set.mem_setOf_eq] at hc2
        have hcan : Cursor.canPerform c e = true :=
          (events_iff_canPerform (sizeOf c) c le_rfl e).mp
            (List.mem_dedup.mp hemem)
        obtain ⟨c2', hp2, hm2, hmu2⟩ := perform_dec (sizeOf c) c le_rfl e hminv hcan
        rw [hc2] at hp2
        injection hp2 with h3
        subst h3
        apply Set.Finite.image
        exact ihM (Cursor.mu c2) (by omega) c2 hm2 le_rfl

/-- The contribution of one initial event to the traces collected below a
cursor: the after-cursor's completed traces, prefixed by the accumulated
trace and (for a visible event) the event itself. -/
def brOne (c : Cursor) (tr : List Event) (e : Event) : Set (List Event) :=
  {u | ∃ c2, Cursor.perform c e = some c2 ∧
    ((e = Event.tau ∧ ∃ t, CT c2 t ∧ u = tr ++ t)
      ∨ (e ≠ Event.tau ∧ ∃ t, CT c2 t ∧ u = tr ++ e :: t))}

def brUnion (c : Cursor) (tr : List Event) : List Event → Set (List Event)
  | [] => ∅
  | e :: es => brOne c tr e ∪ brUnion c tr es

theorem mem_brUnion : ∀ (es : List Event) (c : Cursor) (tr u : List Event),
    u ∈ brUnion c tr es ↔ ∃ e ∈ es, u ∈ brOne c tr e := by
  intro es c tr u
  induction es with
  | nil =>
      rw [brUnion]
      simp
  | cons e es ih =>
      rw [brUnion]
      rw [Set.mem_union, ih]
      constructor
      · rintro (h | ⟨e2, he2, h⟩)
        · exact ⟨e, List.mem_cons_self _ _, h⟩
        · exact ⟨e2, List.mem_cons_of_mem _ he2, h⟩
      · rintro ⟨e2, he2, h⟩
        rcases List.mem_cons.mp he2 with rfl | he2
        · exact Or.inl h
        · exact Or.inr ⟨e2, he2, h⟩

theorem brOne_tau_eq {c c2 : Cursor} (hp : Cursor.perform c .tau = some c2)
    (tr : List Event) :
    brOne c tr .tau = (fun t => tr ++ t) '' {t | CT c2 t} := by
  ext u
  rw [brOne]
  constructor
  · rintro ⟨c3, hp3, ⟨_, t, ht, rfl⟩ | ⟨hne, _⟩⟩
    · rw [hp] at hp3
      injection hp3 with h3
      subst h3
      exact ⟨t, ht, rfl⟩
    · exact absurd rfl hne
  · rintro ⟨t, ht, rfl⟩
    exact ⟨c2, hp, Or.inl ⟨rfl, t, ht, rfl⟩⟩

theorem brOne_vis_eq {c c2 : Cursor} {e : Event} (hne : e ≠ .tau)
    (hp : Cursor.perform c e = some c2) (tr : List Event) :
    brOne c tr e = (fun t => (tr ++ [e]) ++ t) '' {t | CT c2 t} := by
  ext u
  rw [brOne]
  constructor
  · rintro ⟨c3, hp3, ⟨he, _⟩ | ⟨_, t, ht, rfl⟩⟩
    · exact absurd he hne
    · rw [hp] at hp3
      injection hp3 with h3
      subst h3
      exact ⟨t, ht, by simp⟩
  · rintro ⟨t, ht, rfl⟩
    refine ⟨c2, hp, Or.inr ⟨hne, t, ht, by simp⟩⟩

theorem ct_image_eq_brUnion {c : Cursor}
    (hne : (Cursor.events c).dedup ≠ []) (tr : List Event) :
    (fun t => tr ++ t) '' {t | CT c t}
      = brUnion c tr ((Cursor.events c).dedup) := by
  ext u
  rw [mem_brUnion]
  constructor
  · rintro ⟨t, ht, rfl⟩
    cases ht with
    | done h => exact absurd h hne
    | tau hmem hp ht2 =>
        exact ⟨.tau, hmem, _, hp, Or.inl ⟨rfl, _, ht2, rfl⟩⟩
    | vis hmem hvne hp ht2 =>
        exact ⟨_, hmem, _, hp, Or.inr ⟨hvne, _, ht2, rfl⟩⟩
  · rintro ⟨e, hemem, c2, hp, ⟨rfl, t, ht, rfl⟩ | ⟨hvne, t, ht, rfl⟩⟩
    · exact ⟨t, CT.tau hemem hp ht, rfl⟩
    · exact ⟨e :: t, CT.vis hemem hvne hp ht, rfl⟩

theorem mftAux_prefixMaximal (n : Nat) (res : Finset (List Event)) (c : Cursor)
    (prev : List Cursor) (tr : List Event) (h : PrefixMaximal res) :
    PrefixMaximal (mftAux n res c prev tr) :=
  mftAux_preserves PrefixMaximal (fun _ _ hS => insert_prefixMaximal hS)
    n res c prev tr h

/- With enough fuel, the depth-first search computes exactly the maximal
elements of the accumulator joined with the prefixed completed traces of
the cursor. -/
theorem mftAux_char :
    ∀ (M : Nat) (c : Cursor), Cursor.minv c → Cursor.mu c ≤ M →
      ∀ n : Nat, M < n → ∀ prev : List Cursor,
        (∀ p ∈ prev, Cursor.mu c < Cursor.mu p) →
      ∀ (res : Finset (List Event)) (tr : List Event), PrefixMaximal res →
        ↑(mftAux n res c prev tr)
          = maximalSet (↑res ∪ (fun t => tr ++ t) '' {t | CT c t}) := by
  intro M
  induction M using Nat.strong_induction_on with
  | _ M ihM =>
      intro c hminv hmu n hn prev hprev res tr hres
      obtain ⟨n0, rfl⟩ : ∃ n0, n = n0 + 1 := ⟨n - 1, by omega⟩
      have hcyc : ¬(prev.any (fun p => Cursor.beq c p) = true) := by
        intro h
        rw [List.any_eq_true] at h
        obtain ⟨p, hp, hbeq⟩ := h
        have heq := beq_sound (sizeOf c) c p le_rfl hbeq
        have hlt := hprev p hp
        rw [← heq] at hlt
        exact lt_irrefl _ hlt
      rw [mftAux, if_neg hcyc]
      dsimp only
      by_cases hI : ((Cursor.events c).dedup).isEmpty = true
      · rw [if_pos hI]
        have hInil : (Cursor.events c).dedup = [] := by
          rwa [List.isEmpty_iff] at hI
        have hCT : {t | CT c t} = {([] : List Event)} := by
          ext t
          constructor
          · intro ht
            cases ht with
            | done _ => rfl
            | tau hmem _ _ =>
                rw [hInil] at hmem
                cases hmem
            | vis hmem _ _ _ =>
                rw [hInil] at hmem
                cases hmem
          · rintro rfl
            exact CT.done hInil
        rw [hCT, Set.image_singleton, insert_eq_maximalSet hres]
        simp
      · rw [if_neg hI]
        have hne : (Cursor.events c).dedup ≠ [] := by
          intro h
          rw [h] at hI
          simp at hI
        have hfold : ∀ es : List Event,
            (∀ e ∈ es, e ∈ (Cursor.events c).dedup) →
            ∀ res2 : Finset (List Event), PrefixMaximal res2 →
            ↑(mftFold n0 es res2 c prev tr)
              = maximalSet (↑res2 ∪ brUnion c tr es) := by
          intro es
          induction es with
          | nil =>
              intro _ res2 hres2
              rw [mftFold, brUnion, Set.union_empty]
              exact (prefixMaximal_iff_maximalSet.mp hres2).symm
          | cons e es ihe =>
              intro hsub res2 hres2
              have hemem := hsub e (List.mem_cons_self _ _)
              have hcan : Cursor.canPerform c e = true :=
                (events_iff_canPerform (sizeOf c) c le_rfl e).mp
                  (List.mem_dedup.mp hemem)
              obtain ⟨c2, hp2, hm2, hmu2⟩ :=
                perform_dec (sizeOf c) c le_rfl e hminv hcan
              have hchild : ∀ (res3 : Finset (List Event)) (tr3 : List Event),
                  PrefixMaximal res3 →
                  ↑(mftAux n0 res3 c2 (prev ++ [c]) tr3)
                    = maximalSet (↑res3
                        ∪ (fun t => tr3 ++ t) '' {t | CT c2 t}) := by
                intro res3 tr3 hres3
                refine ihM (Cursor.mu c2) (by omega) c2 hm2 le_rfl n0 (by omega)
                  (prev ++ [c]) ?_ res3 tr3 hres3
                intro p hp
                rcases List.mem_append.mp hp with hp | hp
                · exact lt_trans hmu2 (hprev p hp)
                · simp at hp
                  rw [hp]
                  exact hmu2
              have hfin : (↑res2
                  ∪ (fun t => tr ++ t) '' {t | CT c2 t}).Finite :=
                (res2.finite_toSet).union (Set.Finite.image _
                  (ct_finite (Cursor.mu c2) c2 hm2 le_rfl))
              have hfin2 : (↑res2
                  ∪ (fun t => (tr ++ [e]) ++ t) '' {t | CT c2 t}).Finite :=
                (res2.finite_toSet).union (Set.Finite.image _
                  (ct_finite (Cursor.mu c2) c2 hm2 le_rfl))
              rw [mftFold]
              simp only [hp2]
              by_cases he : e = Event.tau
              · subst he
                rw [if_pos rfl]
                rw [ihe (fun x hx => hsub x (List.mem_cons_of_mem _ hx)) _
                  (mftAux_prefixMaximal n0 res2 c2 (prev ++ [c]) tr hres2)]
                rw [hchild res2 tr hres2]
                rw [← maximalSet_union_congr hfin]
                rw [brUnion, brOne_tau_eq hp2 tr, Set.union_assoc]
              · rw [if_neg he]
                rw [ihe (fun x hx => hsub x (List.mem_cons_of_mem _ hx)) _
                  (mftAux_prefixMaximal n0 res2 c2 (prev ++ [c]) (tr ++ [e]) hres2)]
                rw [hchild res2 (tr ++ [e]) hres2]
                rw [← maximalSet_union_congr hfin2]
                rw [brUnion, brOne_vis_eq he hp2 tr, Set.union_assoc]
        rw [hfold ((Cursor.events c).dedup) (fun e he => he) res hres]
        rw [← ct_image_eq_brUnion hne tr]

theorem maximalSet_eq_of_subset_dom {A B : Set (List Event)} (hAB : A ⊆ B)
    (hdom : ∀ u ∈ B, ∃ v ∈ A, u <+: v) : maximalSet A = maximalSet B := by
  ext m
  constructor
  · rintro ⟨hmA, hmax⟩
    refine ⟨hAB hmA, ?_⟩
    intro u hu hpre
    obtain ⟨v, hvA, huv⟩ := hdom u hu
    have hmv := hmax v hvA (hpre.trans huv)
    rw [← hmv] at huv
    exact prefix_antisymm hpre huv
  · rintro ⟨hmB, hmax⟩
    obtain ⟨v, hvA, hmv⟩ := hdom m hmB
    have heq := hmax v (hAB hvA) hmv
    rw [← heq] at hvA
    exact ⟨hvA, fun u hu hpre => hmax u (hAB hu) hpre⟩

/-- `maximal_finite_traces` with sufficient fuel computes the maximal
completed traces. -/
theorem mft_eq {c : Cursor} (hminv : Cursor.minv c) {n : Nat}
    (hn : Cursor.mu c < n) :
    ↑(maximalFiniteTraces n c) = maximalSet {t | CT c t} := by
  rw [maximalFiniteTraces]
  rw [mftAux_char (Cursor.mu c) c hminv le_rfl n hn []
    (by intro p hp; cases hp) MaximalTraces.new [] new_prefixMaximal]
  have himg : (fun t => [] ++ t) '' {t | CT c t} = {t | CT c t} := by
    simp
  have hnew : (↑MaximalTraces.new : Set (List Event))
      = ({[]} : Set (List Event)) := by
    rw [MaximalTraces.new]
    simp
  rw [himg, hnew, Set.union_comm]
  exact maximalSet_union_nil (ct_nonempty (Cursor.mu c) c hminv le_rfl)

theorem eventsSubs_mem_of : ∀ (subs : List (Bool × Cursor)) (c : Cursor) (e : Event),
    (true, c) ∈ subs → e ∈ Cursor.events c → e ∈ Cursor.eventsSubs subs := by
  intro subs
  induction subs with
  | nil =>
      intro c e h
      cases h
  | cons pr rest ih =>
      intro c e h he
      obtain ⟨a, c1⟩ := pr
      rw [Cursor.eventsSubs, List.mem_append]
      rcases List.mem_cons.mp h with heq | h2
      · injection heq with h3 h4
        subst h3
        subst h4
        exact Or.inl (by simpa using he)
      · exact Or.inr (ih c e h2 he)

theorem eventsSubs_elim : ∀ (subs : List (Bool × Cursor)) (e : Event),
    e ∈ Cursor.eventsSubs subs →
    ∃ c, (true, c) ∈ subs ∧ e ∈ Cursor.events c := by
  intro subs
  induction subs with
  | nil =>
      intro e h
      rw [Cursor.eventsSubs] at h
      cases h
  | cons pr rest ih =>
      intro e h
      obtain ⟨a, c1⟩ := pr
      rw [Cursor.eventsSubs, List.mem_append] at h
      rcases h with h | h
      · cases a with
        | false => simp at h
        | true =>
            simp at h
            exact ⟨c1, List.mem_cons_self _ _, h⟩
      · obtain ⟨c, hc, he⟩ := ih e h
        exact ⟨c, List.mem_cons_of_mem _ hc, he⟩

theorem forall₂_mem_left {α β : Type} {R : α → β → Prop} :
    ∀ {l1 : List α} {l2 : List β}, List.Forall₂ R l1 l2 →
      ∀ a ∈ l1, ∃ b ∈ l2, R a b := by
  intro l1 l2 h
  induction h with
  | nil =>
      intro a ha
      cases ha
  | cons hr _ ih =>
      intro a ha
      rcases List.mem_cons.mp ha with rfl | ha
      · exact ⟨_, List.mem_cons_self _ _, hr⟩
      · obtain ⟨b, hb, hbr⟩ := ih a ha
        exact ⟨b, List.mem_cons_of_mem _ hb, hbr⟩

/-- Per-subcursor outcome of `InternalChoiceCursor::perform` in state
`AfterTau`. -/
def RelSubs (e : Event) : (Bool × Cursor) → (Bool × Cursor) → Prop :=
  fun pr pr2 =>
    (pr.1 = false ∧ pr2 = pr)
    ∨ (pr.1 = true ∧ Cursor.canPerform pr.2 e = true ∧ pr2.1 = true
        ∧ Cursor.perform pr.2 e = some pr2.2 ∧ Cursor.minv pr2.2)
    ∨ (pr.1 = true ∧ Cursor.canPerform pr.2 e = false ∧ pr2 = (false, pr.2))

theorem performSubs_rel :
    ∀ (subs : List (Bool × Cursor)) (e : Event),
      Cursor.minvSubs subs →
      ∃ subs2, Cursor.performSubs subs e = some subs2
        ∧ Cursor.minvSubs subs2 ∧ List.Forall₂ (RelSubs e) subs subs2 := by
  intro subs e
  induction subs with
  | nil =>
      exact fun _ => ⟨[], by rw [Cursor.performSubs],
        by rw [Cursor.minvSubs]; trivial, List.Forall₂.nil⟩
  | cons pr rest ih =>
      intro hinv
      obtain ⟨a, c⟩ := pr
      rw [Cursor.minvSubs] at hinv
      obtain ⟨hc, hrest⟩ := hinv
      obtain ⟨rest2, hr2, hir2, hrel2⟩ := ih hrest
      rw [Cursor.performSubs]
      cases a with
      | false =>
          refine ⟨(false, c) :: rest2, by simp [hr2], ?_, ?_⟩
          · rw [Cursor.minvSubs]
            exact ⟨hc, hir2⟩
          · exact List.Forall₂.cons (Or.inl ⟨rfl, rfl⟩) hrel2
      | true =>
          by_cases hcp : Cursor.canPerform c e = true
          · obtain ⟨c2, hp, hm2, _⟩ := perform_dec (sizeOf c) c le_rfl e hc hcp
            refine ⟨(true, c2) :: rest2, by simp [hcp, hp, hr2], ?_, ?_⟩
            · rw [Cursor.minvSubs]
              exact ⟨hm2, hir2⟩
            · exact List.Forall₂.cons (Or.inr (Or.inl ⟨rfl, hcp, rfl, hp, hm2⟩)) hrel2
          · refine ⟨(false, c) :: rest2, by simp [hcp, hr2], ?_, ?_⟩
            · rw [Cursor.minvSubs]
              exact ⟨hc, hir2⟩
            · refine List.Forall₂.cons (Or.inr (Or.inr ⟨rfl, ?_, rfl⟩)) hrel2
              exact Bool.eq_false_iff.mpr hcp

theorem events_agg (subs : List (Bool × Cursor)) :
    Cursor.events (.intChoice true subs) = Cursor.eventsSubs subs := by
  rw [Cursor.events]
  simp

theorem perform_agg {subs subs2 : List (Bool × Cursor)} {e : Event}
    (h : Cursor.performSubs subs e = some subs2) :
    Cursor.perform (.intChoice true subs) e
      = some (.intChoice true subs2) := by
  rw [Cursor.perform]
  simp [h]


/-- Every trace the search completes on the aggregate cursor of an internal
choice in state `AfterTau` is completed by one of the activated branches
(or the aggregate is empty and the trace trivial). -/
theorem ct_agg_sub :
    ∀ {c : Cursor} {t : List Event}, CT c t →
      ∀ subs : List (Bool × Cursor), c = .intChoice true subs →
      Cursor.minvSubs subs →
      (∃ c2, (true, c2) ∈ subs ∧ CT c2 t)
        ∨ ((∀ pr ∈ subs, pr.1 = false) ∧ t = []) := by
  intro c t h
  induction h with
  | done hI =>
      intro subs heq hminv
      subst heq
      rw [events_agg] at hI
      have hevnil : Cursor.eventsSubs subs = [] := (List.dedup_eq_nil _).mp hI
      by_cases hlive : ∃ c2, (true, c2) ∈ subs
      · obtain ⟨c2, hc2⟩ := hlive
        left
        refine ⟨c2, hc2, CT.done ?_⟩
        rw [List.dedup_eq_nil, List.eq_nil_iff_forall_not_mem]
        intro e he
        have hmem := eventsSubs_mem_of subs c2 e hc2 he
        rw [hevnil] at hmem
        cases hmem
      · right
        refine ⟨?_, rfl⟩
        intro pr hpr
        obtain ⟨a, c2⟩ := pr
        cases a with
        | false => rfl
        | true => exact absurd ⟨c2, hpr⟩ hlive
  | @tau c0 c' tr hmem hp ht2 ih =>
      intro subs heq hminv
      subst heq
      rw [events_agg] at hmem
      obtain ⟨subs2, hp2, hi2, hrel⟩ := performSubs_rel subs .tau hminv
      rw [perform_agg hp2] at hp
      injection hp with h3
      rcases ih subs2 h3.symm hi2 with ⟨c2, hc2mem, hct⟩ | ⟨hnl, rfl⟩
      · obtain ⟨pr, hprmem, hR⟩ := forall₂_mem_right hrel (true, c2) hc2mem
        obtain ⟨a, c1⟩ := pr
        rcases hR with ⟨ha, hpr2⟩ | ⟨ha, hcan, _, hperf, _⟩ | ⟨_, _, hpr2⟩
        · injection hpr2 with h4 h5
          rw [← h4] at ha
          cases ha
        · have ha2 : a = true := ha
          subst ha2
          have hcan2 : Cursor.canPerform c1 .tau = true := hcan
          have hperf2 : Cursor.perform c1 .tau = some c2 := hperf
          left
          refine ⟨c1, hprmem, CT.tau ?_ hperf2 hct⟩
          rw [List.mem_dedup]
          exact (events_iff_canPerform (sizeOf c1) c1 le_rfl .tau).mpr hcan2
        · injection hpr2 with h4 h5
          cases h4
      · exfalso
        obtain ⟨c1, hc1mem, hev⟩ :=
          eventsSubs_elim subs .tau (List.mem_dedup.mp hmem)
        have hcan := (events_iff_canPerform (sizeOf c1) c1 le_rfl .tau).mp hev
        obtain ⟨pr2, hpr2mem, hR⟩ := forall₂_mem_left hrel (true, c1) hc1mem
        rcases hR with ⟨ha, _⟩ | ⟨_, _, ha2, _, _⟩ | ⟨_, hcan2, _⟩
        · cases ha
        · have hf := hnl pr2 hpr2mem
          rw [ha2] at hf
          cases hf
        · have hcan3 : Cursor.canPerform c1 .tau = false := hcan2
          rw [hcan] at hcan3
          cases hcan3
  | @vis c0 c' e tr hmem hne hp ht2 ih =>
      intro subs heq hminv
      subst heq
      rw [events_agg] at hmem
      obtain ⟨subs2, hp2, hi2, hrel⟩ := performSubs_rel subs e hminv
      rw [perform_agg hp2] at hp
      injection hp with h3
      rcases ih subs2 h3.symm hi2 with ⟨c2, hc2mem, hct⟩ | ⟨hnl, htr⟩
      · obtain ⟨pr, hprmem, hR⟩ := forall₂_mem_right hrel (true, c2) hc2mem
        obtain ⟨a, c1⟩ := pr
        rcases hR with ⟨ha, hpr2⟩ | ⟨ha, hcan, _, hperf, _⟩ | ⟨_, _, hpr2⟩
        · injection hpr2 with h4 h5
          rw [← h4] at ha
          cases ha
        · have ha2 : a = true := ha
          subst ha2
          have hcan2 : Cursor.canPerform c1 e = true := hcan
          have hperf2 : Cursor.perform c1 e = some c2 := hperf
          left
          refine ⟨c1, hprmem, CT.vis ?_ hne hperf2 hct⟩
          rw [List.mem_dedup]
          exact (events_iff_canPerform (sizeOf c1) c1 le_rfl e).mpr hcan2
        · injection hpr2 with h4 h5
          cases h4
      · exfalso
        obtain ⟨c1, hc1mem, hev⟩ :=
          eventsSubs_elim subs e (List.mem_dedup.mp hmem)
        have hcan := (events_iff_canPerform (sizeOf c1) c1 le_rfl e).mp hev
        obtain ⟨pr2, hpr2mem, hR⟩ := forall₂_mem_left hrel (true, c1) hc1mem
        rcases hR with ⟨ha, _⟩ | ⟨_, _, ha2, _, _⟩ | ⟨_, hcan2, _⟩
        · cases ha
        · have hf := hnl pr2 hpr2mem
          rw [ha2] at hf
          cases hf
        · have hcan3 : Cursor.canPerform c1 e = false := hcan2
          rw [hcan] at hcan3
          cases hcan3

/-- Every trace completed by an activated branch is a prefix of a trace
completed by the aggregate cursor. -/
theorem ct_agg_dom :
    ∀ {c : Cursor} {t : List Event}, CT c t →
      ∀ subs : List (Bool × Cursor), Cursor.minvSubs subs →
      (true, c) ∈ subs →
      ∃ v, CT (.intChoice true subs) v ∧ t <+: v := by
  intro c t h
  induction h with
  | done hI =>
      intro subs hminv _
      have hm : Cursor.minv (.intChoice true subs) := by
        rw [Cursor.minv]
        exact hminv
      obtain ⟨v, hv⟩ :=
        ct_nonempty (Cursor.mu (.intChoice true subs)) _ hm le_rfl
      exact ⟨v, hv, List.nil_prefix⟩
  | @tau c0 c' tr hmem hp ht2 ih =>
      intro subs hminv hcmem
      have hcan : Cursor.canPerform c0 .tau = true :=
        (events_iff_canPerform (sizeOf c0) c0 le_rfl .tau).mp
          (List.mem_dedup.mp hmem)
      obtain ⟨subs2, hp2, hi2, hrel⟩ := performSubs_rel subs .tau hminv
      obtain ⟨pr2, hpr2mem, hR⟩ := forall₂_mem_left hrel (true, c0) hcmem
      obtain ⟨a2, c2⟩ := pr2
      rcases hR with ⟨ha, _⟩ | ⟨_, _, ha2, hperf, _⟩ | ⟨_, hcan2, _⟩
      · cases ha
      · have hperf2 : Cursor.perform c0 .tau = some c2 := hperf
        rw [hp] at hperf2
        injection hperf2 with h3
        subst h3
        have ha3 : a2 = true := ha2
        subst ha3
        obtain ⟨v, hv, hpre⟩ := ih subs2 hi2 hpr2mem
        refine ⟨v, CT.tau ?_ (perform_agg hp2) hv, hpre⟩
        rw [events_agg, List.mem_dedup]
        exact eventsSubs_mem_of subs c0 .tau hcmem (List.mem_dedup.mp hmem)
      · have hcan3 : Cursor.canPerform c0 .tau = false := hcan2
        rw [hcan] at hcan3
        cases hcan3
  | @vis c0 c' e tr hmem hne hp ht2 ih =>
      intro subs hminv hcmem
      have hcan : Cursor.canPerform c0 e = true :=
        (events_iff_canPerform (sizeOf c0) c0 le_rfl e).mp
          (List.mem_dedup.mp hmem)
      obtain ⟨subs2, hp2, hi2, hrel⟩ := performSubs_rel subs e hminv
      obtain ⟨pr2, hpr2mem, hR⟩ := forall₂_mem_left hrel (true, c0) hcmem
      obtain ⟨a2, c2⟩ := pr2
      rcases hR with ⟨ha, _⟩ | ⟨_, _, ha2, hperf, _⟩ | ⟨_, hcan2, _⟩
      · cases ha
      · have hperf2 : Cursor.perform c0 e = some c2 := hperf
        rw [hp] at hperf2
        injection hperf2 with h3
        subst h3
        have ha3 : a2 = true := ha2
        subst ha3
        obtain ⟨v, hv, hpre⟩ := ih subs2 hi2 hpr2mem
        refine ⟨e :: v, CT.vis ?_ hne (perform_agg hp2) hv, ?_⟩
        · rw [events_agg, List.mem_dedup]
          exact eventsSubs_mem_of subs c0 e hcmem (List.mem_dedup.mp hmem)
        · exact List.cons_prefix_cons.mpr ⟨rfl, hpre⟩
      · have hcan3 : Cursor.canPerform c0 e = false := hcan2
        rw [hcan] at hcan3
        cases hcan3

/-- The root of an internal choice only performs the committing τ and then
behaves like the aggregate. -/
theorem ct_before_tau (subs : List (Bool × Cursor)) :
    {t | CT (.intChoice false subs) t} = {t | CT (.intChoice true subs) t} := by
  have hev : Cursor.events (.intChoice false subs) = [Event.tau] := by
    rw [Cursor.events]
    simp
  have hperf : Cursor.perform (.intChoice false subs) .tau
      = some (.intChoice true subs) := by
    rw [Cursor.perform]
    simp
  ext t
  constructor
  · intro ht
    cases ht with
    | done h =>
        rw [hev] at h
        simp at h
    | tau hmem hp ht2 =>
        rw [hperf] at hp
        injection hp with h3
        rw [← h3] at ht2
        exact ht2
    | vis hmem hne _ _ =>
        rw [hev] at hmem
        simp at hmem
        exact absurd hmem hne
  · intro ht
    refine CT.tau ?_ hperf ht
    rw [hev]
    simp

/-- C5: for all processes P and Q, the root cursor of
`internal_choice(P, Q)` has initials exactly {τ} (both as the reported
event alphabet and under `can_perform`), and — once given enough recursion
fuel for the search to complete, which exists for every P and Q —
`maximal_finite_traces(internal_choice(P, Q))` equals the maximal-trace sum
(the `Add for MaximalTraces` prefix-maximal union) of
`maximal_finite_traces(P)` and `maximal_finite_traces(Q)`. -/
theorem c5_internal_choice_trace_sum (P Q : Proc) :
    Cursor.events (Proc.root (internalChoice P Q)) = [Event.tau]
    ∧ (∀ e : Event,
        Cursor.canPerform (Proc.root (internalChoice P Q)) e = true
          ↔ e = Event.tau)
    ∧ ∃ N : Nat, ∀ k : Nat,
        maximalFiniteTraces (N + k) (Proc.root (internalChoice P Q))
          = MaximalTraces.add (maximalFiniteTraces (N + k) (Proc.root P))
              (maximalFiniteTraces (N + k) (Proc.root Q)) := by
  have hroot : Proc.root (internalChoice P Q)
      = .intChoice false [(true, Proc.root P), (true, Proc.root Q)] := by
    rw [internalChoice, Proc.root, Proc.rootSubs, Proc.rootSubs, Proc.rootSubs]
  refine ⟨?_, ?_, ?_⟩
  · rw [hroot, Cursor.events]
    simp
  · intro e
    rw [hroot, Cursor.canPerform]
    simp
  · have hminv0 : Cursor.minvSubs [(true, Proc.root P), (true, Proc.root Q)] := by
      rw [Cursor.minvSubs, Cursor.minvSubs, Cursor.minvSubs]
      exact ⟨root_minv P, root_minv Q, trivial⟩
    have hminvIC : Cursor.minv (Proc.root (internalChoice P Q)) := root_minv _
    have hfinP : Set.Finite {t | CT (Proc.root P) t} :=
      ct_finite _ _ (root_minv P) le_rfl
    have hfinQ : Set.Finite {t | CT (Proc.root Q) t} :=
      ct_finite _ _ (root_minv Q) le_rfl
    have hkey : maximalSet {t | CT (Proc.root (internalChoice P Q)) t}
        = maximalSet ({t | CT (Proc.root P) t} ∪ {t | CT (Proc.root Q) t}) := by
      rw [hroot, ct_before_tau]
      apply maximalSet_eq_of_subset_dom
      · intro t ht
        rcases ct_agg_sub ht [(true, Proc.root P), (true, Proc.root Q)] rfl hminv0
          with ⟨c2, hc2mem, hct⟩ | ⟨hnl, _⟩
        · simp at hc2mem
          rcases hc2mem with h | h
          · left
            rw [← h]
            exact hct
          · right
            rw [← h]
            exact hct
        · exfalso
          have hf := hnl (true, Proc.root P) (List.mem_cons_self _ _)
          cases hf
      · intro u hu
        rcases hu with hu | hu
        · exact ct_agg_dom hu _ hminv0 (List.mem_cons_self _ _)
        · exact ct_agg_dom hu _ hminv0 (by simp)
    refine ⟨Cursor.mu (Proc.root (internalChoice P Q))
      + Cursor.mu (Proc.root P) + Cursor.mu (Proc.root Q) + 1, ?_⟩
    intro k
    apply Finset.coe_injective
    have hPFP : PrefixMaximal (maximalFiniteTraces
        (Cursor.mu (Proc.root (internalChoice P Q))
          + Cursor.mu (Proc.root P) + Cursor.mu (Proc.root Q) + 1 + k)
        (Proc.root P)) := by
      rw [maximalFiniteTraces]
      exact mftAux_prefixMaximal _ _ _ _ _ new_prefixMaximal
    rw [mft_eq hminvIC (by omega), add_eq_maximalSet hPFP,
      mft_eq (root_minv P) (by omega), mft_eq (root_minv Q) (by omega),
      ← maximalSet_union_congr hfinP, ← maximalSet_union_congr_right hfinQ]
    exact hkey
